import Mathlib

set_option autoImplicit false
set_option maxHeartbeats 1000000

namespace Nd

/-! Shallow embedding of nested_diff (`nested_diff/__init__.py`): the value
model, deep equality (Python `==`), the canonical pickle encoding, the
`SequenceMatcher` block algorithm, `Differ.diff` / `diff_dicts` /
`diff_lists` / `get_default_diff`, and `patch`. -/

mutual
/-- Values of the JSON-like data model: scalars, ordered sequences (Python
lists) and string-keyed mappings (Python dicts, kept in insertion order, so
two mappings that are equal as Python dicts may differ as terms). -/
inductive Value where
  | null : Value
  | bool : Bool → Value
  | int : Int → Value
  | str : String → Value
  | list : VList → Value
  | dict : VPairs → Value
deriving DecidableEq
/-- Spine of a sequence value. -/
inductive VList where
  | nil : VList
  | cons : Value → VList → VList
deriving DecidableEq
/-- Spine of a mapping value: key/value entries in insertion order. -/
inductive VPairs where
  | nil : VPairs
  | cons : String → Value → VPairs → VPairs
deriving DecidableEq
end

/-- The elements of a sequence spine, as a `List`. -/
def VList.toList : VList → List Value
  | .nil => []
  | .cons x xs => x :: VList.toList xs

/-- The entries of a mapping spine, as a `List`. -/
def VPairs.toList : VPairs → List (String × Value)
  | .nil => []
  | .cons k v es => (k, v) :: VPairs.toList es

/-- Build a sequence spine from a `List`. -/
def LV : List Value → VList
  | [] => .nil
  | x :: xs => .cons x (LV xs)

/-- Build a mapping spine from a `List` of entries. -/
def LP : List (String × Value) → VPairs
  | [] => .nil
  | (k, v) :: es => .cons k v (LP es)

mutual
/-- Structural size of a value, used as recursion fuel elsewhere. -/
def vsize : Value → Nat
  | .null | .bool _ | .int _ | .str _ => 1
  | .list xs => 1 + vsizeL xs
  | .dict es => 1 + vsizeP es
termination_by structural v => v
/-- Structural size of a sequence spine. -/
def vsizeL : VList → Nat
  | .nil => 1
  | .cons x xs => 1 + vsize x + vsizeL xs
termination_by structural xs => xs
/-- Structural size of a mapping spine. -/
def vsizeP : VPairs → Nat
  | .nil => 1
  | .cons _ v es => 1 + vsize v + vsizeP es
termination_by structural es => es
end

/-- First-occurrence key lookup (Python `d[k]` read on a dict). -/
def alookup (k : String) : VPairs → Option Value
  | .nil => none
  | .cons k2 v es => if k2 = k then some v else alookup k es

/-- `d[k] = v` on a dict: overwrite in place, else append (Python dicts keep
the original insertion position on overwrite). -/
def setPairs (k : String) (x : Value) : VPairs → VPairs
  | .nil => .cons k x .nil
  | .cons k2 w es => if k2 = k then .cons k2 x es else .cons k2 w (setPairs k x es)

/-- `del d[k]` on a dict (first occurrence). -/
def delPairs (k : String) : VPairs → VPairs
  | .nil => .nil
  | .cons k2 w es => if k2 = k then es else .cons k2 w (delPairs k es)

/-- Keys of a mapping, in insertion order. -/
def keysV : VPairs → List String
  | .nil => []
  | .cons k _ es => k :: keysV es

/-- `true` iff no string occurs twice in the list. -/
def keysNodup : List String → Bool
  | [] => true
  | k :: ks => !(ks.contains k) && keysNodup ks

/-- One-sided dict inclusion used by `eqF`: every entry of `xs` has a
matching key in `ys` with an equal value (via the element comparator). -/
def dictLeGo (e : Value → Value → Bool) : VPairs → VPairs → Bool
  | .nil, _ => true
  | .cons k v xs, ys =>
    (match alookup k ys with
     | some w => e v w
     | none => false) && dictLeGo e xs ys

/-- Pointwise list equality via the element comparator. -/
def listEqGo (e : Value → Value → Bool) : List Value → List Value → Bool
  | [], [] => true
  | x :: xs, y :: ys => e x y && listEqGo e xs ys
  | _, _ => false

/-- Fueled deep equality, the model of Python `==` on these values: scalars
by value, lists pointwise, dicts as finite maps (entry order irrelevant). -/
def eqF : Nat → Value → Value → Bool
  | 0, _, _ => false
  | n + 1, a, b =>
    match a, b with
    | .null, .null => true
    | .bool x, .bool y => x == y
    | .int x, .int y => x == y
    | .str x, .str y => x == y
    | .list xs, .list ys => listEqGo (eqF n) xs.toList ys.toList
    | .dict xs, .dict ys => dictLeGo (eqF n) xs ys && dictLeGo (eqF n) ys xs
    | _, _ => false

/-- Deep equality (Python `==`), with sufficient fuel fixed from the sizes. -/
def eqV (a b : Value) : Bool := eqF (vsize a + vsize b) a b

mutual
/-- Well-formedness: every dict reachable inside the value has pairwise
distinct keys — true of every value that comes from a Python object. -/
def wfV : Value → Bool
  | .null | .bool _ | .int _ | .str _ => true
  | .list xs => wfL xs
  | .dict es => keysNodup (keysV es) && wfP es
termination_by structural v => v
/-- Well-formedness of all elements of a sequence spine. -/
def wfL : VList → Bool
  | .nil => true
  | .cons x xs => wfV x && wfL xs
termination_by structural xs => xs
/-- Well-formedness of all values of a mapping spine. -/
def wfP : VPairs → Bool
  | .nil => true
  | .cons _ v es => wfV v && wfP es
termination_by structural es => es
end

/-- A list prefixed with its length, making it recoverable from any suffix. -/
def withLen (l : List Nat) : List Nat := l.length :: l

/-- Injective code for integers. -/
def intCode (n : Int) : Nat := if 0 ≤ n then 2 * n.toNat else 2 * (-n).toNat - 1

/-- Character codes of a string. -/
def strNats (s : String) : List Nat := s.toList.map Char.toNat

mutual
/-- Canonical encoding, the model of `pickle.dumps(v, -1)`: a deterministic,
type-tagged serialization that is sensitive to dict entry order (as pickle
serializes dict items in iteration order). -/
def encode : Value → List Nat
  | .null => [0]
  | .bool b => [1, cond b 1 0]
  | .int i => [2, intCode i]
  | .str s => 3 :: withLen (strNats s)
  | .list xs => 4 :: encodeL xs
  | .dict ps => 5 :: encodeP ps
termination_by structural v => v
/-- Encoding of sequence elements, each length-prefixed. -/
def encodeL : VList → List Nat
  | .nil => []
  | .cons x xs => withLen (encode x) ++ encodeL xs
termination_by structural xs => xs
/-- Encoding of mapping entries, key and value length-prefixed, in
insertion order. -/
def encodeP : VPairs → List Nat
  | .nil => []
  | .cons k v ps => withLen (strNats k) ++ withLen (encode v) ++ encodeP ps
termination_by structural ps => ps
end

/-- The `Differ` construction options: toggles `A`, `N`, `O`, `R`, `U` for
the corresponding diff ops (all default `True`) and `trimR` for dropping
removed data (default `False`). -/
structure Cfg where
  A : Bool := true
  N : Bool := true
  O : Bool := true
  R : Bool := true
  U : Bool := true
  trimR : Bool := false

/-! ### SequenceMatcher (difflib, `isjunk=None`, `autojunk=False`) -/

/-- A matching block `(i, j, size)` as returned by `get_matching_blocks`. -/
abbrev Blk := Nat × Nat × Nat

/-- Length of the common run starting at positions `i`, `j`, bounded by the
remaining `a`-range (the counter) and by `bhi` on the `b` side. -/
def runFrom (xs ys : List (List Nat)) (bhi : Nat) : Nat → Nat → Nat → Nat
  | 0, _, _ => 0
  | cnt + 1, i, j =>
    if j < bhi && (xs.getD i [] == ys.getD j []) then
      runFrom xs ys bhi cnt (i + 1) (j + 1) + 1
    else 0

/-- Scan of all `b`-starts for a fixed `a`-start `i`, keeping the first
longest block (strict improvement keeps the earliest `j`). -/
def flmJ (xs ys : List (List Nat)) (ahi bhi i : Nat) : Nat → Nat → Blk → Blk
  | 0, _, best => best
  | cj + 1, j, best =>
    let k := runFrom xs ys bhi (ahi - i) i j
    flmJ xs ys ahi bhi i cj (j + 1) (if best.2.2 < k then (i, j, k) else best)

/-- Scan of all `a`-starts (ascending, so the earliest maximal block wins). -/
def flmI (xs ys : List (List Nat)) (ahi blo bhi : Nat) : Nat → Nat → Blk → Blk
  | 0, _, best => best
  | ci + 1, i, best =>
    flmI xs ys ahi blo bhi ci (i + 1) (flmJ xs ys ahi bhi i (bhi - blo) blo best)

/-- `find_longest_match` on the ranges `a[alo:ahi]`, `b[blo:bhi]`: the
longest matching block, earliest in `a` then in `b`; `(alo, blo, 0)` when
there is none. -/
def find_longest_match (xs ys : List (List Nat)) (alo ahi blo bhi : Nat) : Blk :=
  flmI xs ys ahi blo bhi (ahi - alo) alo (alo, blo, 0)

/-- Recursive block discovery of `get_matching_blocks`: find the longest
match, then recurse on the sub-ranges strictly to its left and right. -/
def mbGo (xs ys : List (List Nat)) : Nat → Nat → Nat → Nat → Nat → List Blk
  | 0, _, _, _, _ => []
  | f + 1, alo, ahi, blo, bhi =>
    let m := find_longest_match xs ys alo ahi blo bhi
    if m.2.2 = 0 then []
    else
      (if alo < m.1 && blo < m.2.1 then mbGo xs ys f alo m.1 blo m.2.1 else []) ++
      m :: (if m.1 + m.2.2 < ahi && m.2.1 + m.2.2 < bhi then
              mbGo xs ys f (m.1 + m.2.2) ahi (m.2.1 + m.2.2) bhi
            else [])

/-- Merge adjacent blocks, as `get_matching_blocks` does before returning. -/
def collapseGo : Nat → Nat → Nat → List Blk → List Blk
  | i1, j1, k1, [] => if k1 = 0 then [] else [(i1, j1, k1)]
  | i1, j1, k1, (i2, j2, k2) :: rest =>
    if i1 + k1 = i2 ∧ j1 + k1 = j2 then collapseGo i1 j1 (k1 + k2) rest
    else if k1 = 0 then collapseGo i2 j2 k2 rest
    else (i1, j1, k1) :: collapseGo i2 j2 k2 rest

/-- `get_matching_blocks`: sorted maximal blocks, adjacent ones merged, and
a final zero-length sentinel at `(len a, len b)`. -/
def get_matching_blocks (xs ys : List (List Nat)) : List Blk :=
  collapseGo 0 0 0 (mbGo xs ys (xs.length + ys.length + 1) 0 xs.length 0 ys.length) ++
    [(xs.length, ys.length, 0)]

/-! ### The differ -/

/-- Python truthiness of a diff node: `{}` is falsy (`if subdiff:`). -/
def isEmptyNode : Value → Bool
  | .dict .nil => true
  | _ => false

/-- `Differ.get_default_diff`: `{'N': b}` and/or `{'O': a}` per toggles. -/
def get_default_diff (c : Cfg) (a b : Value) : Value :=
  .dict (LP ((if c.N then [("N", b)] else []) ++ (if c.O then [("O", a)] else [])))

/-- `ret['D'][-1]['I'] = i` style key insertion on a (dict) diff node. -/
def valSetKey (v : Value) (k : String) (x : Value) : Value :=
  match v with
  | .dict es => .dict (setPairs k x es)
  | _ => v

/-- The paired phase of a gap in `diff_lists`: diff `a[i]` with `b[j]`
while both cursors are below the block start; an empty subdiff is dropped
and sets the pending-index flag, an emitted node picks up `I` when the
flag was set. Returns the emitted nodes and the final flag. -/
def pairsGo (d : Value → Value → Value) : List Value → List Value → Nat → Bool → List Value × Bool
  | x :: xs, y :: ys, i, force =>
    let sub := d x y
    if isEmptyNode sub then pairsGo d xs ys (i + 1) true
    else
      let node := if force then valSetKey sub "I" (.int i) else sub
      let r := pairsGo d xs ys (i + 1) false
      (node :: r.1, r.2)
  | _, _, _, force => ([], force)

/-- The removal phase of a gap in `diff_lists` (`while i < ai`). -/
def remGo (c : Cfg) : List Value → Nat → Bool → List Value × Bool
  | x :: xs, i, force =>
    if c.R then
      let node0 : Value := .dict (.cons "R" (if c.trimR then .null else x) .nil)
      let node := if force then valSetKey node0 "I" (.int i) else node0
      let r := remGo c xs (i + 1) false
      (node :: r.1, r.2)
    else remGo c xs (i + 1) true
  | [], _, force => ([], force)

/-- The addition phase of a gap in `diff_lists` (`while j < bj`); `iFin` is
the value of the `a`-cursor there (the current block's `ai`). -/
def addGo (c : Cfg) (iFin : Nat) : List Value → Bool → List Value × Bool
  | y :: ys, force =>
    if c.A then
      let node0 : Value := .dict (.cons "A" y .nil)
      let node := if force then valSetKey node0 "I" (.int iFin) else node0
      let r := addGo c iFin ys false
      (node :: r.1, r.2)
    else addGo c iFin ys true
  | [], force => ([], force)

/-- The block-walking loop of `diff_lists`: for each matching block drain
the gap before it (pairs, then removals, then additions) and continue with
the cursors at the block's start. -/
def walkGo (d : Value → Value → Value) (c : Cfg) (xs ys : List Value) :
    List Blk → Nat → Nat → Bool → List Value
  | [], _, _, _ => []
  | (ai, bj, _) :: bs, i, j, force =>
    let cnt := min (ai - i) (bj - j)
    let p := pairsGo d ((xs.drop i).take cnt) ((ys.drop j).take cnt) i force
    let r := remGo c ((xs.drop (i + cnt)).take (ai - (i + cnt))) (i + cnt) p.2
    let ad := addGo c ai ((ys.drop (j + cnt)).take (bj - (j + cnt))) r.2
    p.1 ++ r.1 ++ ad.1 ++ walkGo d c xs ys bs ai bj ad.2

/-- `Differ.diff_lists`, parameterized by the recursive differ used on
elements. -/
def diff_lists_with (d : Value → Value → Value) (c : Cfg) (xs ys : List Value) : Value :=
  let out := walkGo d c xs ys (get_matching_blocks (xs.map encode) (ys.map encode)) 0 0 false
  match out with
  | [] => .dict .nil
  | _ => .dict (.cons "D" (.list (LV out)) .nil)

/-- Accumulate a key into a first-occurrence union. -/
def addKey (acc : List String) (k : String) : List String :=
  if acc.contains k then acc else acc ++ [k]

/-- Union of two key lists (`set(list(a) + list(b))`, given a deterministic
first-occurrence order; the set's iteration order is unspecified in the
source and nothing downstream depends on it). -/
def unionKeys (ka kb : List String) : List String := (ka ++ kb).foldl addKey []

/-- The key loop of `diff_dicts`, parameterized by the recursive differ. -/
def dictGo (d : Value → Value → Value) (c : Cfg) (xs ys : VPairs) : List String → VPairs
  | [] => .nil
  | k :: ks =>
    let rest := dictGo d c xs ys ks
    match alookup k xs, alookup k ys with
    | some av, some bv =>
      if eqV av bv then
        if c.U then .cons k (.dict (.cons "U" av .nil)) rest else rest
      else
        let sub := d av bv
        if isEmptyNode sub then rest else .cons k sub rest
    | some av, none =>
      if c.R then .cons k (.dict (.cons "R" (if c.trimR then .null else av) .nil)) rest else rest
    | none, some bv =>
      if c.A then .cons k (.dict (.cons "A" bv .nil)) rest else rest
    | none, none => rest

/-- `Differ.diff_dicts`, parameterized by the recursive differ used on
values. -/
def diff_dicts_with (d : Value → Value → Value) (c : Cfg) (xs ys : VPairs) : Value :=
  match dictGo d c xs ys (unionKeys (keysV xs) (keysV ys)) with
  | .nil => .dict .nil
  | es => .dict (.cons "D" (.dict es) .nil)

/-- Fueled `Differ.diff`: the dispatcher — equal values give `{'U': a}` or
`{}`, two dicts go to `diff_dicts`, two lists to `diff_lists`, anything
else to `get_default_diff`. -/
def diffF : Nat → Cfg → Value → Value → Value
  | 0, _, _, _ => .dict .nil
  | n + 1, c, a, b =>
    if eqV a b then (if c.U then .dict (.cons "U" a .nil) else .dict .nil)
    else
      match a, b with
      | .dict xs, .dict ys => diff_dicts_with (diffF n c) c xs ys
      | .list xs, .list ys => diff_lists_with (diffF n c) c xs.toList ys.toList
      | _, _ => get_default_diff c a b

/-- `Differ.diff` with sufficient fuel fixed from the operand sizes. -/
def diff (c : Cfg) (a b : Value) : Value := diffF (vsize a + vsize b) c a b

/-- `Differ.diff_dicts` as a standalone entry point (recursing via `diff`). -/
def diff_dicts (c : Cfg) (xs ys : VPairs) : Value := diff_dicts_with (diff c) c xs ys

/-- `Differ.diff_lists` as a standalone entry point (recursing via `diff`). -/
def diff_lists (c : Cfg) (xs ys : List Value) : Value := diff_lists_with (diff c) c xs ys

/-! ### The patch applier -/

/-- Errors `patch` can raise: `invalidDiff` models the
`NotImplementedError("unsupported type for patch")` for a `D` payload that
is neither dict nor list; the others model `KeyError`, `IndexError` and
`TypeError`-like failures on the target. -/
inductive PErr where
  | invalidDiff : PErr
  | keyError : PErr
  | indexError : PErr
  | typeError : PErr
deriving DecidableEq

/-- Does `nd` occur as a contiguous run at the head of `hay`? -/
def subAt : List Char → List Char → Bool
  | [], _ => true
  | _ :: _, [] => false
  | a :: as, b :: bs => a == b && subAt as bs

/-- Substring test on character lists (Python `k in s` for strings). -/
def hasSub (nd : List Char) : List Char → Bool
  | [] => subAt nd []
  | c :: cs => subAt nd (c :: cs) || hasSub nd cs

/-- Python `k in v` for a string key `k`: key test on dicts, membership on
lists (an element equal to the string), substring on strings, `TypeError`
otherwise. -/
def pyContains (v : Value) (k : String) : Except PErr Bool :=
  match v with
  | .dict es => .ok (alookup k es).isSome
  | .list els => .ok (els.toList.any fun e =>
      match e with
      | .str s => s == k
      | _ => false)
  | .str s => .ok (hasSub k.toList s.toList)
  | _ => .error .typeError

/-- Python `v[k]` for a string key `k`. -/
def pyIndexStr (v : Value) (k : String) : Except PErr Value :=
  match v with
  | .dict es =>
    match alookup k es with
    | some x => .ok x
    | none => .error .keyError
  | _ => .error .typeError

/-- Python `target[key]` read during dict patching. -/
def pyGetKeyE (t : Value) (k : String) : Except PErr Value := pyIndexStr t k

/-- Python `target[key] = x` during dict patching. -/
def pySetKeyE (t : Value) (k : String) (x : Value) : Except PErr Value :=
  match t with
  | .dict es => .ok (.dict (setPairs k x es))
  | _ => .error .typeError

/-- Python `del target[key]` during dict patching. -/
def pyDelKeyE (t : Value) (k : String) : Except PErr Value :=
  match t with
  | .dict es =>
    if (alookup k es).isSome then .ok (.dict (delPairs k es)) else .error .keyError
  | _ => .error .typeError

/-- Python index normalization: a negative index counts from the end. -/
def pyNorm (len : Nat) (i : Int) : Int := if i < 0 then i + len else i

/-- Python `target[i]` read for an integer index. -/
def pyGetIntE (t : Value) (i : Int) : Except PErr Value :=
  match t with
  | .list els =>
    let q := pyNorm els.toList.length i
    if 0 ≤ q ∧ q < (els.toList.length : Int) then .ok (els.toList.getD q.toNat .null)
    else .error .indexError
  | .dict _ => .error .keyError
  | _ => .error .typeError

/-- Python `target[i] = x` for an integer index. -/
def pySetIntE (t : Value) (i : Int) (x : Value) : Except PErr Value :=
  match t with
  | .list els =>
    let q := pyNorm els.toList.length i
    if 0 ≤ q ∧ q < (els.toList.length : Int) then .ok (.list (LV (els.toList.set q.toNat x)))
    else .error .indexError
  | .dict _ => .error .keyError
  | _ => .error .typeError

/-- Python `del target[i]` for an integer index. -/
def pyDelIntE (t : Value) (i : Int) : Except PErr Value :=
  match t with
  | .list els =>
    let q := pyNorm els.toList.length i
    if 0 ≤ q ∧ q < (els.toList.length : Int) then .ok (.list (LV (els.toList.eraseIdx q.toNat)))
    else .error .indexError
  | .dict _ => .error .keyError
  | _ => .error .typeError

/-- Insertion at a clamped position (`list.insert` never fails). -/
def insNat : Nat → Value → List Value → List Value
  | 0, x, t => x :: t
  | _ + 1, x, [] => [x]
  | n + 1, x, y :: t => y :: insNat n x t

/-- Python `target.insert(i, x)`: index clamped into range. -/
def pyInsIntE (t : Value) (i : Int) (x : Value) : Except PErr Value :=
  match t with
  | .list els =>
    let q := pyNorm els.toList.length i
    let q2 : Nat := if q < 0 then 0 else q.toNat
    .ok (.list (LV (insNat (min q2 els.toList.length) x els.toList)))
  | _ => .error .typeError

/-- Python `int(x)`-compatible read of an `I` annotation (`bool` is an
`int` subclass in Python, so it adds like 0/1). -/
def asIntE : Value → Except PErr Int
  | .int n => .ok n
  | .bool b => .ok (cond b 1 0)
  | _ => .error .typeError

/-- One step of the dict branch of `patch`: apply the subdiff for `key` to
`target[key]`; `p` is the recursive patcher. -/
def patchPairStep (p : Value → Value → Except PErr Value) (key : String) (sub : Value)
    (t : Value) : Except PErr Value := do
  let hd ← pyContains sub "D"
  let hdn ← if hd then pure true else pyContains sub "N"
  if hdn then do
    let tv ← pyGetKeyE t key
    let r ← p tv sub
    pySetKeyE t key r
  else do
    let ha ← pyContains sub "A"
    if ha then do
      let av ← pyIndexStr sub "A"
      pySetKeyE t key av
    else do
      let hr ← pyContains sub "R"
      if hr then pyDelKeyE t key
      else pure t

/-- The dict branch of `patch`: walk the payload entries in order. -/
def patchPairsGo (p : Value → Value → Except PErr Value) :
    List (String × Value) → Value → Except PErr Value
  | [], t => .ok t
  | (key, sub) :: rest, t =>
    patchPairStep p key sub t >>= patchPairsGo p rest

/-- One step of the list branch of `patch` on state `(target, i, j)` with
cursor `i` and scatter `j`: `I` resets the cursor to `I + j`; `D`/`N`
recurse in place, `A` inserts (scatter `+1`), `R` deletes (scatter `-1`,
cursor kept), anything else just advances the cursor. -/
def patchStep (p : Value → Value → Except PErr Value) (sub : Value) (t : Value)
    (i j : Int) : Except PErr (Value × Int × Int) := do
  let hi ← pyContains sub "I"
  let i ← if hi then do
      let iv ← pyIndexStr sub "I"
      let n ← asIntE iv
      pure (n + j)
    else pure i
  let hd ← pyContains sub "D"
  let hdn ← if hd then pure true else pyContains sub "N"
  if hdn then do
    let tv ← pyGetIntE t i
    let r ← p tv sub
    let t2 ← pySetIntE t i r
    pure (t2, i + 1, j)
  else do
    let ha ← pyContains sub "A"
    if ha then do
      let av ← pyIndexStr sub "A"
      let t2 ← pyInsIntE t i av
      pure (t2, i + 1, j + 1)
    else do
      let hr ← pyContains sub "R"
      if hr then do
        let t2 ← pyDelIntE t i
        pure (t2, i, j - 1)
      else pure (t, i + 1, j)

/-- The list branch of `patch`: fold the per-child step over the children. -/
def patchListGo (p : Value → Value → Except PErr Value) :
    List Value → Value → Int → Int → Except PErr (Value × Int × Int)
  | [], t, i, j => .ok (t, i, j)
  | sub :: rest, t, i, j =>
    patchStep p sub t i j >>= fun s => patchListGo p rest s.1 s.2.1 s.2.2

/-- Fueled `patch`: dispatch on the `D` payload's shape (dict, list, or the
`NotImplementedError` case), else apply `N`, else return the target. -/
def patchF : Nat → Value → Value → Except PErr Value
  | 0, t, _ => .ok t
  | n + 1, target, node => do
    let hd ← pyContains node "D"
    if hd then do
      let pay ← pyIndexStr node "D"
      match pay with
      | .dict es => patchPairsGo (patchF n) es.toList target
      | .list els => do
          let r ← patchListGo (patchF n) els.toList target 0 0
          pure r.1
      | _ => .error .invalidDiff
    else do
      let hn ← pyContains node "N"
      if hn then pyIndexStr node "N"
      else pure target

/-- `patch` with sufficient fuel fixed from the diff node's size. -/
def patch (target node : Value) : Except PErr Value := patchF (vsize node) target node

/-! ### Auxiliary observers used by theorem statements -/

/-- Does a (dict) node carry the key `k`? -/
def hasKeyB (v : Value) (k : String) : Bool :=
  match v with
  | .dict es => (alookup k es).isSome
  | _ => false

/-- The children of a `D`-over-sequence node (empty for anything else). -/
def dChildren (v : Value) : List Value :=
  match v with
  | .dict es =>
    match alookup "D" es with
    | some (.list els) => els.toList
    | _ => []
  | _ => []

/-- The keys of a `D`-over-mapping node (empty for anything else). -/
def dKeys (v : Value) : List String :=
  match v with
  | .dict es =>
    match alookup "D" es with
    | some (.dict des) => keysV des
    | _ => []
  | _ => []

/-- A node whose own `D` payload is neither dict- nor list-shaped (the
`NotImplementedError` case of `patch`). -/
def nodeBadD (v : Value) : Bool :=
  match v with
  | .dict es =>
    match alookup "D" es with
    | some (.dict _) => false
    | some (.list _) => false
    | some _ => true
    | none => false
  | _ => false

/-- The index pairs `(i, j)` that the gap-pairing phase of the block walk
processes, mirroring the pair loop of `walkGo` on the same blocks. -/
def pairVisitsGo : List Blk → Nat → Nat → List (Nat × Nat)
  | [], _, _ => []
  | (ai, bj, _) :: bs, i, j =>
    (List.range (min (ai - i) (bj - j))).map (fun t => (i + t, j + t)) ++
      pairVisitsGo bs ai bj

/-- The index pairs processed by the gap-pairing branch of `diff_lists`. -/
def pairVisits (xs ys : List Value) : List (Nat × Nat) :=
  pairVisitsGo (get_matching_blocks (xs.map encode) (ys.map encode)) 0 0

/-- A `D` key occurs, at the node itself or on some subdiff reachable
through `D` payloads, with a payload that is neither dict- nor
list-shaped. -/
inductive BadDeep : Value → Prop where
  | here : ∀ v, nodeBadD v = true → BadDeep v
  | dictStep : ∀ es des k sub, alookup "D" es = some (.dict des) →
      alookup k des = some sub → BadDeep sub → BadDeep (.dict es)
  | listStep : ∀ es els sub, alookup "D" es = some (.list els) →
      sub ∈ els.toList → BadDeep sub → BadDeep (.dict es)

/-- Every `D` key reachable through `D` payloads of the node has a
non-empty dict or list payload. -/
inductive DOk : Value → Prop where
  | scalar : ∀ v, hasKeyB v "D" = false → DOk v
  | dictNode : ∀ es des, alookup "D" es = some (.dict des) → des ≠ .nil →
      (∀ k sub, alookup k des = some sub → DOk sub) → DOk (.dict es)
  | listNode : ∀ es els, alookup "D" es = some (.list els) → els ≠ .nil →
      (∀ sub, sub ∈ els.toList → DOk sub) → DOk (.dict es)

/-- Cursor sanity of a block list for the walk: starting from cursors
`(i, j)`, every block starts at or after the cursors and ends within
bounds, and the walk ends exactly at `(la, lb)`. -/
def BlocksOk (la lb : Nat) : Nat → Nat → List Blk → Prop
  | i, j, [] => i = la ∧ j = lb
  | i, j, (ai, bj, k) :: bs => i ≤ ai ∧ j ≤ bj ∧ ai + k ≤ la ∧ bj + k ≤ lb ∧
      BlocksOk la lb ai bj bs

/-- Strict chaining of matching blocks: each block starts at or after the
running cursor, ends within the bounds, and the cursor advances past the
block's end. -/
def ChainedR (ahi bhi : Nat) : Nat → Nat → List Blk → Prop
  | _, _, [] => True
  | i, j, (ai, bj, k) :: bs => i ≤ ai ∧ j ≤ bj ∧ ai + k ≤ ahi ∧ bj + k ≤ bhi ∧
      ChainedR ahi bhi (ai + k) (bj + k) bs

/-- In-range property of one block relative to the ranges of a
`find_longest_match` call. -/
def BlkOkR (alo ahi blo bhi : Nat) (b : Blk) : Prop :=
  alo ≤ b.1 ∧ blo ≤ b.2.1 ∧ b.1 + b.2.2 ≤ ahi ∧ b.2.1 + b.2.2 ≤ bhi

/-! ### Basic lemmas about the value model -/

theorem toList_LV (l : List Value) : (LV l).toList = l := by
  induction l with
  | nil => rfl
  | cons x xs ih => simp [LV, VList.toList, ih]

theorem toList_LP (l : List (String × Value)) : (LP l).toList = l := by
  induction l with
  | nil => rfl
  | cons p ps ih => cases p; simp [LP, VPairs.toList, ih]

theorem LV_toList : (xs : VList) → LV xs.toList = xs
  | .nil => rfl
  | .cons x xs => by simp [VList.toList, LV, LV_toList xs]
termination_by structural xs => xs

theorem LP_toList : (es : VPairs) → LP es.toList = es
  | .nil => rfl
  | .cons k v es => by simp [VPairs.toList, LP, LP_toList es]
termination_by structural es => es

theorem vsize_pos : (v : Value) → 0 < vsize v
  | .null | .bool _ | .int _ | .str _ => by simp [vsize]
  | .list xs => by simp [vsize]
  | .dict es => by simp [vsize]

theorem vsize_lt_of_mem : {x : Value} → {xs : VList} → x ∈ xs.toList → vsize x < vsizeL xs
  | x, .cons y ys, h => by
    rcases List.mem_cons.1 h with h1 | h2
    · subst h1; simp [vsizeL]; omega
    · have := @vsize_lt_of_mem _ ys h2
      simp [vsizeL]; omega

theorem vsize_lt_of_pair_mem : {k : String} → {v : Value} → {es : VPairs} →
    (k, v) ∈ es.toList → vsize v < vsizeP es
  | k, v, .cons k2 w es, h => by
    rcases List.mem_cons.1 h with h1 | h2
    · cases h1; simp [vsizeP]; omega
    · have := @vsize_lt_of_pair_mem _ _ es h2
      simp [vsizeP]; omega

theorem alookup_mem {k : String} {v : Value} : {es : VPairs} →
    alookup k es = some v → (k, v) ∈ es.toList
  | .nil, h => by simp [alookup] at h
  | .cons k2 w es, h => by
    by_cases hk : k2 = k
    · subst hk
      simp [alookup] at h
      simp [VPairs.toList, h]
    · simp [alookup, hk] at h
      simp [VPairs.toList]
      exact Or.inr (alookup_mem h)

theorem vsize_lt_of_alookup {k : String} {v : Value} {es : VPairs}
    (h : alookup k es = some v) : vsize v < vsizeP es :=
  vsize_lt_of_pair_mem (alookup_mem h)

theorem keysV_toList : (es : VPairs) → keysV es = es.toList.map Prod.fst
  | .nil => rfl
  | .cons k v es => by simp [keysV, VPairs.toList, keysV_toList es]
termination_by structural es => es

theorem wfL_toList : (xs : VList) → wfL xs = xs.toList.all wfV
  | .nil => rfl
  | .cons x xs => by simp [wfL, VList.toList, wfL_toList xs]
termination_by structural xs => xs

theorem wfP_toList : (es : VPairs) → wfP es = es.toList.all fun p => wfV p.2
  | .nil => rfl
  | .cons k v es => by simp [wfP, VPairs.toList, wfP_toList es]
termination_by structural es => es

/-! ### Lookup lemmas -/

theorem alookup_isSome_iff {k : String} : {es : VPairs} →
    ((alookup k es).isSome ↔ k ∈ keysV es)
  | .nil => by simp [alookup, keysV]
  | .cons k2 v es => by
    by_cases hk : k2 = k
    · subst hk; simp [alookup, keysV]
    · simp [alookup, hk, keysV, @alookup_isSome_iff _ es, Ne.symm hk]

theorem alookup_none_iff {k : String} {es : VPairs} :
    alookup k es = none ↔ k ∉ keysV es := by
  rw [← alookup_isSome_iff]
  cases alookup k es <;> simp

theorem alookup_of_nodup : {k : String} → {v : Value} → {es : VPairs} →
    keysNodup (keysV es) = true → (k, v) ∈ es.toList → alookup k es = some v
  | k, v, .cons k2 w es, hnd, hm => by
    simp [keysV, keysNodup, Bool.and_eq_true] at hnd
    rcases List.mem_cons.1 hm with h1 | h2
    · cases h1; simp [alookup]
    · have hk : k2 ≠ k := by
        intro he; subst he
        exact hnd.1 (by
          rw [keysV_toList]
          exact List.mem_map.2 ⟨(k2, v), h2, rfl⟩)
      simp [alookup, hk]
      exact alookup_of_nodup hnd.2 h2

/-! ### Equality (`eqV`) theory -/

theorem bcomm {α : Type} [BEq α] [LawfulBEq α] (x y : α) : (x == y) = (y == x) := by
  by_cases h : x = y
  · subst h; rfl
  · rw [beq_eq_false_iff_ne.2 h, beq_eq_false_iff_ne.2 (Ne.symm h)]

theorem listEqGo_congr {e1 e2 : Value → Value → Bool} : ∀ {xs ys : List Value},
    (∀ x ∈ xs, ∀ y ∈ ys, e1 x y = e2 x y) → listEqGo e1 xs ys = listEqGo e2 xs ys
  | [], [], _ => rfl
  | [], _ :: _, _ => rfl
  | _ :: _, [], _ => rfl
  | x :: xs, y :: ys, h => by
    simp only [listEqGo]
    rw [h x (by simp) y (by simp),
      listEqGo_congr fun a ha b hb => h a (by simp [ha]) b (by simp [hb])]

theorem dictLeGo_congr {e1 e2 : Value → Value → Bool} : {xs ys : VPairs} →
    (∀ k v w, (k, v) ∈ xs.toList → alookup k ys = some w → e1 v w = e2 v w) →
    dictLeGo e1 xs ys = dictLeGo e2 xs ys
  | .nil, ys, _ => rfl
  | .cons k v xs, ys, h => by
    have htl : dictLeGo e1 xs ys = dictLeGo e2 xs ys :=
      dictLeGo_congr fun k2 v2 w2 hm hl => h k2 v2 w2 (by simp [VPairs.toList, hm]) hl
    simp only [dictLeGo]
    cases hl : alookup k ys with
    | none =>
      show (false && dictLeGo e1 xs ys) = (false && dictLeGo e2 xs ys)
      rw [htl]
    | some w =>
      show (e1 v w && dictLeGo e1 xs ys) = (e2 v w && dictLeGo e2 xs ys)
      rw [htl, h k v w (by simp [VPairs.toList]) hl]

theorem eqF_irr : ∀ (n m : Nat) (a b : Value), vsize a + vsize b ≤ n →
    vsize a + vsize b ≤ m → eqF n a b = eqF m a b := by
  intro n
  induction n with
  | zero =>
    intro m a b h _
    have := vsize_pos a; have := vsize_pos b; omega
  | succ n ih =>
    intro m a b hn hm
    match m with
    | 0 => have := vsize_pos a; have := vsize_pos b; omega
    | m + 1 =>
      cases a <;> cases b <;> simp only [eqF]
      case list.list xs ys =>
        apply listEqGo_congr
        intro x hx y hy
        have h1 := vsize_lt_of_mem hx
        have h2 := vsize_lt_of_mem hy
        simp [vsize] at hn hm
        exact ih m x y (by omega) (by omega)
      case dict.dict xs ys =>
        simp [vsize] at hn hm
        have h1 : dictLeGo (eqF n) xs ys = dictLeGo (eqF m) xs ys :=
          dictLeGo_congr fun k v w hmem hl => by
            have g1 := vsize_lt_of_pair_mem hmem
            have g2 := vsize_lt_of_alookup hl
            exact ih m v w (by omega) (by omega)
        have h2 : dictLeGo (eqF n) ys xs = dictLeGo (eqF m) ys xs :=
          dictLeGo_congr fun k v w hmem hl => by
            have g1 := vsize_lt_of_pair_mem hmem
            have g2 := vsize_lt_of_alookup hl
            exact ih m v w (by omega) (by omega)
        rw [h1, h2]

theorem eqF_eq_eqV {n : Nat} {a b : Value} (h : vsize a + vsize b ≤ n) :
    eqF n a b = eqV a b :=
  eqF_irr n (vsize a + vsize b) a b h (le_refl _)

theorem eqV_list_eq (xs ys : VList) :
    eqV (.list xs) (.list ys) = listEqGo eqV xs.toList ys.toList := by
  show eqF (vsize (.list xs) + vsize (.list ys)) (.list xs) (.list ys) = _
  have hs : vsize (Value.list xs) + vsize (Value.list ys) =
      (1 + vsizeL xs + (1 + vsizeL ys) - 1) + 1 := by simp [vsize]; omega
  rw [hs]
  simp only [eqF]
  apply listEqGo_congr
  intro x hx y hy
  have h1 := vsize_lt_of_mem hx
  have h2 := vsize_lt_of_mem hy
  exact eqF_eq_eqV (by omega)

theorem eqV_dict_eq (xs ys : VPairs) :
    eqV (.dict xs) (.dict ys) = (dictLeGo eqV xs ys && dictLeGo eqV ys xs) := by
  show eqF (vsize (.dict xs) + vsize (.dict ys)) (.dict xs) (.dict ys) = _
  have hs : vsize (Value.dict xs) + vsize (Value.dict ys) =
      (1 + vsizeP xs + (1 + vsizeP ys) - 1) + 1 := by simp [vsize]; omega
  rw [hs]
  simp only [eqF]
  have h1 : dictLeGo (eqF (1 + vsizeP xs + (1 + vsizeP ys) - 1)) xs ys = dictLeGo eqV xs ys :=
    dictLeGo_congr fun k v w hmem hl => by
      have g1 := vsize_lt_of_pair_mem hmem
      have g2 := vsize_lt_of_alookup hl
      exact eqF_eq_eqV (by omega)
  have h2 : dictLeGo (eqF (1 + vsizeP xs + (1 + vsizeP ys) - 1)) ys xs = dictLeGo eqV ys xs :=
    dictLeGo_congr fun k v w hmem hl => by
      have g1 := vsize_lt_of_pair_mem hmem
      have g2 := vsize_lt_of_alookup hl
      exact eqF_eq_eqV (by omega)
  rw [h1, h2]

theorem listEqGo_iff {e : Value → Value → Bool} : ∀ {xs ys : List Value},
    (listEqGo e xs ys = true ↔ List.Forall₂ (fun x y => e x y = true) xs ys)
  | [], [] => by simp [listEqGo]
  | [], _ :: _ => by simp [listEqGo]
  | _ :: _, [] => by simp [listEqGo]
  | x :: xs, y :: ys => by
    simp [listEqGo, @listEqGo_iff _ xs ys, List.forall₂_cons]

theorem dictLeGo_iff {e : Value → Value → Bool} : {xs : VPairs} → {ys : VPairs} →
    (dictLeGo e xs ys = true ↔
      ∀ k v, (k, v) ∈ xs.toList → ∃ w, alookup k ys = some w ∧ e v w = true)
  | .nil, ys => by simp [dictLeGo, VPairs.toList]
  | .cons k v xs, ys => by
    simp only [dictLeGo, Bool.and_eq_true, VPairs.toList, List.mem_cons]
    rw [@dictLeGo_iff _ xs ys]
    constructor
    · rintro ⟨h1, h2⟩ k2 v2 (he | hm)
      · cases he
        cases hl : alookup k ys with
        | none => rw [hl] at h1; simp at h1
        | some w => rw [hl] at h1; exact ⟨w, rfl, h1⟩
      · exact h2 k2 v2 hm
    · intro h
      refine ⟨?_, fun k2 v2 hm => h k2 v2 (Or.inr hm)⟩
      rcases h k v (Or.inl rfl) with ⟨w, hw, he⟩
      rw [hw]; exact he

theorem eqF_symm : ∀ (n : Nat) (a b : Value), eqF n a b = eqF n b a := by
  intro n
  induction n with
  | zero => intro a b; rfl
  | succ n ih =>
    intro a b
    cases a <;> cases b <;> simp only [eqF]
    case bool.bool x y => exact bcomm x y
    case int.int x y => exact bcomm x y
    case str.str x y => exact bcomm x y
    case list.list xs ys =>
      generalize xs.toList = l1; generalize ys.toList = l2
      induction l1 generalizing l2 with
      | nil => cases l2 <;> simp [listEqGo]
      | cons x l1 ihl =>
        cases l2 with
        | nil => simp [listEqGo]
        | cons y l2 => simp [listEqGo, ih x y, ihl l2]
    case dict.dict xs ys => exact Bool.and_comm _ _

theorem eqV_symm (a b : Value) : eqV a b = eqV b a := by
  show eqF (vsize a + vsize b) a b = eqF (vsize b + vsize a) b a
  rw [Nat.add_comm (vsize b), eqF_symm]

theorem eqV_refl : ∀ {v : Value}, wfV v = true → eqV v v = true := by
  suffices h : ∀ (n : Nat) (v : Value), vsize v + vsize v ≤ n → wfV v = true →
      eqF n v v = true by
    intro v hv
    exact h (vsize v + vsize v) v (le_refl _) hv
  intro n
  induction n with
  | zero => intro v h _; have := vsize_pos v; omega
  | succ n ih =>
    intro v hn hwf
    cases v <;> simp only [eqF]
    case bool x => simp
    case int x => simp
    case str x => simp
    case list xs =>
      rw [listEqGo_iff]
      apply List.forall₂_same.2
      intro x hx
      have h1 := vsize_lt_of_mem hx
      simp [vsize] at hn
      have hw : wfV x = true := by
        rw [wfV, wfL_toList] at hwf
        exact List.all_eq_true.1 hwf x hx
      exact ih x (by omega) hw
    case dict es =>
      rw [wfV, Bool.and_eq_true] at hwf
      have hle : dictLeGo (eqF n) es es = true := by
        rw [dictLeGo_iff]
        intro k v hm
        refine ⟨v, alookup_of_nodup hwf.1 hm, ?_⟩
        have h1 := vsize_lt_of_pair_mem hm
        simp [vsize] at hn
        have hw : wfV v = true := by
          rw [wfP_toList] at hwf
          exact List.all_eq_true.1 hwf.2 (k, v) hm
        exact ih v (by omega) hw
      simp [hle]

/-! ### Injectivity of the canonical encoding -/

theorem withLen_inj {l1 l2 r1 r2 : List Nat} (h : withLen l1 ++ r1 = withLen l2 ++ r2) :
    l1 = l2 ∧ r1 = r2 := by
  simp only [withLen, List.cons_append, List.cons.injEq] at h
  exact List.append_inj h.2 h.1

theorem charToNat_inj {c d : Char} (h : c.toNat = d.toNat) : c = d := by
  apply Char.ext
  cases c; cases d
  simp [Char.toNat] at h
  exact UInt32.ext h

theorem strNats_inj {s t : String} (h : strNats s = strNats t) : s = t := by
  have hl : s.toList = t.toList := by
    have : Function.Injective Char.toNat := fun c d => charToNat_inj
    exact (List.map_injective_iff.2 this) h
  cases s; cases t
  simp [String.toList] at hl
  simp [hl]

theorem intCode_inj {m n : Int} (h : intCode m = intCode n) : m = n := by
  unfold intCode at h
  by_cases hm : 0 ≤ m <;> by_cases hn : 0 ≤ n <;> simp [hm, hn] at h <;> omega

theorem encodeL_inj : {s1 s2 : VList} →
    (∀ x ∈ s1.toList, ∀ y, encode x = encode y → x = y) →
    encodeL s1 = encodeL s2 → s1 = s2
  | .nil, .nil, _, _ => rfl
  | .nil, .cons y ys, _, h => by simp [encodeL, withLen] at h
  | .cons x xs, .nil, _, h => by simp [encodeL, withLen] at h
  | .cons x xs, .cons y ys, hinj, h => by
    simp only [encodeL] at h
    obtain ⟨h1, h2⟩ := withLen_inj h
    have hx : x = y := hinj x (by simp [VList.toList]) y h1
    have ht : xs = ys :=
      encodeL_inj (fun z hz w => hinj z (by simp [VList.toList, hz]) w) h2
    rw [hx, ht]

theorem encodeP_inj : {p1 p2 : VPairs} →
    (∀ k x, (k, x) ∈ p1.toList → ∀ y, encode x = encode y → x = y) →
    encodeP p1 = encodeP p2 → p1 = p2
  | .nil, .nil, _, _ => rfl
  | .nil, .cons k y ys, _, h => by simp [encodeP, withLen] at h
  | .cons k x xs, .nil, _, h => by simp [encodeP, withLen] at h
  | .cons k1 x xs, .cons k2 y ys, hinj, h => by
    simp only [encodeP, List.append_assoc] at h
    obtain ⟨hk, h2⟩ := withLen_inj h
    obtain ⟨hv, h3⟩ := withLen_inj h2
    have hks : k1 = k2 := strNats_inj hk
    have hx : x = y := hinj k1 x (by simp [VPairs.toList]) y hv
    have ht : xs = ys :=
      encodeP_inj (fun k3 z hz w => hinj k3 z (by simp [VPairs.toList, hz]) w) h3
    rw [hks, hx, ht]

theorem encode_inj : ∀ {x y : Value}, encode x = encode y → x = y := by
  suffices hmain : ∀ (n : Nat) (x y : Value), vsize x ≤ n → encode x = encode y → x = y by
    intro x y h
    exact hmain (vsize x) x y (le_refl _) h
  intro n
  induction n with
  | zero => intro x y hn _; have := vsize_pos x; omega
  | succ n ih =>
    intro x y hn h
    cases x <;> cases y <;> simp only [encode, withLen] at h <;> try simp at h
    case null.null => rfl
    case bool.bool b1 b2 => cases b1 <;> cases b2 <;> simp at h ⊢
    case int.int i1 i2 => rw [intCode_inj h]
    case str.str s1 s2 =>
      obtain ⟨-, h2⟩ := h
      rw [strNats_inj h2]
    case list.list xs ys =>
      have : xs = ys := by
        apply encodeL_inj (fun z hz w hw => ?_) h
        have hlt := vsize_lt_of_mem hz
        have : vsize (Value.list xs) = 1 + vsizeL xs := by simp [vsize]
        exact ih z w (by omega) hw
      rw [this]
    case dict.dict xs ys =>
      have : xs = ys := by
        apply encodeP_inj (fun k z hz w hw => ?_) h
        have hlt := vsize_lt_of_pair_mem hz
        have : vsize (Value.dict xs) = 1 + vsizeP xs := by simp [vsize]
        exact ih z w (by omega) hw
      rw [this]

theorem eqV_dict_iff {xs ys : VPairs} (hx : keysNodup (keysV xs) = true)
    (hy : keysNodup (keysV ys) = true) :
    eqV (.dict xs) (.dict ys) = true ↔
      ((∀ k, (alookup k xs).isSome ↔ (alookup k ys).isSome) ∧
       (∀ k v w, alookup k xs = some v → alookup k ys = some w → eqV v w = true)) := by
  rw [eqV_dict_eq, Bool.and_eq_true, dictLeGo_iff, dictLeGo_iff]
  constructor
  · rintro ⟨h1, h2⟩
    constructor
    · intro k
      constructor
      · intro hs
        rcases Option.isSome_iff_exists.1 hs with ⟨v, hv⟩
        rcases h1 k v (alookup_mem hv) with ⟨w, hw, _⟩
        simp [hw]
      · intro hs
        rcases Option.isSome_iff_exists.1 hs with ⟨w, hw⟩
        rcases h2 k w (alookup_mem hw) with ⟨v, hv, _⟩
        simp [hv]
    · intro k v w hv hw
      rcases h1 k v (alookup_mem hv) with ⟨w2, hw2, he⟩
      rw [hw] at hw2; cases hw2
      exact he
  · rintro ⟨h1, h2⟩
    constructor
    · intro k v hm
      have hv : alookup k xs = some v := alookup_of_nodup hx hm
      have hs : (alookup k ys).isSome := (h1 k).1 (by simp [hv])
      rcases Option.isSome_iff_exists.1 hs with ⟨w, hw⟩
      exact ⟨w, hw, h2 k v w hv hw⟩
    · intro k w hm
      have hw : alookup k ys = some w := alookup_of_nodup hy hm
      have hs : (alookup k xs).isSome := (h1 k).2 (by simp [hw])
      rcases Option.isSome_iff_exists.1 hs with ⟨v, hv⟩
      refine ⟨v, hv, ?_⟩
      rw [eqV_symm]
      exact h2 k v w hv hw

/-! ### Matching-block chain lemmas -/

theorem runFrom_le {xs ys : List (List Nat)} {bhi : Nat} :
    ∀ (cnt i j : Nat), runFrom xs ys bhi cnt i j ≤ cnt
  | 0, _, _ => le_refl _
  | cnt + 1, i, j => by
    simp only [runFrom]
    split
    · have := @runFrom_le xs ys bhi cnt (i + 1) (j + 1)
      omega
    · omega

theorem runFrom_le_sub {xs ys : List (List Nat)} {bhi : Nat} :
    ∀ (cnt i j : Nat), runFrom xs ys bhi cnt i j ≤ bhi - j
  | 0, _, _ => Nat.zero_le _
  | cnt + 1, i, j => by
    simp only [runFrom]
    split
    · next h =>
      simp only [Bool.and_eq_true, decide_eq_true_eq] at h
      have := @runFrom_le_sub xs ys bhi cnt (i + 1) (j + 1)
      omega
    · omega

theorem flmJ_ok {xs ys : List (List Nat)} {alo ahi blo bhi i : Nat}
    (hia : alo ≤ i) (hi : i ≤ ahi) :
    ∀ (cj j : Nat) (best : Blk), blo ≤ j → BlkOkR alo ahi blo bhi best →
      BlkOkR alo ahi blo bhi (flmJ xs ys ahi bhi i cj j best)
  | 0, _, best, _, hb => hb
  | cj + 1, j, best, hj, hb => by
    have hbest2 : BlkOkR alo ahi blo bhi
        (if best.2.2 < runFrom xs ys bhi (ahi - i) i j
         then (i, j, runFrom xs ys bhi (ahi - i) i j) else best) := by
      split
      · next hk =>
        have h1 := @runFrom_le xs ys bhi (ahi - i) i j
        have h2 := @runFrom_le_sub xs ys bhi (ahi - i) i j
        refine ⟨hia, hj, ?_, ?_⟩
        · show i + runFrom xs ys bhi (ahi - i) i j ≤ ahi
          omega
        · show j + runFrom xs ys bhi (ahi - i) i j ≤ bhi
          omega
      · exact hb
    simp only [flmJ]
    exact flmJ_ok hia hi cj (j + 1) _ (by omega) hbest2

theorem flmI_ok {xs ys : List (List Nat)} {alo ahi blo bhi : Nat} :
    ∀ (ci i : Nat) (best : Blk), alo ≤ i → ci + i = ahi →
      BlkOkR alo ahi blo bhi best →
      BlkOkR alo ahi blo bhi (flmI xs ys ahi blo bhi ci i best)
  | 0, _, best, _, _, hb => hb
  | ci + 1, i, best, hia, hci, hb => by
    simp only [flmI]
    exact flmI_ok ci (i + 1) _ (by omega) (by omega)
      (flmJ_ok hia (by omega) (bhi - blo) blo best (le_refl _) hb)

theorem flm_ok {xs ys : List (List Nat)} {alo ahi blo bhi : Nat}
    (ha : alo ≤ ahi) (hb : blo ≤ bhi) :
    BlkOkR alo ahi blo bhi (find_longest_match xs ys alo ahi blo bhi) := by
  unfold find_longest_match
  exact flmI_ok (ahi - alo) alo (alo, blo, 0) (le_refl _) (by omega)
    ⟨le_refl _, le_refl _, show alo + 0 ≤ ahi by omega, show blo + 0 ≤ bhi by omega⟩

theorem chained_mono {ahi bhi ahi2 bhi2 : Nat} (h1 : ahi ≤ ahi2) (h2 : bhi ≤ bhi2) :
    ∀ {bs : List Blk} {i j : Nat}, ChainedR ahi bhi i j bs → ChainedR ahi2 bhi2 i j bs := by
  intro bs
  induction bs with
  | nil => intro i j _; trivial
  | cons b bs ih =>
    obtain ⟨ai, bj, k⟩ := b
    rintro i j ⟨a1, a2, a3, a4, a5⟩
    exact ⟨a1, a2, by omega, by omega, ih a5⟩

theorem chained_start {ahi bhi : Nat} {i0 j0 i j : Nat} (h1 : i0 ≤ i) (h2 : j0 ≤ j)
    {bs : List Blk} (h : ChainedR ahi bhi i j bs) : ChainedR ahi bhi i0 j0 bs := by
  cases bs with
  | nil => trivial
  | cons b bs =>
    obtain ⟨ai, bj, k⟩ := b
    obtain ⟨a1, a2, a3, a4, a5⟩ := h
    exact ⟨by omega, by omega, a3, a4, a5⟩

theorem chained_append {ahi bhi m1 m2 : Nat} (hm1 : m1 ≤ ahi) (hm2 : m2 ≤ bhi) :
    ∀ {L1 : List Blk} {i j : Nat}, i ≤ m1 → j ≤ m2 →
      ChainedR m1 m2 i j L1 → ∀ {L2 : List Blk}, ChainedR ahi bhi m1 m2 L2 →
      ChainedR ahi bhi i j (L1 ++ L2) := by
  intro L1
  induction L1 with
  | nil =>
    intro i j hi hj _ L2 h2
    exact chained_start hi hj h2
  | cons b bs ih =>
    obtain ⟨ai, bj, k⟩ := b
    rintro i j hi hj ⟨a1, a2, a3, a4, a5⟩ L2 h2
    exact ⟨a1, a2, by omega, by omega, ih (by omega) (by omega) a5 h2⟩

theorem mbGo_chained {xs ys : List (List Nat)} :
    ∀ (f alo ahi blo bhi : Nat), alo ≤ ahi → blo ≤ bhi →
      ChainedR ahi bhi alo blo (mbGo xs ys f alo ahi blo bhi) := by
  intro f
  induction f with
  | zero => intro alo ahi blo bhi _ _; trivial
  | succ f ih =>
    intro alo ahi blo bhi ha hb
    simp only [mbGo]
    have hok := @flm_ok xs ys _ _ _ _ ha hb
    generalize hflm : find_longest_match xs ys alo ahi blo bhi = m at hok ⊢
    obtain ⟨mi, mj, mk⟩ := m
    obtain ⟨hi1, hj1, hik, hjk⟩ := hok
    dsimp only at hi1 hj1 hik hjk ⊢
    split
    · trivial
    · next hk0 =>
      have hmid : ChainedR ahi bhi mi mj
          ((mi, mj, mk) ::
            (if mi + mk < ahi && mj + mk < bhi then
              mbGo xs ys f (mi + mk) ahi (mj + mk) bhi
            else [])) := by
        refine ⟨le_refl _, le_refl _, hik, hjk, ?_⟩
        split
        · next hrc =>
          simp only [Bool.and_eq_true, decide_eq_true_eq] at hrc
          exact ih _ ahi _ bhi (by omega) (by omega)
        · trivial
      split
      · next hlc =>
        simp only [Bool.and_eq_true, decide_eq_true_eq] at hlc
        have hleft : ChainedR mi mj alo blo (mbGo xs ys f alo mi blo mj) :=
          ih alo mi blo mj (by omega) (by omega)
        exact chained_append (by omega) (by omega) (by omega) (by omega) hleft hmid
      · next hlc =>
        rw [List.nil_append]
        exact chained_start hi1 hj1 hmid

theorem collapse_chained {ahi bhi : Nat} :
    ∀ (bs : List Blk) (i1 j1 k1 i0 j0 : Nat), i0 ≤ i1 → j0 ≤ j1 →
      i1 + k1 ≤ ahi → j1 + k1 ≤ bhi → ChainedR ahi bhi (i1 + k1) (j1 + k1) bs →
      ChainedR ahi bhi i0 j0 (collapseGo i1 j1 k1 bs) := by
  intro bs
  induction bs with
  | nil =>
    intro i1 j1 k1 i0 j0 hi0 hj0 hik hjk _
    simp only [collapseGo]
    split
    · trivial
    · exact ⟨hi0, hj0, hik, hjk, trivial⟩
  | cons b rest ih =>
    obtain ⟨i2, j2, k2⟩ := b
    rintro i1 j1 k1 i0 j0 hi0 hj0 hik hjk ⟨h12, h22, h2a, h2b, hrest⟩
    simp only [collapseGo]
    split
    · next hmerge =>
      obtain ⟨hma, hmb⟩ := hmerge
      apply ih i1 j1 (k1 + k2) i0 j0 hi0 hj0 (by omega) (by omega)
      have e1 : i1 + (k1 + k2) = i2 + k2 := by omega
      have e2 : j1 + (k1 + k2) = j2 + k2 := by omega
      rw [e1, e2]
      exact hrest
    · split
      · next hz =>
        exact ih i2 j2 k2 i0 j0 (by omega) (by omega) h2a h2b hrest
      · refine ⟨hi0, hj0, hik, hjk, ?_⟩
        exact ih i2 j2 k2 (i1 + k1) (j1 + k1) h12 h22 h2a h2b hrest

theorem blocksOk_of_chained {la lb : Nat} :
    ∀ (bs : List Blk) (i j : Nat), ChainedR la lb i j bs → i ≤ la → j ≤ lb →
      BlocksOk la lb i j (bs ++ [(la, lb, 0)]) := by
  intro bs
  induction bs with
  | nil =>
    intro i j _ hi hj
    exact ⟨hi, hj, by omega, by omega, rfl, rfl⟩
  | cons b bs ih =>
    obtain ⟨ai, bj, k⟩ := b
    rintro i j ⟨h1, h2, h3, h4, hrest⟩ hi hj
    exact ⟨h1, h2, h3, h4, ih ai bj (chained_start (by omega) (by omega) hrest)
      (by omega) (by omega)⟩

theorem get_blocks_chained (ea eb : List (List Nat)) :
    ChainedR ea.length eb.length 0 0
      (collapseGo 0 0 0 (mbGo ea eb (ea.length + eb.length + 1) 0 ea.length 0 eb.length)) := by
  apply collapse_chained _ 0 0 0 0 0 (le_refl _) (le_refl _) (by omega) (by omega)
  exact mbGo_chained _ 0 _ 0 _ (Nat.zero_le _) (Nat.zero_le _)

theorem get_blocks_ok (ea eb : List (List Nat)) :
    BlocksOk ea.length eb.length 0 0 (get_matching_blocks ea eb) := by
  unfold get_matching_blocks
  exact blocksOk_of_chained _ 0 0 (get_blocks_chained ea eb) (Nat.zero_le _) (Nat.zero_le _)

/-! ### List operation lemmas -/

theorem getD_mid : ∀ (pre : List Value) (x : Value) (post : List Value),
    (pre ++ x :: post).getD pre.length .null = x
  | [], _, _ => rfl
  | y :: pre, x, post => getD_mid pre x post

theorem set_mid : ∀ (pre : List Value) (x r : Value) (post : List Value),
    (pre ++ x :: post).set pre.length r = pre ++ r :: post
  | [], _, _, _ => rfl
  | y :: pre, x, r, post => congrArg (y :: ·) (set_mid pre x r post)

theorem erase_mid : ∀ (pre : List Value) (x : Value) (post : List Value),
    (pre ++ x :: post).eraseIdx pre.length = pre ++ post
  | [], _, _ => rfl
  | y :: pre, x, post => congrArg (y :: ·) (erase_mid pre x post)

theorem insNat_mid : ∀ (pre : List Value) (y : Value) (post : List Value),
    insNat pre.length y (pre ++ post) = pre ++ y :: post
  | [], _, _ => rfl
  | z :: pre, y, post => congrArg (z :: ·) (insNat_mid pre y post)

theorem pyNorm_cast (len : Nat) (q : Nat) : pyNorm len (q : Int) = (q : Int) := by
  rw [pyNorm, if_neg (by omega)]

theorem pyGetIntE_mid (pre post : List Value) (x : Value) :
    pyGetIntE (.list (LV (pre ++ x :: post))) (pre.length : Int) = .ok x := by
  have hlen : (pre ++ x :: post).length = pre.length + post.length + 1 := by
    simp only [List.length_append, List.length_cons]; omega
  dsimp only [pyGetIntE]
  rw [toList_LV]
  rw [pyNorm_cast]
  rw [if_pos (by constructor <;> omega)]
  rw [show ((pre.length : Int)).toNat = pre.length by omega, getD_mid]

theorem pySetIntE_mid (pre post : List Value) (x r : Value) :
    pySetIntE (.list (LV (pre ++ x :: post))) (pre.length : Int) r =
      .ok (.list (LV (pre ++ r :: post))) := by
  have hlen : (pre ++ x :: post).length = pre.length + post.length + 1 := by
    simp only [List.length_append, List.length_cons]; omega
  dsimp only [pySetIntE]
  rw [toList_LV]
  rw [pyNorm_cast]
  rw [if_pos (by constructor <;> omega)]
  rw [show ((pre.length : Int)).toNat = pre.length by omega, set_mid]

theorem pyDelIntE_mid (pre post : List Value) (x : Value) :
    pyDelIntE (.list (LV (pre ++ x :: post))) (pre.length : Int) =
      .ok (.list (LV (pre ++ post))) := by
  have hlen : (pre ++ x :: post).length = pre.length + post.length + 1 := by
    simp only [List.length_append, List.length_cons]; omega
  dsimp only [pyDelIntE]
  rw [toList_LV]
  rw [pyNorm_cast]
  rw [if_pos (by constructor <;> omega)]
  rw [show ((pre.length : Int)).toNat = pre.length by omega, erase_mid]

theorem pyInsIntE_mid (pre post : List Value) (y : Value) :
    pyInsIntE (.list (LV (pre ++ post))) (pre.length : Int) y =
      .ok (.list (LV (pre ++ y :: post))) := by
  have hlen : (pre ++ post).length = pre.length + post.length := by
    simp only [List.length_append]
  dsimp only [pyInsIntE]
  rw [toList_LV]
  rw [pyNorm_cast]
  rw [if_neg (by omega)]
  rw [show ((pre.length : Int)).toNat = pre.length by omega]
  rw [show min pre.length (pre ++ post).length = pre.length by omega, insNat_mid]

/-! ### Dict operation lemmas -/

theorem alookup_setPairs_self (k : String) (x : Value) :
    ∀ es, alookup k (setPairs k x es) = some x
  | .nil => by simp [setPairs, alookup]
  | .cons k2 w es => by
    by_cases h : k2 = k
    · subst h; simp [setPairs, alookup]
    · simp [setPairs, alookup, h]
      exact alookup_setPairs_self k x es

theorem alookup_setPairs_ne {k k2 : String} (x : Value) (h : k2 ≠ k) :
    ∀ es, alookup k2 (setPairs k x es) = alookup k2 es
  | .nil => by simp [setPairs, alookup, Ne.symm h]
  | .cons k3 w es => by
    by_cases h3 : k3 = k
    · subst h3
      simp [setPairs, alookup, Ne.symm h]
    · simp only [setPairs, if_neg h3, alookup]
      by_cases h4 : k3 = k2
      · simp [h4]
      · simp [h4, alookup_setPairs_ne x h es]

theorem alookup_delPairs_ne {k k2 : String} (h : k2 ≠ k) :
    ∀ es, alookup k2 (delPairs k es) = alookup k2 es
  | .nil => by simp [delPairs, alookup]
  | .cons k3 w es => by
    by_cases h3 : k3 = k
    · subst h3
      simp [delPairs, alookup, Ne.symm h]
    · simp only [delPairs, if_neg h3, alookup]
      by_cases h4 : k3 = k2
      · simp [h4]
      · simp [h4, alookup_delPairs_ne h es]

theorem keysNodup_iff : ∀ {l : List String}, keysNodup l = true ↔ l.Nodup
  | [] => by simp [keysNodup]
  | k :: l => by
    simp [keysNodup, @keysNodup_iff l, List.nodup_cons]

theorem alookup_delPairs_self {k : String} : ∀ {es : VPairs},
    keysNodup (keysV es) = true → alookup k (delPairs k es) = none
  | .nil, _ => by simp [delPairs, alookup]
  | .cons k2 w es, hnd => by
    simp only [keysV, keysNodup, Bool.and_eq_true] at hnd
    by_cases h2 : k2 = k
    · subst h2
      simp only [delPairs, if_pos rfl]
      rw [alookup_none_iff]
      intro hmem
      have : k2 ∈ keysV es := hmem
      simp at hnd
      exact hnd.1 this
    · simp [delPairs, h2, alookup, alookup_delPairs_self hnd.2]

theorem keysV_setPairs_mem {k : String} (x : Value) : ∀ {es : VPairs},
    k ∈ keysV es → keysV (setPairs k x es) = keysV es
  | .cons k2 w es, hm => by
    by_cases h : k2 = k
    · subst h; simp [setPairs, keysV]
    · simp only [keysV, List.mem_cons] at hm
      rcases hm with h1 | h2
      · exact absurd h1.symm h
      · simp [setPairs, h, keysV, keysV_setPairs_mem x h2]

theorem keysV_setPairs_not_mem {k : String} (x : Value) : ∀ {es : VPairs},
    k ∉ keysV es → keysV (setPairs k x es) = keysV es ++ [k]
  | .nil, _ => by simp [setPairs, keysV]
  | .cons k2 w es, hm => by
    simp only [keysV, List.mem_cons] at hm
    push_neg at hm
    simp [setPairs, Ne.symm hm.1, keysV, keysV_setPairs_not_mem x hm.2]

theorem keysNodup_setPairs {k : String} (x : Value) {es : VPairs}
    (h : keysNodup (keysV es) = true) : keysNodup (keysV (setPairs k x es)) = true := by
  by_cases hm : k ∈ keysV es
  · rw [keysV_setPairs_mem x hm]; exact h
  · rw [keysV_setPairs_not_mem x hm, keysNodup_iff]
    rw [keysNodup_iff] at h
    simp [List.nodup_append, h, hm]

theorem keysV_delPairs_sub {k k2 : String} : ∀ {es : VPairs},
    k2 ∈ keysV (delPairs k es) → k2 ∈ keysV es
  | .cons k3 w es, hm => by
    by_cases h : k3 = k
    · subst h
      rw [show delPairs k3 (VPairs.cons k3 w es) = es by simp [delPairs]] at hm
      simp [keysV, hm]
    · simp only [delPairs, if_neg h, keysV, List.mem_cons] at hm ⊢
      rcases hm with h1 | h2
      · exact Or.inl h1
      · exact Or.inr (keysV_delPairs_sub h2)

theorem keysV_delPairs_sublist (k : String) : ∀ (es : VPairs),
    List.Sublist (keysV (delPairs k es)) (keysV es)
  | .nil => by simp [delPairs, keysV]
  | .cons k2 w es => by
    by_cases h : k2 = k
    · subst h
      rw [show delPairs k2 (VPairs.cons k2 w es) = es by simp [delPairs]]
      exact List.Sublist.cons _ (List.Sublist.refl _)
    · simp only [delPairs, if_neg h, keysV]
      exact List.Sublist.cons₂ _ (keysV_delPairs_sublist k es)

theorem keysNodup_delPairs (k : String) {es : VPairs}
    (h : keysNodup (keysV es) = true) : keysNodup (keysV (delPairs k es)) = true := by
  rw [keysNodup_iff] at h ⊢
  exact List.Nodup.sublist (keysV_delPairs_sublist k es) h

theorem setPairs_values {P : Value → Prop} {k : String} {x : Value}
    (hx : P x) : ∀ {es : VPairs}, (∀ q ∈ es.toList, P q.2) →
    ∀ q ∈ (setPairs k x es).toList, P q.2
  | .nil, _ => by
    simp [setPairs, VPairs.toList]
    exact hx
  | .cons k2 w es, hall => by
    by_cases h : k2 = k
    · subst h
      simp only [setPairs, if_pos rfl, VPairs.toList]
      intro q hq
      rcases List.mem_cons.1 hq with hq | hq
      · cases hq; exact hx
      · exact hall q (by simp [VPairs.toList, hq])
    · simp only [setPairs, if_neg h, VPairs.toList]
      intro q hq
      rcases List.mem_cons.1 hq with hq | hq
      · cases hq; exact hall (k2, w) (by simp [VPairs.toList])
      · exact setPairs_values hx (fun q2 hq2 => hall q2 (by simp [VPairs.toList, hq2])) q hq

theorem delPairs_values {P : Value → Prop} {k : String} : ∀ {es : VPairs},
    (∀ q ∈ es.toList, P q.2) → ∀ q ∈ (delPairs k es).toList, P q.2
  | .nil, _ => by simp [delPairs, VPairs.toList]
  | .cons k2 w es, hall => by
    by_cases h : k2 = k
    · subst h
      rw [show delPairs k2 (VPairs.cons k2 w es) = es by simp [delPairs]]
      exact fun q hq => hall q (by simp [VPairs.toList, hq])
    · simp only [delPairs, if_neg h, VPairs.toList]
      intro q hq
      rcases List.mem_cons.1 hq with hq | hq
      · cases hq; exact hall (k2, w) (by simp [VPairs.toList])
      · exact delPairs_values (fun q2 hq2 => hall q2 (by simp [VPairs.toList, hq2])) q hq

/-! ### Union key lemmas -/

theorem addKey_mem (acc : List String) (k k2 : String) :
    k2 ∈ addKey acc k ↔ k2 ∈ acc ∨ k2 = k := by
  unfold addKey
  split
  · next h =>
    rw [List.elem_iff] at h
    constructor
    · exact Or.inl
    · rintro (h2 | rfl)
      · exact h2
      · exact h
  · simp

theorem addKey_nodup {acc : List String} (h : acc.Nodup) (k : String) :
    (addKey acc k).Nodup := by
  unfold addKey
  split
  · exact h
  · next h2 =>
    have h3 : k ∉ acc := fun hm => h2 (List.elem_iff.2 hm)
    simp [List.nodup_append, h, h3]

theorem foldl_addKey_mem : ∀ (l acc : List String) (k : String),
    (k ∈ l.foldl addKey acc ↔ k ∈ acc ∨ k ∈ l)
  | [], acc, k => by simp
  | k2 :: l, acc, k => by
    simp only [List.foldl_cons]
    rw [foldl_addKey_mem l (addKey acc k2) k, addKey_mem]
    simp only [List.mem_cons]
    constructor
    · rintro ((h | rfl) | h)
      · exact Or.inl h
      · exact Or.inr (Or.inl rfl)
      · exact Or.inr (Or.inr h)
    · rintro (h | (rfl | h))
      · exact Or.inl (Or.inl h)
      · exact Or.inl (Or.inr rfl)
      · exact Or.inr h

theorem foldl_addKey_nodup : ∀ (l acc : List String), acc.Nodup →
    (l.foldl addKey acc).Nodup
  | [], _, h => h
  | k :: l, acc, h => foldl_addKey_nodup l (addKey acc k) (addKey_nodup h k)

theorem mem_unionKeys {ka kb : List String} {k : String} :
    k ∈ unionKeys ka kb ↔ k ∈ ka ∨ k ∈ kb := by
  unfold unionKeys
  rw [foldl_addKey_mem]
  simp

theorem unionKeys_nodup (ka kb : List String) : (unionKeys ka kb).Nodup :=
  foldl_addKey_nodup _ _ List.nodup_nil

/-! ### Patch congruence and fuel irrelevance -/

theorem patchPairStep_congr {p1 p2 : Value → Value → Except PErr Value} (k : String)
    {sub : Value} (t : Value) (h : ∀ tv, p1 tv sub = p2 tv sub) :
    patchPairStep p1 k sub t = patchPairStep p2 k sub t := by
  unfold patchPairStep
  simp only [h]

theorem patchStep_congr {p1 p2 : Value → Value → Except PErr Value}
    {sub : Value} (t : Value) (i j : Int) (h : ∀ tv, p1 tv sub = p2 tv sub) :
    patchStep p1 sub t i j = patchStep p2 sub t i j := by
  unfold patchStep
  simp only [h]

theorem patchPairsGo_congr {p1 p2 : Value → Value → Except PErr Value} :
    ∀ {entries : List (String × Value)} (t : Value),
    (∀ q ∈ entries, ∀ tv, p1 tv q.2 = p2 tv q.2) →
    patchPairsGo p1 entries t = patchPairsGo p2 entries t
  | [], _, _ => rfl
  | (k, sub) :: rest, t, h => by
    simp only [patchPairsGo]
    rw [patchPairStep_congr k t (fun tv => h (k, sub) (by simp) tv)]
    cases hs : patchPairStep p2 k sub t with
    | error e => rfl
    | ok t2 =>
      show patchPairsGo p1 rest t2 = patchPairsGo p2 rest t2
      exact patchPairsGo_congr t2 (fun q hq tv => h q (by simp [hq]) tv)

theorem patchListGo_congr {p1 p2 : Value → Value → Except PErr Value} :
    ∀ {children : List Value} (t : Value) (i j : Int),
    (∀ sub ∈ children, ∀ tv, p1 tv sub = p2 tv sub) →
    patchListGo p1 children t i j = patchListGo p2 children t i j
  | [], _, _, _, _ => rfl
  | sub :: rest, t, i, j, h => by
    simp only [patchListGo]
    rw [patchStep_congr t i j (fun tv => h sub (by simp) tv)]
    cases hs : patchStep p2 sub t i j with
    | error e => rfl
    | ok s =>
      show patchListGo p1 rest s.1 s.2.1 s.2.2 = patchListGo p2 rest s.1 s.2.1 s.2.2
      exact patchListGo_congr s.1 s.2.1 s.2.2 (fun q hq tv => h q (by simp [hq]) tv)

theorem vsize_list_eq (xs : VList) : vsize (.list xs) = 1 + vsizeL xs := by simp [vsize]

theorem vsize_dict_eq (es : VPairs) : vsize (.dict es) = 1 + vsizeP es := by simp [vsize]

theorem patchF_irr : ∀ (f g : Nat) (t d : Value), vsize d ≤ f → vsize d ≤ g →
    patchF f t d = patchF g t d := by
  intro f
  induction f with
  | zero => intro g t d h _; have := vsize_pos d; omega
  | succ f ih =>
    intro g t d hf hg
    match g with
    | 0 => have := vsize_pos d; omega
    | g + 1 =>
      cases d with
      | null => rfl
      | bool b => rfl
      | int i => rfl
      | str s => rfl
      | list els => rfl
      | dict es =>
        simp only [patchF, pyContains]
        cases halo : alookup "D" es with
        | none => rfl
        | some pay =>
          have hpay : vsize pay < vsizeP es := vsize_lt_of_alookup halo
          simp only [Option.isSome_some]
          show (do
              let x ← pyIndexStr (.dict es) "D"
              match x with
              | .dict des => patchPairsGo (patchF f) des.toList t
              | .list dls => do
                  let r ← patchListGo (patchF f) dls.toList t 0 0
                  pure r.1
              | _ => .error .invalidDiff) = (do
              let x ← pyIndexStr (.dict es) "D"
              match x with
              | .dict des => patchPairsGo (patchF g) des.toList t
              | .list dls => do
                  let r ← patchListGo (patchF g) dls.toList t 0 0
                  pure r.1
              | _ => .error .invalidDiff)
          rw [show pyIndexStr (.dict es) "D" = .ok pay by simp [pyIndexStr, halo]]
          cases pay with
          | dict des =>
            show patchPairsGo (patchF f) des.toList t = patchPairsGo (patchF g) des.toList t
            apply patchPairsGo_congr
            intro q hq tv
            have h1 : vsize q.2 < vsizeP des := by
              obtain ⟨qk, qv⟩ := q
              exact vsize_lt_of_pair_mem hq
            rw [vsize_dict_eq] at *
            exact ih g tv q.2 (by omega) (by omega)
          | list dls =>
            have heq : patchListGo (patchF f) dls.toList t 0 0 =
                patchListGo (patchF g) dls.toList t 0 0 := by
              apply patchListGo_congr
              intro sub hsub tv
              have h1 : vsize sub < vsizeL dls := vsize_lt_of_mem hsub
              rw [vsize_list_eq] at hpay
              rw [vsize_dict_eq] at *
              exact ih g tv sub (by omega) (by omega)
            show (patchListGo (patchF f) dls.toList t 0 0 >>= fun r => pure r.1) =
              (patchListGo (patchF g) dls.toList t 0 0 >>= fun r => pure r.1)
            rw [heq]
          | null => rfl
          | bool b => rfl
          | int i => rfl
          | str s => rfl

theorem patchF_eq_patch {f : Nat} {t d : Value} (h : vsize d ≤ f) :
    patchF f t d = patch t d :=
  patchF_irr f (vsize d) t d h (le_refl _)

/-- Attaching a fresh `I` annotation to a dict node does not change how
`patch` applies the node (only the list-branch step reads `I`). -/
theorem patchF_setKey_I : ∀ (f : Nat) (t : Value) (es : VPairs) (x : Value),
    patchF f t (.dict (setPairs "I" x es)) = patchF f t (.dict es)
  | 0, _, _, _ => rfl
  | f + 1, t, es, x => by
    have hD : alookup "D" (setPairs "I" x es) = alookup "D" es :=
      alookup_setPairs_ne x (by decide) es
    have hN : alookup "N" (setPairs "I" x es) = alookup "N" es :=
      alookup_setPairs_ne x (by decide) es
    simp only [patchF, pyContains, pyIndexStr, hD, hN]

/-- `patch` of a fresh-`I`-annotated dict node equals `patch` of the node
(at any sufficient fuel, hence also for the self-fueled wrapper). -/
theorem vsizeP_setPairs_fresh (k : String) (x : Value) : ∀ (es : VPairs), k ∉ keysV es →
    vsizeP (setPairs k x es) = vsizeP es + 1 + vsize x
  | .nil, _ => by simp [setPairs, vsizeP]; omega
  | .cons k2 v es, h => by
    simp only [keysV, List.mem_cons] at h
    push_neg at h
    have hne : ¬k2 = k := fun he => h.1 he.symm
    simp only [setPairs, if_neg hne, vsizeP]
    rw [vsizeP_setPairs_fresh k x es h.2]
    omega

theorem patch_valSetKey_I {es : VPairs} (t x : Value) (hfree : alookup "I" es = none) :
    patch t (valSetKey (.dict es) "I" x) = patch t (.dict es) := by
  show patchF (vsize (Value.dict (setPairs "I" x es))) t (.dict (setPairs "I" x es)) = _
  rw [patchF_setKey_I]
  apply patchF_irr
  · rw [vsize_dict_eq, vsize_dict_eq,
      vsizeP_setPairs_fresh "I" x es (alookup_none_iff.1 hfree)]
    omega
  · exact le_refl _

/-! ### Walk emptiness: an empty diff means equal operands -/

theorem pairsGo_fst_nil {d : Value → Value → Value} :
    ∀ {l1 l2 : List Value} {i : Nat} {force : Bool},
    (pairsGo d l1 l2 i force).1 = [] →
    ∀ q ∈ List.zip l1 l2, isEmptyNode (d q.1 q.2) = true
  | [], _, _, _, _ => by simp
  | _ :: _, [], _, _, _ => by simp
  | x :: l1, y :: l2, i, force, h => by
    intro q hq
    simp only [pairsGo] at h
    split at h
    · next hemp =>
      rcases List.mem_cons.1 hq with hq2 | hq2
      · subst hq2; exact hemp
      · exact pairsGo_fst_nil h q hq2
    · simp at h

theorem remGo_fst_nil {c : Cfg} (hR : c.R = true) :
    ∀ {l : List Value} {i : Nat} {force : Bool}, (remGo c l i force).1 = [] → l = []
  | [], _, _, _ => rfl
  | x :: l, i, force, h => by
    simp only [remGo, hR, if_true] at h
    simp at h

theorem addGo_fst_nil {c : Cfg} (hA : c.A = true) {iFin : Nat} :
    ∀ {l : List Value} {force : Bool}, (addGo c iFin l force).1 = [] → l = []
  | [], _, _ => rfl
  | y :: l, force, h => by
    simp only [addGo, hA, if_true] at h
    simp at h

theorem listEqGo_append {l1 l2 r1 r2 : List Value}
    (h1 : List.Forall₂ (fun x y => eqV x y = true) l1 l2)
    (h2 : listEqGo eqV r1 r2 = true) :
    listEqGo eqV (l1 ++ r1) (l2 ++ r2) = true := by
  rw [listEqGo_iff] at h2 ⊢
  exact List.rel_append h1 h2

theorem walkGo_nil {c : Cfg} (hA : c.A = true) (hR : c.R = true)
    {d : Value → Value → Value} {xs ys : List Value}
    (Hd : ∀ x ∈ xs, ∀ y ∈ ys, isEmptyNode (d x y) = true → eqV x y = true) :
    ∀ (bs : List Blk) (i j : Nat) (force : Bool),
      BlocksOk xs.length ys.length i j bs →
      walkGo d c xs ys bs i j force = [] →
      listEqGo eqV (xs.drop i) (ys.drop j) = true := by
  intro bs
  induction bs with
  | nil =>
    rintro i j force ⟨hi, hj⟩ _
    subst hi; subst hj
    simp [List.drop_length, listEqGo]
  | cons b bs ih =>
    obtain ⟨ai, bj, k⟩ := b
    rintro i j force ⟨h1, h2, h3, h4, hrest⟩ hw
    simp only [walkGo] at hw
    rcases List.append_eq_nil.1 hw with ⟨hw2, hwrest⟩
    rcases List.append_eq_nil.1 hw2 with ⟨hw3, ha⟩
    rcases List.append_eq_nil.1 hw3 with ⟨hp, hr⟩
    have hcnt1 : min (ai - i) (bj - j) ≤ ai - i := Nat.min_le_left _ _
    have hcnt2 : min (ai - i) (bj - j) ≤ bj - j := Nat.min_le_right _ _
    have hai : ai = i + min (ai - i) (bj - j) := by
      have := remGo_fst_nil hR hr
      have hlen := congrArg List.length this
      simp only [List.length_take, List.length_drop, List.length_nil] at hlen
      omega
    have hbj : bj = j + min (ai - i) (bj - j) := by
      have := addGo_fst_nil hA ha
      have hlen := congrArg List.length this
      simp only [List.length_take, List.length_drop, List.length_nil] at hlen
      omega
    have hlen1 : ((xs.drop i).take (min (ai - i) (bj - j))).length = min (ai - i) (bj - j) := by
      simp only [List.length_take, List.length_drop]
      omega
    have hlen2 : ((ys.drop j).take (min (ai - i) (bj - j))).length = min (ai - i) (bj - j) := by
      simp only [List.length_take, List.length_drop]
      omega
    have hfa : List.Forall₂ (fun x y => eqV x y = true)
        ((xs.drop i).take (min (ai - i) (bj - j)))
        ((ys.drop j).take (min (ai - i) (bj - j))) := by
      rw [List.forall₂_iff_zip]
      refine ⟨by omega, ?_⟩
      intro x y hxy
      have hmem := pairsGo_fst_nil hp (x, y) hxy
      have hx : x ∈ xs := by
        have := List.of_mem_zip hxy
        exact List.mem_of_mem_drop (List.mem_of_mem_take this.1)
      have hy : y ∈ ys := by
        have := List.of_mem_zip hxy
        exact List.mem_of_mem_drop (List.mem_of_mem_take this.2)
      exact Hd x hx y hy hmem
    have htail : listEqGo eqV (xs.drop ai) (ys.drop bj) = true :=
      ih ai bj _ hrest hwrest
    have hdecomp1 : xs.drop i = (xs.drop i).take (min (ai - i) (bj - j)) ++ xs.drop ai := by
      conv_lhs => rw [← List.take_append_drop (min (ai - i) (bj - j)) (xs.drop i)]
      congr 1
      rw [List.drop_drop]
      congr 1
      omega
    have hdecomp2 : ys.drop j = (ys.drop j).take (min (ai - i) (bj - j)) ++ ys.drop bj := by
      conv_lhs => rw [← List.take_append_drop (min (ai - i) (bj - j)) (ys.drop j)]
      congr 1
      rw [List.drop_drop]
      congr 1
      omega
    rw [hdecomp1, hdecomp2]
    exact listEqGo_append hfa htail

theorem dictGo_nil {d : Value → Value → Value} {c : Cfg} {xs ys : VPairs} :
    ∀ (ks : List String), dictGo d c xs ys ks = .nil →
    ∀ k ∈ ks,
      (∀ av bv, alookup k xs = some av → alookup k ys = some bv →
        eqV av bv = true ∨ isEmptyNode (d av bv) = true) ∧
      (∀ av, alookup k xs = some av → alookup k ys = none → c.R = false) ∧
      (∀ bv, alookup k xs = none → alookup k ys = some bv → c.A = false)
  | [], _, k, hk => absurd hk (List.not_mem_nil k)
  | k2 :: ks, hnil, k, hk => by
    have hrest : dictGo d c xs ys ks = .nil := by
      have hnil2 := hnil
      simp only [dictGo] at hnil2
      cases hx : alookup k2 xs <;> cases hy : alookup k2 ys <;>
          simp only [hx, hy] at hnil2 <;>
          (try split at hnil2) <;> (try split at hnil2) <;>
          first
          | exact hnil2
          | simp at hnil2
    rcases List.mem_cons.1 hk with rfl | hk2
    · refine ⟨?_, ?_, ?_⟩
      · intro av bv h1 h2
        simp only [dictGo, h1, h2] at hnil
        by_cases he : eqV av bv = true
        · exact Or.inl he
        · simp only [he, Bool.false_eq_true, if_false] at hnil
          by_cases hemp : isEmptyNode (d av bv) = true
          · exact Or.inr hemp
          · simp only [hemp, Bool.false_eq_true, if_false] at hnil
            simp at hnil
      · intro av h1 h2
        simp only [dictGo, h1, h2] at hnil
        by_contra hRt
        simp only [Bool.not_eq_false] at hRt
        rw [hRt] at hnil
        simp at hnil
      · intro bv h1 h2
        simp only [dictGo, h1, h2] at hnil
        by_contra hAt
        simp only [Bool.not_eq_false] at hAt
        rw [hAt] at hnil
        simp at hnil
    · exact dictGo_nil ks hrest k hk2

/-- An empty diff implies the operands compare equal, whenever `A`, `N`
and `R` are all enabled (the core of "an empty node means no change"). -/
theorem diffF_empty_imp_eqV : ∀ (n : Nat) (c : Cfg), c.A = true → c.N = true →
    c.R = true → ∀ (a b : Value), wfV a = true → wfV b = true →
    vsize a + vsize b ≤ n → isEmptyNode (diffF n c a b) = true → eqV a b = true := by
  intro n
  induction n with
  | zero =>
    intro c _ _ _ a b _ _ hsz _
    have := vsize_pos a; have := vsize_pos b; omega
  | succ n ih =>
    intro c hA hN hR a b hwa hwb hsz hemp
    by_cases heq : eqV a b = true
    · exact heq
    · exfalso
      simp only [Bool.not_eq_true] at heq
      simp only [diffF, heq, Bool.false_eq_true, if_false] at hemp
      cases a with
      | dict xs =>
        cases b with
        | dict ys =>
          simp only [diff_dicts_with] at hemp
          set es := dictGo (diffF n c) c xs ys (unionKeys (keysV xs) (keysV ys)) with hes
          cases hesc : es with
          | cons k v r => rw [hesc] at hemp; simp [isEmptyNode] at hemp
          | nil =>
            rw [hesc] at hes
            have hkeys := dictGo_nil _ hes.symm
            rw [wfV, Bool.and_eq_true] at hwa hwb
            have : eqV (.dict xs) (.dict ys) = true := by
              rw [eqV_dict_iff hwa.1 hwb.1]
              constructor
              · intro k
                constructor
                · intro hs
                  rcases Option.isSome_iff_exists.1 hs with ⟨av, hav⟩
                  have hku : k ∈ unionKeys (keysV xs) (keysV ys) := by
                    rw [mem_unionKeys]
                    exact Or.inl (alookup_isSome_iff.1 (by simp [hav]))
                  cases hy : alookup k ys with
                  | some _ => simp
                  | none =>
                    have := (hkeys k hku).2.1 av hav hy
                    rw [hR] at this; cases this
                · intro hs
                  rcases Option.isSome_iff_exists.1 hs with ⟨bv, hbv⟩
                  have hku : k ∈ unionKeys (keysV xs) (keysV ys) := by
                    rw [mem_unionKeys]
                    exact Or.inr (alookup_isSome_iff.1 (by simp [hbv]))
                  cases hx : alookup k xs with
                  | some _ => simp
                  | none =>
                    have := (hkeys k hku).2.2 bv hx hbv
                    rw [hA] at this; cases this
              · intro k av bv hav hbv
                have hku : k ∈ unionKeys (keysV xs) (keysV ys) := by
                  rw [mem_unionKeys]
                  exact Or.inl (alookup_isSome_iff.1 (by simp [hav]))
                rcases (hkeys k hku).1 av bv hav hbv with he | hsub
                · exact he
                · apply ih c hA hN hR av bv
                  · rw [wfP_toList] at hwa
                    exact List.all_eq_true.1 hwa.2 (k, av) (alookup_mem hav)
                  · rw [wfP_toList] at hwb
                    exact List.all_eq_true.1 hwb.2 (k, bv) (alookup_mem hbv)
                  · have g1 := vsize_lt_of_alookup hav
                    have g2 := vsize_lt_of_alookup hbv
                    rw [vsize_dict_eq, vsize_dict_eq] at hsz
                    omega
                  · exact hsub
            rw [this] at heq; cases heq
        | null => simp [get_default_diff, hN, LP, isEmptyNode] at hemp
        | bool _ => simp [get_default_diff, hN, LP, isEmptyNode] at hemp
        | int _ => simp [get_default_diff, hN, LP, isEmptyNode] at hemp
        | str _ => simp [get_default_diff, hN, LP, isEmptyNode] at hemp
        | list _ => simp [get_default_diff, hN, LP, isEmptyNode] at hemp
      | list xs =>
        cases b with
        | list ys =>
          simp only [diff_lists_with] at hemp
          set out := walkGo (diffF n c) c xs.toList ys.toList
            (get_matching_blocks (xs.toList.map encode) (ys.toList.map encode)) 0 0 false
            with hout
          cases houtc : out with
          | cons v r => rw [houtc] at hemp; simp [isEmptyNode] at hemp
          | nil =>
            rw [houtc] at hout
            have hblk := get_blocks_ok (xs.toList.map encode) (ys.toList.map encode)
            simp only [List.length_map] at hblk
            have hw : listEqGo eqV (xs.toList.drop 0) (ys.toList.drop 0) = true := by
              apply walkGo_nil hA hR ?_ _ 0 0 false hblk hout.symm
              intro x hx y hy hxy
              apply ih c hA hN hR x y
              · rw [wfV, wfL_toList] at hwa
                exact List.all_eq_true.1 hwa x hx
              · rw [wfV, wfL_toList] at hwb
                exact List.all_eq_true.1 hwb y hy
              · have g1 := vsize_lt_of_mem hx
                have g2 := vsize_lt_of_mem hy
                rw [vsize_list_eq, vsize_list_eq] at hsz
                omega
              · exact hxy
            simp only [List.drop_zero] at hw
            rw [show listEqGo eqV xs.toList ys.toList = eqV (.list xs) (.list ys) from
              (eqV_list_eq xs ys).symm] at hw
            rw [hw] at heq; cases heq
        | null => simp [get_default_diff, hN, LP, isEmptyNode] at hemp
        | bool _ => simp [get_default_diff, hN, LP, isEmptyNode] at hemp
        | int _ => simp [get_default_diff, hN, LP, isEmptyNode] at hemp
        | str _ => simp [get_default_diff, hN, LP, isEmptyNode] at hemp
        | dict _ => simp [get_default_diff, hN, LP, isEmptyNode] at hemp
      | null => cases b <;> simp [get_default_diff, hN, LP, isEmptyNode] at hemp
      | bool _ => cases b <;> simp [get_default_diff, hN, LP, isEmptyNode] at hemp
      | int _ => cases b <;> simp [get_default_diff, hN, LP, isEmptyNode] at hemp
      | str _ => cases b <;> simp [get_default_diff, hN, LP, isEmptyNode] at hemp

/-! ### Index minimality machinery (claim C5) -/

/-- Diff nodes produced by the differ never carry a top-level `I` key
(`I` is attached only afterwards by the sequence walk). -/
theorem diffF_no_I (n : Nat) (c : Cfg) (a b : Value) :
    hasKeyB (diffF n c a b) "I" = false := by
  cases n with
  | zero => simp [diffF, hasKeyB, alookup]
  | succ n =>
    simp only [diffF]
    split
    · split <;> simp [hasKeyB, alookup]
    · have hdd : ∀ xs ys, hasKeyB (diff_dicts_with (diffF n c) c xs ys) "I" = false := by
        intro xs ys
        unfold diff_dicts_with
        split <;> simp [hasKeyB, alookup]
      have hdl : ∀ xs ys, hasKeyB (diff_lists_with (diffF n c) c xs ys) "I" = false := by
        intro xs ys
        unfold diff_lists_with
        generalize walkGo (diffF n c) c xs ys
          (get_matching_blocks (xs.map encode) (ys.map encode)) 0 0 false = out
        cases out <;> simp [hasKeyB, alookup]
      have hdef : hasKeyB (get_default_diff c a b) "I" = false := by
        unfold get_default_diff
        cases c.N <;> cases c.O <;> simp [hasKeyB, alookup, LP]
      split
      · apply hdd
      · apply hdl
      · exact hdef

/-- With `A`, `N`, `R`, `U` all enabled, the differ never returns an empty
node on well-formed operands. -/
theorem diff_nonempty_allflags {c : Cfg} (hA : c.A = true) (hN : c.N = true)
    (hR : c.R = true) (hU : c.U = true) {x y : Value} (hwx : wfV x = true)
    (hwy : wfV y = true) : isEmptyNode (diff c x y) = false := by
  by_cases he : eqV x y = true
  · have h1 : 1 ≤ vsize x + vsize y := by have := vsize_pos x; omega
    unfold diff
    match hn : vsize x + vsize y with
    | 0 => omega
    | m + 1 =>
      simp only [diffF, he, if_true, hU, isEmptyNode]
  · by_cases hemp : isEmptyNode (diff c x y) = true
    · exact absurd (diffF_empty_imp_eqV _ c hA hN hR x y hwx hwy (le_refl _) hemp) he
    · simp only [Bool.not_eq_true] at hemp
      exact hemp

theorem pairsGo_noI {d : Value → Value → Value} :
    ∀ {l1 l2 : List Value} {i : Nat},
    (∀ q ∈ List.zip l1 l2, isEmptyNode (d q.1 q.2) = false) →
    (∀ q ∈ List.zip l1 l2, hasKeyB (d q.1 q.2) "I" = false) →
    (pairsGo d l1 l2 i false).2 = false ∧
    ∀ nd ∈ (pairsGo d l1 l2 i false).1, hasKeyB nd "I" = false
  | [], l2, i, _, _ => by cases l2 <;> simp [pairsGo]
  | x :: l1, [], i, _, _ => by simp [pairsGo]
  | x :: l1, y :: l2, i, hne, hnoI => by
    simp only [pairsGo]
    rw [hne (x, y) (by simp)]
    simp only [Bool.false_eq_true, if_false]
    have ih := @pairsGo_noI d l1 l2 (i + 1)
      (fun q hq => hne q (by simp [hq])) (fun q hq => hnoI q (by simp [hq]))
    refine ⟨ih.1, ?_⟩
    intro nd hnd
    rcases List.mem_cons.1 hnd with rfl | hnd2
    · exact hnoI (x, y) (by simp)
    · exact ih.2 nd hnd2

theorem remGo_noI {c : Cfg} (hR : c.R = true) :
    ∀ (l : List Value) (i : Nat),
    (remGo c l i false).2 = false ∧
    ∀ nd ∈ (remGo c l i false).1, hasKeyB nd "I" = false
  | [], _ => by simp [remGo]
  | x :: l, i => by
    simp only [remGo, hR, if_true, Bool.false_eq_true, if_false]
    have ih := remGo_noI hR l (i + 1)
    refine ⟨ih.1, ?_⟩
    intro nd hnd
    rcases List.mem_cons.1 hnd with rfl | hnd2
    · simp [hasKeyB, alookup]
    · exact ih.2 nd hnd2

theorem addGo_noI {c : Cfg} (hA : c.A = true) (iFin : Nat) :
    ∀ (l : List Value),
    (addGo c iFin l false).2 = false ∧
    ∀ nd ∈ (addGo c iFin l false).1, hasKeyB nd "I" = false
  | [] => by simp [addGo]
  | y :: l => by
    simp only [addGo, hA, if_true, Bool.false_eq_true, if_false]
    have ih := addGo_noI hA iFin l
    refine ⟨ih.1, ?_⟩
    intro nd hnd
    rcases List.mem_cons.1 hnd with rfl | hnd2
    · simp [hasKeyB, alookup]
    · exact ih.2 nd hnd2

theorem walkGo_noI {c : Cfg} (hA : c.A = true) (hR : c.R = true)
    {d : Value → Value → Value} {xs ys : List Value}
    (Hne : ∀ x ∈ xs, ∀ y ∈ ys, isEmptyNode (d x y) = false)
    (HnoI : ∀ x ∈ xs, ∀ y ∈ ys, hasKeyB (d x y) "I" = false) :
    ∀ (bs : List Blk) (i j : Nat),
    ∀ nd ∈ walkGo d c xs ys bs i j false, hasKeyB nd "I" = false := by
  intro bs
  induction bs with
  | nil => intro i j nd hnd; simp [walkGo] at hnd
  | cons b bs ih =>
    obtain ⟨ai, bj, k⟩ := b
    intro i j nd hnd
    simp only [walkGo] at hnd
    have hzip : ∀ q ∈ List.zip ((xs.drop i).take (min (ai - i) (bj - j)))
        ((ys.drop j).take (min (ai - i) (bj - j))),
        isEmptyNode (d q.1 q.2) = false ∧ hasKeyB (d q.1 q.2) "I" = false := by
      intro q hq
      have hm := List.of_mem_zip hq
      have hx : q.1 ∈ xs := List.mem_of_mem_drop (List.mem_of_mem_take hm.1)
      have hy : q.2 ∈ ys := List.mem_of_mem_drop (List.mem_of_mem_take hm.2)
      exact ⟨Hne q.1 hx q.2 hy, HnoI q.1 hx q.2 hy⟩
    have hp := @pairsGo_noI d ((xs.drop i).take (min (ai - i) (bj - j)))
      ((ys.drop j).take (min (ai - i) (bj - j))) i
      (fun q hq => (hzip q hq).1) (fun q hq => (hzip q hq).2)
    rcases List.mem_append.1 hnd with hnd1 | hnd4
    · rcases List.mem_append.1 hnd1 with hnd2 | hnd3
      · rcases List.mem_append.1 hnd2 with hp1 | hr1
        · exact hp.2 nd hp1
        · rw [hp.1] at hr1
          exact (remGo_noI hR _ _).2 nd hr1
      · rw [hp.1] at hnd3
        rw [(remGo_noI hR _ _).1] at hnd3
        exact (addGo_noI hA ai _).2 nd hnd3
    · rw [hp.1] at hnd4
      rw [(remGo_noI hR _ _).1] at hnd4
      rw [(addGo_noI hA ai _).1] at hnd4
      exact ih ai bj nd hnd4

/-! ### Shapes of emitted nodes, and the non-empty-`D` invariant (C10) -/

theorem pairsGo_mem {d : Value → Value → Value} :
    ∀ {l1 l2 : List Value} {i : Nat} {force : Bool} {nd : Value},
    nd ∈ (pairsGo d l1 l2 i force).1 →
    ∃ q idx, q ∈ List.zip l1 l2 ∧
      (nd = d q.1 q.2 ∨ nd = valSetKey (d q.1 q.2) "I" (.int idx))
  | [], l2, i, force, nd => by cases l2 <;> simp [pairsGo]
  | x :: l1, [], i, force, nd => by simp [pairsGo]
  | x :: l1, y :: l2, i, force, nd => by
    intro hnd
    simp only [pairsGo] at hnd
    split at hnd
    · rcases pairsGo_mem hnd with ⟨q, idx, hq, hsh⟩
      exact ⟨q, idx, by simp [hq], hsh⟩
    · rcases List.mem_cons.1 hnd with rfl | hnd2
      · refine ⟨(x, y), i, by simp, ?_⟩
        cases force
        · simp
        · simp [valSetKey]
      · rcases pairsGo_mem hnd2 with ⟨q, idx, hq, hsh⟩
        exact ⟨q, idx, by simp [hq], hsh⟩

theorem remGo_mem {c : Cfg} :
    ∀ {l : List Value} {i : Nat} {force : Bool} {nd : Value},
    nd ∈ (remGo c l i force).1 →
    ∃ v idx, nd = .dict (.cons "R" v .nil) ∨
      nd = valSetKey (.dict (.cons "R" v .nil)) "I" (.int idx)
  | [], i, force, nd => by simp [remGo]
  | x :: l, i, force, nd => by
    intro hnd
    simp only [remGo] at hnd
    split at hnd
    · rcases List.mem_cons.1 hnd with rfl | hnd2
      · refine ⟨if c.trimR then .null else x, i, ?_⟩
        cases force
        · simp
        · simp [valSetKey]
      · exact remGo_mem hnd2
    · exact remGo_mem hnd

theorem addGo_mem {c : Cfg} {iFin : Nat} :
    ∀ {l : List Value} {force : Bool} {nd : Value},
    nd ∈ (addGo c iFin l force).1 →
    ∃ v idx, nd = .dict (.cons "A" v .nil) ∨
      nd = valSetKey (.dict (.cons "A" v .nil)) "I" (.int idx)
  | [], force, nd => by simp [addGo]
  | y :: l, force, nd => by
    intro hnd
    simp only [addGo] at hnd
    split at hnd
    · rcases List.mem_cons.1 hnd with rfl | hnd2
      · refine ⟨y, iFin, ?_⟩
        cases force
        · simp
        · simp [valSetKey]
      · exact addGo_mem hnd2
    · exact addGo_mem hnd

theorem walkGo_mem {d : Value → Value → Value} {c : Cfg} {xs ys : List Value} :
    ∀ {bs : List Blk} {i j : Nat} {force : Bool} {nd : Value},
    nd ∈ walkGo d c xs ys bs i j force →
    (∃ x y idx, x ∈ xs ∧ y ∈ ys ∧
      (nd = d x y ∨ nd = valSetKey (d x y) "I" (.int idx))) ∨
    (∃ v idx, nd = .dict (.cons "R" v .nil) ∨
      nd = valSetKey (.dict (.cons "R" v .nil)) "I" (.int idx)) ∨
    (∃ v idx, nd = .dict (.cons "A" v .nil) ∨
      nd = valSetKey (.dict (.cons "A" v .nil)) "I" (.int idx)) := by
  intro bs
  induction bs with
  | nil => intro i j force nd hnd; simp [walkGo] at hnd
  | cons b bs ih =>
    obtain ⟨ai, bj, k⟩ := b
    intro i j force nd hnd
    simp only [walkGo] at hnd
    rcases List.mem_append.1 hnd with hnd1 | hnd4
    · rcases List.mem_append.1 hnd1 with hnd2 | hnd3
      · rcases List.mem_append.1 hnd2 with hp1 | hr1
        · left
          rcases pairsGo_mem hp1 with ⟨q, idx, hq, hsh⟩
          have hm := List.of_mem_zip hq
          exact ⟨q.1, q.2, idx,
            List.mem_of_mem_drop (List.mem_of_mem_take hm.1),
            List.mem_of_mem_drop (List.mem_of_mem_take hm.2), hsh⟩
        · exact Or.inr (Or.inl (remGo_mem hr1))
      · exact Or.inr (Or.inr (addGo_mem hnd3))
    · exact ih hnd4

theorem dictGo_mem {d : Value → Value → Value} {c : Cfg} {xs ys : VPairs} :
    ∀ {ks : List String} {k : String} {sub : Value},
    (k, sub) ∈ (dictGo d c xs ys ks).toList →
    (∃ v, sub = .dict (.cons "U" v .nil)) ∨
    (∃ v, sub = .dict (.cons "R" v .nil)) ∨
    (∃ v, sub = .dict (.cons "A" v .nil)) ∨
    (∃ av bv, sub = d av bv)
  | [], k, sub => by simp [dictGo, VPairs.toList]
  | k2 :: ks, k, sub => by
    intro hm
    rcases hx : alookup k2 xs with _ | av <;> rcases hy : alookup k2 ys with _ | bv <;>
        simp only [dictGo, hx, hy] at hm
    · exact dictGo_mem hm
    · split at hm
      · simp only [VPairs.toList] at hm
        rcases List.mem_cons.1 hm with he | hm2
        · cases he; exact Or.inr (Or.inr (Or.inl ⟨bv, rfl⟩))
        · exact dictGo_mem hm2
      · exact dictGo_mem hm
    · split at hm
      · simp only [VPairs.toList] at hm
        rcases List.mem_cons.1 hm with he | hm2
        · cases he; exact Or.inr (Or.inl ⟨if c.trimR then .null else av, rfl⟩)
        · exact dictGo_mem hm2
      · exact dictGo_mem hm
    · split at hm
      · split at hm
        · simp only [VPairs.toList] at hm
          rcases List.mem_cons.1 hm with he | hm2
          · cases he; exact Or.inl ⟨av, rfl⟩
          · exact dictGo_mem hm2
        · exact dictGo_mem hm
      · split at hm
        · exact dictGo_mem hm
        · simp only [VPairs.toList] at hm
          rcases List.mem_cons.1 hm with he | hm2
          · cases he; exact Or.inr (Or.inr (Or.inr ⟨av, bv, rfl⟩))
          · exact dictGo_mem hm2

theorem DOk_of_noD {v : Value} (h : hasKeyB v "D" = false) : DOk v := DOk.scalar v h

theorem DOk_single (k : String) (hk : k ≠ "D") (v : Value) :
    DOk (.dict (.cons k v .nil)) := by
  apply DOk.scalar
  simp [hasKeyB, alookup, hk]

theorem DOk_valSetKey_I {v : Value} (h : DOk v) (x : Value) :
    DOk (valSetKey v "I" x) := by
  cases v with
  | dict es =>
    have hD : alookup "D" (setPairs "I" x es) = alookup "D" es :=
      alookup_setPairs_ne x (by decide) es
    cases h with
    | scalar _ hno =>
      apply DOk.scalar
      simp only [hasKeyB] at hno ⊢
      simp only [valSetKey, hD]
      exact hno
    | dictNode _ des hlo hne hch =>
      exact DOk.dictNode _ des (hD.trans hlo) hne hch
    | listNode _ els hlo hne hch =>
      exact DOk.listNode _ els (hD.trans hlo) hne hch
  | null => exact h
  | bool b => exact h
  | int i => exact h
  | str s => exact h
  | list els => exact h

/-- The differ's output always satisfies the non-empty-`D` invariant. -/
theorem diffF_DOk : ∀ (n : Nat) (c : Cfg) (a b : Value), DOk (diffF n c a b) := by
  intro n
  induction n with
  | zero =>
    intro c a b
    exact DOk_of_noD (by simp [diffF, hasKeyB, alookup])
  | succ n ih =>
    intro c a b
    simp only [diffF]
    split
    · split
      · exact DOk_single "U" (by decide) a
      · exact DOk_of_noD (by simp [hasKeyB, alookup])
    · have hdd : ∀ xs ys, DOk (diff_dicts_with (diffF n c) c xs ys) := by
        intro xs ys
        unfold diff_dicts_with
        cases hes : dictGo (diffF n c) c xs ys (unionKeys (keysV xs) (keysV ys)) with
        | nil => exact DOk_of_noD (by simp [hasKeyB, alookup])
        | cons k v r =>
          apply DOk.dictNode _ (VPairs.cons k v r) (by simp [alookup]) (by simp)
          intro k2 sub hsub
          have hmem := alookup_mem hsub
          rw [← hes] at hmem
          rcases dictGo_mem hmem with ⟨w, rfl⟩ | ⟨w, rfl⟩ | ⟨w, rfl⟩ | ⟨av, bv, rfl⟩
          · exact DOk_single "U" (by decide) w
          · exact DOk_single "R" (by decide) w
          · exact DOk_single "A" (by decide) w
          · exact ih c av bv
      have hdl : ∀ xs ys, DOk (diff_lists_with (diffF n c) c xs ys) := by
        intro xs ys
        unfold diff_lists_with
        generalize hw : walkGo (diffF n c) c xs ys
          (get_matching_blocks (xs.map encode) (ys.map encode)) 0 0 false = out
        cases out with
        | nil => exact DOk_of_noD (by simp [hasKeyB, alookup])
        | cons v r =>
          apply DOk.listNode _ (LV (v :: r)) (by simp [alookup]) (by simp [LV])
          intro sub hsub
          rw [toList_LV] at hsub
          rw [← hw] at hsub
          rcases walkGo_mem hsub with ⟨x, y, idx, _, _, hsh⟩ | ⟨w, idx, hsh⟩ | ⟨w, idx, hsh⟩
          · rcases hsh with rfl | rfl
            · exact ih c x y
            · exact DOk_valSetKey_I (ih c x y) _
          · rcases hsh with rfl | rfl
            · exact DOk_single "R" (by decide) w
            · exact DOk_valSetKey_I (DOk_single "R" (by decide) w) _
          · rcases hsh with rfl | rfl
            · exact DOk_single "A" (by decide) w
            · exact DOk_valSetKey_I (DOk_single "A" (by decide) w) _
      split
      · apply hdd
      · apply hdl
      · apply DOk_of_noD
        unfold get_default_diff
        cases c.N <;> cases c.O <;> simp [hasKeyB, alookup, LP]

/-! ### Claim C10 -/

/-- C10: every node the differ produces that carries a `D` key has a
non-empty dict or list payload, recursively through the diff tree; "no
change" is represented by a node without keys. -/
theorem claim_c10 (c : Cfg) (a b : Value) : DOk (diff c a b) :=
  diffF_DOk _ c a b

/-! ### Gap-pairing coverage of matched blocks (claim C3) -/

theorem pv_cover {la lb : Nat} :
    ∀ (bs : List Blk) (i j : Nat), ChainedR la lb i j bs →
    ∀ b ∈ bs, ∀ t < b.2.2,
      (b.1 + t, b.2.1 + t) ∈ pairVisitsGo (bs ++ [(la, lb, 0)]) i j := by
  intro bs
  induction bs with
  | nil => intro i j _ b hb; simp at hb
  | cons hd bs ih =>
    obtain ⟨ai, bj, k⟩ := hd
    rintro i j ⟨h1, h2, h3, h4, hrest⟩ b hb t ht
    rcases List.mem_cons.1 hb with rfl | hb2
    · -- the head block's elements are visited during the next call
      simp only [List.cons_append, pairVisitsGo]
      apply List.mem_append_right
      cases bs with
      | nil =>
        simp only [List.nil_append, pairVisitsGo]
        apply List.mem_append_left
        apply List.mem_map.2
        refine ⟨t, List.mem_range.2 ?_, rfl⟩
        simp only at ht
        omega
      | cons hd2 bs2 =>
        obtain ⟨ai2, bj2, k2⟩ := hd2
        obtain ⟨g1, g2, g3, g4, hrest2⟩ := hrest
        simp only [List.cons_append, pairVisitsGo]
        apply List.mem_append_left
        apply List.mem_map.2
        refine ⟨t, List.mem_range.2 ?_, rfl⟩
        simp only at ht
        omega
    · simp only [List.cons_append, pairVisitsGo]
      apply List.mem_append_right
      exact ih ai bj (chained_start (Nat.le_add_right ai k) (Nat.le_add_right bj k) hrest)
        b hb2 t ht

/-! ### Claim C3 -/

/-- C3 counterexample: for `a = [5, 7]`, `b = [5]` with default options, the
matcher aligns element `5` at exactly equal positions (block `(0, 0, 1)`),
yet that pair does reach the gap-pairing branch (it is visited at `(0, 0)`)
and the matched element is separately emitted by the loop as the `{'U': 5}`
child of the result — refuting both "skipped, never separately emitted" and
"exactly-equal positions never reach the gap-pairing branch". -/
theorem claim_c3_counterexample :
    (0, 0, 1) ∈ get_matching_blocks [encode (.int 5), encode (.int 7)] [encode (.int 5)] ∧
    (0, 0) ∈ pairVisits [.int 5, .int 7] [.int 5] ∧
    diff_lists {} [.int 5, .int 7] [.int 5] =
      .dict (.cons "D" (.list (LV [
        .dict (.cons "U" (.int 5) .nil),
        .dict (.cons "R" (.int 7) .nil)])) .nil) :=
  ⟨by decide, by decide, by decide⟩

/-- C3 amended: matched blocks are not skipped — the loop leaves the
cursors at each block's start, so every element pair of every matching
block (equal positions included) is processed by the gap-pairing branch of
a later iteration; there it is emitted as a `U` child when emit-unchanged
is enabled, or sets the pending-index flag when not. (Formally: every
matched position pair is among the gap-pairing visits.) -/
theorem claim_c3 (xs ys : List Value) :
    ∀ b ∈ get_matching_blocks (xs.map encode) (ys.map encode), ∀ t < b.2.2,
      (b.1 + t, b.2.1 + t) ∈ pairVisits xs ys := by
  intro b hb t ht
  unfold pairVisits
  unfold get_matching_blocks at hb ⊢
  have hch := get_blocks_chained (xs.map encode) (ys.map encode)
  rcases List.mem_append.1 hb with hb1 | hb2
  · exact @pv_cover (xs.map encode).length (ys.map encode).length
      _ 0 0 hch b hb1 t ht
  · -- the sentinel block has size 0, so `t < 0` is impossible
    simp only [List.mem_singleton] at hb2
    subst hb2
    simp at ht

/-- Witness for C3 amended: the matched pair of `[5,7]` vs `[5]` at block
`(0,0,1)` is visited by the gap pairing at `(0, 0)`. -/
theorem claim_c3_witness : (0, 0) ∈ pairVisits [.int 5, .int 7] [.int 5] := by
  have h := claim_c3 [.int 5, .int 7] [.int 5] (0, 0, 1) (by decide) 0 (by decide)
  simpa using h

/-! ### Key coverage of the mapping differ (claim C4) -/

theorem mem_keysV_cons {k k2 : String} {v : Value} {rest : VPairs} :
    k ∈ keysV (.cons k2 v rest) ↔ k = k2 ∨ k ∈ keysV rest := by
  simp [keysV]

theorem dictGo_keys_iff {c : Cfg} (hA : c.A = true) (hR : c.R = true) {xs ys : VPairs}
    (Hne : ∀ k av bv, alookup k xs = some av → alookup k ys = some bv →
      eqV av bv = false → isEmptyNode (diff c av bv) = false) :
    ∀ (ks : List String) (k : String),
      (k ∈ keysV (dictGo (diff c) c xs ys ks) ↔
        k ∈ ks ∧
          ((∃ av, alookup k xs = some av ∧ alookup k ys = none) ∨
           (∃ bv, alookup k xs = none ∧ alookup k ys = some bv) ∨
           (∃ av bv, alookup k xs = some av ∧ alookup k ys = some bv ∧
             (eqV av bv = false ∨ c.U = true))))
  | [], k => by simp [dictGo, keysV]
  | k2 :: ks, k => by
    have ih := dictGo_keys_iff hA hR Hne ks k
    simp only [dictGo]
    rcases hx : alookup k2 xs with _ | av <;> rcases hy : alookup k2 ys with _ | bv <;>
      simp only [hx, hy]
    · -- key in neither operand: no entry
      rw [ih]
      constructor
      · rintro ⟨hm, hs⟩
        exact ⟨by simp [hm], hs⟩
      · rintro ⟨hm, hs⟩
        rcases List.mem_cons.1 hm with rfl | hm2
        · exfalso
          rcases hs with ⟨av, h1, _⟩ | ⟨bv, _, h2⟩ | ⟨av, bv, h1, _⟩
          · rw [hx] at h1; cases h1
          · rw [hy] at h2; cases h2
          · rw [hx] at h1; cases h1
        · exact ⟨hm2, hs⟩
    · -- added key: A is on, entry emitted
      rw [if_pos hA, mem_keysV_cons, ih]
      constructor
      · rintro (rfl | ⟨hm, hs⟩)
        · exact ⟨by simp, Or.inr (Or.inl ⟨bv, hx, hy⟩)⟩
        · exact ⟨by simp [hm], hs⟩
      · rintro ⟨hm, hs⟩
        rcases List.mem_cons.1 hm with rfl | hm2
        · exact Or.inl rfl
        · exact Or.inr ⟨hm2, hs⟩
    · -- removed key: R is on, entry emitted
      rw [if_pos hR, mem_keysV_cons, ih]
      constructor
      · rintro (rfl | ⟨hm, hs⟩)
        · exact ⟨by simp, Or.inl ⟨av, hx, hy⟩⟩
        · exact ⟨by simp [hm], hs⟩
      · rintro ⟨hm, hs⟩
        rcases List.mem_cons.1 hm with rfl | hm2
        · exact Or.inl rfl
        · exact Or.inr ⟨hm2, hs⟩
    · -- common key
      by_cases he : eqV av bv = true
      · rw [if_pos he]
        by_cases hU : c.U = true
        · rw [if_pos hU, mem_keysV_cons, ih]
          constructor
          · rintro (rfl | ⟨hm, hs⟩)
            · exact ⟨by simp, Or.inr (Or.inr ⟨av, bv, hx, hy, Or.inr hU⟩)⟩
            · exact ⟨by simp [hm], hs⟩
          · rintro ⟨hm, hs⟩
            rcases List.mem_cons.1 hm with rfl | hm2
            · exact Or.inl rfl
            · exact Or.inr ⟨hm2, hs⟩
        · rw [if_neg hU, ih]
          constructor
          · rintro ⟨hm, hs⟩
            exact ⟨by simp [hm], hs⟩
          · rintro ⟨hm, hs⟩
            rcases List.mem_cons.1 hm with rfl | hm2
            · exfalso
              rcases hs with ⟨av2, h1, h2⟩ | ⟨bv2, h1, _⟩ | ⟨av2, bv2, h1, h2, h3⟩
              · rw [hy] at h2; cases h2
              · rw [hx] at h1; cases h1
              · rw [hx] at h1; cases h1
                rw [hy] at h2; cases h2
                rcases h3 with h3 | h3
                · rw [he] at h3; cases h3
                · exact hU h3
            · exact ⟨hm2, hs⟩
      · have heF : eqV av bv = false := by
          revert he; cases eqV av bv <;> simp
        rw [if_neg he]
        rw [if_neg (by rw [Hne k2 av bv hx hy heF]; exact Bool.false_ne_true),
          mem_keysV_cons, ih]
        constructor
        · rintro (rfl | ⟨hm, hs⟩)
          · exact ⟨by simp, Or.inr (Or.inr ⟨av, bv, hx, hy, Or.inl heF⟩)⟩
          · exact ⟨by simp [hm], hs⟩
        · rintro ⟨hm, hs⟩
          rcases List.mem_cons.1 hm with rfl | hm2
          · exact Or.inl rfl
          · exact Or.inr ⟨hm2, hs⟩

/-! ### Claim C4 -/

/-- C4: key coverage of the mapping differ — with the emission toggles for
added, new and removed at their defaults (`true`; `O`, `U`, `trimR`
arbitrary), the key set of the `D` payload of `diff_dicts` is exactly the
keys of either operand whose status changed (removed, added, or changed
value), plus the unchanged common keys exactly when emit-unchanged is on;
keys absent from both operands never appear. -/
theorem claim_c4 (c : Cfg) (hA : c.A = true) (hN : c.N = true) (hR : c.R = true)
    (xs ys : VPairs) (hwx : wfV (.dict xs) = true) (hwy : wfV (.dict ys) = true) :
    ∀ k, k ∈ dKeys (diff_dicts c xs ys) ↔
      ((∃ av, alookup k xs = some av ∧ alookup k ys = none) ∨
       (∃ bv, alookup k xs = none ∧ alookup k ys = some bv) ∨
       (∃ av bv, alookup k xs = some av ∧ alookup k ys = some bv ∧
         (eqV av bv = false ∨ c.U = true))) := by
  intro k
  have Hne : ∀ k av bv, alookup k xs = some av → alookup k ys = some bv →
      eqV av bv = false → isEmptyNode (diff c av bv) = false := by
    intro k2 av bv hav hbv he
    by_cases hemp : isEmptyNode (diff c av bv) = true
    · exfalso
      rw [wfV, Bool.and_eq_true, wfP_toList] at hwx hwy
      have hwav : wfV av = true := List.all_eq_true.1 hwx.2 (k2, av) (alookup_mem hav)
      have hwbv : wfV bv = true := List.all_eq_true.1 hwy.2 (k2, bv) (alookup_mem hbv)
      have := diffF_empty_imp_eqV _ c hA hN hR av bv hwav hwbv (le_refl _) hemp
      rw [this] at he; cases he
    · simp only [Bool.not_eq_true] at hemp
      exact hemp
  have hiff := dictGo_keys_iff hA hR Hne (unionKeys (keysV xs) (keysV ys)) k
  have hunion : (((∃ av, alookup k xs = some av ∧ alookup k ys = none) ∨
      (∃ bv, alookup k xs = none ∧ alookup k ys = some bv) ∨
      (∃ av bv, alookup k xs = some av ∧ alookup k ys = some bv ∧
        (eqV av bv = false ∨ c.U = true))) →
      k ∈ unionKeys (keysV xs) (keysV ys)) := by
    rintro (⟨av, h1, _⟩ | ⟨bv, _, h2⟩ | ⟨av, bv, h1, _, _⟩)
    · exact mem_unionKeys.2 (Or.inl (alookup_isSome_iff.1 (by simp [h1])))
    · exact mem_unionKeys.2 (Or.inr (alookup_isSome_iff.1 (by simp [h2])))
    · exact mem_unionKeys.2 (Or.inl (alookup_isSome_iff.1 (by simp [h1])))
  unfold diff_dicts diff_dicts_with
  cases hes : dictGo (diff c) c xs ys (unionKeys (keysV xs) (keysV ys)) with
  | nil =>
    rw [hes] at hiff
    simp only [keysV, List.not_mem_nil, false_iff] at hiff
    simp only [dKeys, alookup]
    constructor
    · intro h; simp at h
    · intro hs
      exact absurd ⟨hunion hs, hs⟩ hiff
  | cons k2 v r =>
    rw [hes] at hiff
    have : dKeys (Value.dict (.cons "D" (.dict (.cons k2 v r)) .nil)) =
        keysV (.cons k2 v r) := by simp [dKeys, alookup]
    rw [this, hiff]
    constructor
    · rintro ⟨_, hs⟩; exact hs
    · intro hs; exact ⟨hunion hs, hs⟩

/-- Witness for C4: for `a = {'x': 1}`, `b = {}` with defaults, the key
`"x"` is in the `D` payload iff its status changed — here removed. -/
theorem claim_c4_witness :
    "x" ∈ dKeys (diff_dicts {} (.cons "x" (.int 1) .nil) .nil) ↔
      ((∃ av, alookup "x" (VPairs.cons "x" (.int 1) .nil) = some av ∧
          alookup "x" VPairs.nil = none) ∨
       (∃ bv, alookup "x" (VPairs.cons "x" (.int 1) .nil) = none ∧
          alookup "x" VPairs.nil = some bv) ∨
       (∃ av bv, alookup "x" (VPairs.cons "x" (.int 1) .nil) = some av ∧
          alookup "x" VPairs.nil = some bv ∧
         (eqV av bv = false ∨ Cfg.U {} = true))) :=
  claim_c4 {} rfl rfl rfl (.cons "x" (.int 1) .nil) .nil (by decide) (by decide) "x"

/-! ### Claim C8 -/

/-- C8: documented list example — for `a = [0,1,2,3]`, `b = [1,2,4,5]` with
`emitOld = false` and `emitUnchanged = false` (other toggles default),
`diff(a, b)` (equivalently the cited `diff_lists`) returns exactly
`{"D": [{"R": 0}, {"N": 4, "I": 3}, {"A": 5}]}`. -/
theorem claim_c8 :
    diff { O := false, U := false }
      (.list (LV [.int 0, .int 1, .int 2, .int 3]))
      (.list (LV [.int 1, .int 2, .int 4, .int 5])) =
    .dict (.cons "D" (.list (LV [
      .dict (.cons "R" (.int 0) .nil),
      .dict (.cons "N" (.int 4) (.cons "I" (.int 3) .nil)),
      .dict (.cons "A" (.int 5) .nil)])) .nil) ∧
    diff_lists { O := false, U := false }
      [.int 0, .int 1, .int 2, .int 3] [.int 1, .int 2, .int 4, .int 5] =
    .dict (.cons "D" (.list (LV [
      .dict (.cons "R" (.int 0) .nil),
      .dict (.cons "N" (.int 4) (.cons "I" (.int 3) .nil)),
      .dict (.cons "A" (.int 5) .nil)])) .nil) :=
  ⟨by decide, by decide⟩

/-! ### Claim C5 -/

/-- C5: index minimality — when no diff category is disabled (`A`, `N`,
`O`, `R`, `U` all true; `trimR` arbitrary), no emitted child of the
`D`-over-sequence node of `diff_lists` except possibly the first carries an
`I` annotation (in fact none does; the claim permits but does not require
an `I` on the first child). -/
theorem claim_c5 (c : Cfg) (hA : c.A = true) (hN : c.N = true) (hO : c.O = true)
    (hR : c.R = true) (hU : c.U = true) (xs ys : List Value)
    (hwx : ∀ x ∈ xs, wfV x = true) (hwy : ∀ y ∈ ys, wfV y = true) :
    ∀ nd ∈ (dChildren (diff_lists c xs ys)).drop 1, hasKeyB nd "I" = false := by
  have hkey : ∀ nd ∈ walkGo (diff c) c xs ys
      (get_matching_blocks (xs.map encode) (ys.map encode)) 0 0 false,
      hasKeyB nd "I" = false :=
    walkGo_noI hA hR
      (fun x hx y hy => diff_nonempty_allflags hA hN hR hU (hwx x hx) (hwy y hy))
      (fun x hx y hy => diffF_no_I _ c x y) _ 0 0
  intro nd hnd
  unfold diff_lists diff_lists_with at hnd
  revert hnd
  generalize hw : walkGo (diff c) c xs ys
    (get_matching_blocks (xs.map encode) (ys.map encode)) 0 0 false = out at hkey ⊢
  cases out with
  | nil => intro hnd; simp [dChildren, alookup] at hnd
  | cons v r =>
    intro hnd
    simp [dChildren, alookup, toList_LV] at hnd
    exact hkey nd (by simp [hnd])

/-- Witness for C5 at the example `[0, 1]` vs `[1]` with default options:
the second emitted child is `{'U': 1}` and carries no `I`. -/
theorem claim_c5_witness :
    hasKeyB (.dict (.cons "U" (.int 1) .nil)) "I" = false :=
  claim_c5 {} rfl rfl rfl rfl rfl [.int 0, .int 1] [.int 1]
    (by decide) (by decide) (.dict (.cons "U" (.int 1) .nil)) (by decide)

/-! ### Claim C2 -/

/-- C2 counterexample: two deeply equal mappings (`{"a": 0, "b": 1}` built
in the two insertion orders) receive different canonical encodings, because
the encoding (like `pickle.dumps`) serializes dict entries in insertion
order while `==` ignores it. This refutes "encodings are equal iff the
values are deeply equal". -/
theorem claim_c2_counterexample :
    eqV (.dict (.cons "a" (.int 0) (.cons "b" (.int 1) .nil)))
        (.dict (.cons "b" (.int 1) (.cons "a" (.int 0) .nil))) = true ∧
    encode (.dict (.cons "a" (.int 0) (.cons "b" (.int 1) .nil))) ≠
      encode (.dict (.cons "b" (.int 1) (.cons "a" (.int 0) .nil))) :=
  ⟨by decide, by decide⟩

/-- C2 amended: equal canonical encodings imply deep equality (the
surrogate never identifies values that are not deeply equal), but the
converse direction of the claim fails — deeply equal values may receive
different encodings. -/
theorem claim_c2 :
    (∀ a b : Value, wfV a = true → encode a = encode b → eqV a b = true) ∧
    ¬(∀ a b : Value, eqV a b = true → encode a = encode b) := by
  constructor
  · intro a b hwf henc
    have hab : a = b := encode_inj henc
    subst hab
    exact eqV_refl hwf
  · intro hall
    have h := hall (.dict (.cons "a" (.int 0) (.cons "b" (.int 1) .nil)))
      (.dict (.cons "b" (.int 1) (.cons "a" (.int 0) .nil))) (by decide)
    exact absurd h (by decide)

/-- Witness for C2: the no-collision direction applied at a concrete pair. -/
theorem claim_c2_witness : eqV (.int 7) (.int 7) = true :=
  claim_c2.1 (.int 7) (.int 7) (by decide) rfl

/-! ### Round-trip machinery: bind reducers and node shapes -/

theorem okBind {α β : Type} (a : α) (f : α → Except PErr β) :
    (Except.ok a >>= f : Except PErr β) = f a := rfl

theorem errBind {α β : Type} (e : PErr) (f : α → Except PErr β) :
    ((Except.error e : Except PErr α) >>= f) = .error e := rfl

theorem pureBind {α β : Type} (a : α) (f : α → Except PErr β) :
    ((pure a : Except PErr α) >>= f) = f a := rfl

theorem pureExcept {α : Type} (a : α) : (pure a : Except PErr α) = .ok a := rfl

theorem ifTrueE {α : Type} (a b : α) : (if true = true then a else b) = a := rfl

theorem ifFalseE {α : Type} (a b : α) : (if false = true then a else b) = b := rfl

theorem patchListGo_append {p : Value → Value → Except PErr Value} :
    ∀ (l1 l2 : List Value) (t : Value) (i j : Int),
    patchListGo p (l1 ++ l2) t i j =
      patchListGo p l1 t i j >>= fun s => patchListGo p l2 s.1 s.2.1 s.2.2
  | [], l2, t, i, j => by simp [patchListGo, okBind]
  | sub :: l1, l2, t, i, j => by
    simp only [List.cons_append, patchListGo]
    cases hs : patchStep p sub t i j with
    | error e => rfl
    | ok s =>
      show patchListGo p (l1 ++ l2) s.1 s.2.1 s.2.2 =
        patchListGo p l1 s.1 s.2.1 s.2.2 >>= fun s2 => patchListGo p l2 s2.1 s2.2.1 s2.2.2
      exact patchListGo_append l1 l2 s.1 s.2.1 s.2.2

/-- Every node the differ emits is dict-shaped. -/
theorem diffF_dict_shape (n : Nat) (c : Cfg) (a b : Value) :
    ∃ es, diffF n c a b = .dict es := by
  cases n with
  | zero => exact ⟨.nil, rfl⟩
  | succ n =>
    simp only [diffF]
    split
    · split
      · exact ⟨_, rfl⟩
      · exact ⟨_, rfl⟩
    · split
      · rename_i xs ys hne2
        unfold diff_dicts_with
        split
        · exact ⟨_, rfl⟩
        · exact ⟨_, rfl⟩
      · rename_i xs ys hne2
        unfold diff_lists_with
        generalize walkGo (diffF n c) c xs.toList ys.toList
          (get_matching_blocks (xs.toList.map encode) (ys.toList.map encode)) 0 0 false = out
        cases out
        · exact ⟨_, rfl⟩
        · exact ⟨_, rfl⟩
      · exact ⟨_, rfl⟩

/-- The differ never puts an `I` key on the node it returns. -/
theorem alookup_I_none {n : Nat} {c : Cfg} {a b : Value} {es : VPairs}
    (h : diffF n c a b = .dict es) : alookup "I" es = none := by
  have h2 := diffF_no_I n c a b
  rw [h] at h2
  simp only [hasKeyB] at h2
  cases hl : alookup "I" es
  · rfl
  · rw [hl] at h2; simp at h2

theorem patch_setKey_I2 {es : VPairs} (hfree : alookup "I" es = none) (t x : Value) :
    patch t (.dict (setPairs "I" x es)) = patch t (.dict es) :=
  @patch_valSetKey_I es t x hfree

/-- Patching with a pure-`U` node returns the target unchanged. -/
theorem patch_U_node (t av : Value) : patch t (.dict (.cons "U" av .nil)) = .ok t := by
  have hD : alookup "D" (VPairs.cons "U" av .nil) = none := by simp [alookup]
  have hN : alookup "N" (VPairs.cons "U" av .nil) = none := by simp [alookup]
  show patchF (vsize (Value.dict (.cons "U" av .nil))) t _ = .ok t
  have hv : vsize (Value.dict (.cons "U" av .nil)) = vsize av + 2 + 1 := by
    simp [vsize, vsizeP]; omega
  rw [hv]
  simp only [patchF, pyContains, hD, hN, Option.isSome_none, okBind, pureBind, pureExcept,
    ifFalseE]

/-- A node whose own shape is changed-like (`D` or `N` present), applied at
the cursor in the list branch: the element is read, recursively patched and
written back, and the cursor advances. -/
theorem patchStep_DN {es0 : VPairs} {x r : Value}
    (hI : alookup "I" es0 = none)
    (hDN : ((alookup "D" es0).isSome || (alookup "N" es0).isSome) = true)
    (hr : patch x (.dict es0) = .ok r)
    (pre post : List Value) (sc : Int) :
    patchStep patch (.dict es0) (.list (LV (pre ++ x :: post))) (pre.length : Int) sc =
      .ok (.list (LV (pre ++ r :: post)), (pre.length : Int) + 1, sc) := by
  rcases hD : alookup "D" es0 with _ | dv
  · rcases hN : alookup "N" es0 with _ | nv
    · rw [hD, hN] at hDN; simp at hDN
    · simp only [patchStep, pyContains, hI, hD, hN, Option.isSome_none, Option.isSome_some,
        okBind, pureBind, pureExcept, ifFalseE, ifTrueE, if_true, if_false,
        pyGetIntE_mid, hr, pySetIntE_mid]
  · simp only [patchStep, pyContains, hI, hD, Option.isSome_none, Option.isSome_some,
      okBind, pureBind, pureExcept, ifFalseE, ifTrueE, if_true, if_false,
      pyGetIntE_mid, hr, pySetIntE_mid]

/-- A pure-`U` node in the list branch only advances the cursor. -/
theorem patchStep_U_node (av t : Value) (cur sc : Int) :
    patchStep patch (.dict (.cons "U" av .nil)) t cur sc = .ok (t, cur + 1, sc) := by
  have hI : alookup "I" (VPairs.cons "U" av .nil) = none := by simp [alookup]
  have hD : alookup "D" (VPairs.cons "U" av .nil) = none := by simp [alookup]
  have hN : alookup "N" (VPairs.cons "U" av .nil) = none := by simp [alookup]
  have hA : alookup "A" (VPairs.cons "U" av .nil) = none := by simp [alookup]
  have hR : alookup "R" (VPairs.cons "U" av .nil) = none := by simp [alookup]
  simp only [patchStep, pyContains, hI, hD, hN, hA, hR, Option.isSome_none, okBind, pureBind,
    pureExcept, ifFalseE]

/-- An `R` node in the list branch deletes at the cursor, keeps the cursor
and decrements the scatter, whatever the `R` payload holds. -/
theorem patchStep_R_list (v x : Value) (pre post : List Value) (sc : Int) :
    patchStep patch (.dict (.cons "R" v .nil)) (.list (LV (pre ++ x :: post)))
      (pre.length : Int) sc =
      .ok (.list (LV (pre ++ post)), (pre.length : Int), sc - 1) := by
  have hI : alookup "I" (VPairs.cons "R" v .nil) = none := by simp [alookup]
  have hD : alookup "D" (VPairs.cons "R" v .nil) = none := by simp [alookup]
  have hN : alookup "N" (VPairs.cons "R" v .nil) = none := by simp [alookup]
  have hA : alookup "A" (VPairs.cons "R" v .nil) = none := by simp [alookup]
  have hR : alookup "R" (VPairs.cons "R" v .nil) = some v := by simp [alookup]
  simp only [patchStep, pyContains, hI, hD, hN, hA, hR, Option.isSome_none, Option.isSome_some,
    okBind, pureBind, pureExcept, ifFalseE, ifTrueE, if_true, if_false, pyDelIntE_mid]

/-- An `A` node in the list branch inserts at the cursor, advances the
cursor and increments the scatter. -/
theorem patchStep_A_list (y : Value) (pre post : List Value) (sc : Int) :
    patchStep patch (.dict (.cons "A" y .nil)) (.list (LV (pre ++ post)))
      (pre.length : Int) sc =
      .ok (.list (LV (pre ++ y :: post)), (pre.length : Int) + 1, sc + 1) := by
  have hI : alookup "I" (VPairs.cons "A" y .nil) = none := by simp [alookup]
  have hD : alookup "D" (VPairs.cons "A" y .nil) = none := by simp [alookup]
  have hN : alookup "N" (VPairs.cons "A" y .nil) = none := by simp [alookup]
  have hA : alookup "A" (VPairs.cons "A" y .nil) = some y := by simp [alookup]
  simp only [patchStep, pyContains, pyIndexStr, hI, hD, hN, hA, Option.isSome_none,
    Option.isSome_some, okBind, pureBind, pureExcept, ifFalseE, ifTrueE, if_true, if_false,
    pyInsIntE_mid]

/-- An `I` annotation resynchronizes the cursor to `I + scatter` and then
the node applies as without the annotation. -/
theorem patchStep_I_resync {es : VPairs} (hfree : alookup "I" es = none) (idx : Int)
    (t : Value) (cur sc : Int) :
    patchStep patch (.dict (setPairs "I" (.int idx) es)) t cur sc =
      patchStep patch (.dict es) t (idx + sc) sc := by
  have hD : alookup "D" (setPairs "I" (.int idx) es) = alookup "D" es :=
    alookup_setPairs_ne _ (by decide) es
  have hN : alookup "N" (setPairs "I" (.int idx) es) = alookup "N" es :=
    alookup_setPairs_ne _ (by decide) es
  have hA : alookup "A" (setPairs "I" (.int idx) es) = alookup "A" es :=
    alookup_setPairs_ne _ (by decide) es
  have hR : alookup "R" (setPairs "I" (.int idx) es) = alookup "R" es :=
    alookup_setPairs_ne _ (by decide) es
  have hI : alookup "I" (setPairs "I" (.int idx) es) = some (.int idx) :=
    alookup_setPairs_self _ _ es
  have hp : ∀ tv, patch tv (.dict (setPairs "I" (.int idx) es)) = patch tv (.dict es) :=
    fun tv => patch_setKey_I2 hfree tv (.int idx)
  simp only [patchStep, pyContains, pyIndexStr, hD, hN, hA, hR, hI, hfree, asIntE,
    Option.isSome_none, Option.isSome_some, okBind, pureBind, pureExcept,
    ifFalseE, ifTrueE, if_true, if_false, hp]

/-- A non-empty node the differ emits for a changed (non-equal) pair has a
`D` or an `N` key at top level (given emit-new is on). -/
theorem diffF_changed_DN {n : Nat} {c : Cfg} (hN : c.N = true) {x y : Value}
    (he : eqV x y = false) {es0 : VPairs}
    (hnode : diffF (n + 1) c x y = .dict es0)
    (hne : isEmptyNode (.dict es0) = false) :
    ((alookup "D" es0).isSome || (alookup "N" es0).isSome) = true := by
  simp only [diffF] at hnode
  rw [if_neg (by simp [he])] at hnode
  split at hnode
  · rename_i xs ys
    cases hgo : dictGo (diffF n c) c xs ys (unionKeys (keysV xs) (keysV ys)) with
    | nil =>
      simp only [diff_dicts_with, hgo] at hnode
      injection hnode with h2
      subst h2
      simp [isEmptyNode] at hne
    | cons k v rest =>
      simp only [diff_dicts_with, hgo] at hnode
      injection hnode with h2
      subst h2
      simp [alookup]
  · rename_i xs ys
    cases hout : walkGo (diffF n c) c xs.toList ys.toList
        (get_matching_blocks (xs.toList.map encode) (ys.toList.map encode)) 0 0 false with
    | nil =>
      simp only [diff_lists_with, hout] at hnode
      injection hnode with h2
      subst h2
      simp [isEmptyNode] at hne
    | cons v rest =>
      simp only [diff_lists_with, hout] at hnode
      injection hnode with h2
      subst h2
      simp [alookup]
  · cases hO : c.O with
    | true =>
      simp only [get_default_diff, hN, hO, if_true] at hnode
      injection hnode with h2
      subst h2
      simp [LP, alookup]
    | false =>
      simp only [get_default_diff, hN, hO, if_true, if_false] at hnode
      injection hnode with h2
      subst h2
      simp [LP, alookup]

/-- A non-empty child node emitted by the gap-pairing phase, applied at the
cursor: the target slot ends up deep-equal to the second operand's element
and the cursor advances, with the scatter unchanged. -/
theorem patchStep_pairNode {n : Nat} {c : Cfg} (hN : c.N = true) {x y : Value}
    (hn1 : 1 ≤ n)
    (hne : isEmptyNode (diffF n c x y) = false)
    (HRT : ∃ r, patch x (diffF n c x y) = .ok r ∧ eqV r y = true ∧ wfV r = true)
    (pre post : List Value) (sc : Int) :
    ∃ r, patchStep patch (diffF n c x y) (.list (LV (pre ++ x :: post)))
        (pre.length : Int) sc =
        .ok (.list (LV (pre ++ r :: post)), (pre.length : Int) + 1, sc) ∧
      eqV r y = true ∧ wfV r = true := by
  obtain ⟨n0, rfl⟩ : ∃ n0, n = n0 + 1 := ⟨n - 1, by omega⟩
  obtain ⟨r, hr, hry, hwr⟩ := HRT
  by_cases he : eqV x y = true
  · cases hU : c.U with
    | false =>
      have hnode : diffF (n0 + 1) c x y = .dict .nil := by
        simp [diffF, he, hU]
      rw [hnode] at hne
      simp [isEmptyNode] at hne
    | true =>
      have hnode : diffF (n0 + 1) c x y = .dict (.cons "U" x .nil) := by
        simp [diffF, he, hU]
      rw [hnode, patch_U_node] at hr
      injection hr with h2
      subst h2
      refine ⟨x, ?_, hry, hwr⟩
      rw [hnode]
      exact patchStep_U_node x _ _ _
  · have heF : eqV x y = false := by revert he; cases eqV x y <;> simp
    obtain ⟨es0, hnode⟩ := diffF_dict_shape (n0 + 1) c x y
    have hne2 : isEmptyNode (.dict es0) = false := by rw [← hnode]; exact hne
    have hDN := diffF_changed_DN hN heF hnode hne2
    have hI := alookup_I_none hnode
    rw [hnode] at hr
    refine ⟨r, ?_, hry, hwr⟩
    rw [hnode]
    exact patchStep_DN hI hDN hr pre post sc

/-- The `I`-annotated variant of `patchStep_pairNode`: the annotation
resynchronizes the (arbitrary) incoming cursor to the slot. -/
theorem patchStep_pairNode_I {n : Nat} {c : Cfg} (hN : c.N = true) {x y : Value}
    (hn1 : 1 ≤ n)
    (hne : isEmptyNode (diffF n c x y) = false)
    (HRT : ∃ r, patch x (diffF n c x y) = .ok r ∧ eqV r y = true ∧ wfV r = true)
    (pre post : List Value) (idx : Nat) (cur sc : Int)
    (hsync : (idx : Int) + sc = (pre.length : Int)) :
    ∃ r, patchStep patch (valSetKey (diffF n c x y) "I" (.int idx))
        (.list (LV (pre ++ x :: post))) cur sc =
        .ok (.list (LV (pre ++ r :: post)), (pre.length : Int) + 1, sc) ∧
      eqV r y = true ∧ wfV r = true := by
  obtain ⟨es0, hnode⟩ := diffF_dict_shape n c x y
  have hI := alookup_I_none hnode
  obtain ⟨r, hstep, hry, hwr⟩ := patchStep_pairNode hN hn1 hne HRT pre post sc
  refine ⟨r, ?_, hry, hwr⟩
  rw [hnode] at hstep ⊢
  simp only [valSetKey]
  rw [patchStep_I_resync hI, hsync]
  exact hstep

/-- A pure-`U` child in the dict branch leaves the target unchanged. -/
theorem patchPairStep_U (k : String) (av t : Value) :
    patchPairStep patch k (.dict (.cons "U" av .nil)) t = .ok t := by
  have hD : alookup "D" (VPairs.cons "U" av .nil) = none := by simp [alookup]
  have hN : alookup "N" (VPairs.cons "U" av .nil) = none := by simp [alookup]
  have hA : alookup "A" (VPairs.cons "U" av .nil) = none := by simp [alookup]
  have hR : alookup "R" (VPairs.cons "U" av .nil) = none := by simp [alookup]
  simp only [patchPairStep, pyContains, hD, hN, hA, hR, Option.isSome_none, okBind, pureBind,
    pureExcept, ifFalseE, ifTrueE, if_true, if_false]

/-- An `R` child in the dict branch deletes the key, whatever the payload. -/
theorem patchPairStep_R (k : String) (v : Value) {es : VPairs}
    (h : (alookup k es).isSome = true) :
    patchPairStep patch k (.dict (.cons "R" v .nil)) (.dict es) =
      .ok (.dict (delPairs k es)) := by
  have hD : alookup "D" (VPairs.cons "R" v .nil) = none := by simp [alookup]
  have hN : alookup "N" (VPairs.cons "R" v .nil) = none := by simp [alookup]
  have hA : alookup "A" (VPairs.cons "R" v .nil) = none := by simp [alookup]
  have hR : alookup "R" (VPairs.cons "R" v .nil) = some v := by simp [alookup]
  simp only [patchPairStep, pyContains, pyDelKeyE, hD, hN, hA, hR, h, Option.isSome_none,
    Option.isSome_some, okBind, pureBind, pureExcept, ifFalseE, ifTrueE, if_true, if_false]

/-- An `A` child in the dict branch writes the added value at the key. -/
theorem patchPairStep_A (k : String) (bv : Value) (es : VPairs) :
    patchPairStep patch k (.dict (.cons "A" bv .nil)) (.dict es) =
      .ok (.dict (setPairs k bv es)) := by
  have hD : alookup "D" (VPairs.cons "A" bv .nil) = none := by simp [alookup]
  have hN : alookup "N" (VPairs.cons "A" bv .nil) = none := by simp [alookup]
  have hA : alookup "A" (VPairs.cons "A" bv .nil) = some bv := by simp [alookup]
  simp only [patchPairStep, pyContains, pyIndexStr, pySetKeyE, hD, hN, hA, Option.isSome_none,
    Option.isSome_some, okBind, pureBind, pureExcept, ifFalseE, ifTrueE, if_true, if_false]

/-- A `D`- or `N`-shaped child in the dict branch: read the key, patch
recursively, write back. -/
theorem patchPairStep_DN {es0 : VPairs}
    (hDN : ((alookup "D" es0).isSome || (alookup "N" es0).isSome) = true)
    {es : VPairs} {k : String} {x r : Value} (hlook : alookup k es = some x)
    (hr : patch x (.dict es0) = .ok r) :
    patchPairStep patch k (.dict es0) (.dict es) = .ok (.dict (setPairs k r es)) := by
  rcases hD : alookup "D" es0 with _ | dv
  · rcases hN2 : alookup "N" es0 with _ | nv
    · rw [hD, hN2] at hDN; simp at hDN
    · simp only [patchPairStep, pyContains, pyGetKeyE, pyIndexStr, pySetKeyE, hD, hN2, hlook,
        hr, Option.isSome_none, Option.isSome_some, okBind, pureBind, pureExcept, ifFalseE,
        ifTrueE, if_true, if_false]
  · simp only [patchPairStep, pyContains, pyGetKeyE, pyIndexStr, pySetKeyE, hD, hlook,
      hr, Option.isSome_none, Option.isSome_some, okBind, pureBind, pureExcept, ifFalseE,
      ifTrueE, if_true, if_false]

/-- A child node emitted by the dict differ for a common key, applied to a
target dict holding the first operand's value at that key: the entry ends
up deep-equal to the second operand's value, other keys and the key list
are untouched, and value well-formedness is preserved. -/
theorem patchPairStep_child {n : Nat} {c : Cfg} (hN : c.N = true) {x y : Value}
    (hn1 : 1 ≤ n)
    (hne : isEmptyNode (diffF n c x y) = false)
    (HRT : ∃ r, patch x (diffF n c x y) = .ok r ∧ eqV r y = true ∧ wfV r = true)
    {es : VPairs} {k : String} (hlook : alookup k es = some x) :
    ∃ es2, patchPairStep patch k (diffF n c x y) (.dict es) = .ok (.dict es2) ∧
      (∃ r, alookup k es2 = some r ∧ eqV r y = true ∧ wfV r = true) ∧
      (∀ k2, k2 ≠ k → alookup k2 es2 = alookup k2 es) ∧
      keysV es2 = keysV es ∧
      ((∀ q ∈ es.toList, wfV q.2 = true) → (∀ q ∈ es2.toList, wfV q.2 = true)) := by
  obtain ⟨n0, rfl⟩ : ∃ n0, n = n0 + 1 := ⟨n - 1, by omega⟩
  obtain ⟨r, hr, hry, hwr⟩ := HRT
  by_cases he : eqV x y = true
  · cases hU : c.U with
    | false =>
      have hnode : diffF (n0 + 1) c x y = .dict .nil := by
        simp [diffF, he, hU]
      rw [hnode] at hne
      simp [isEmptyNode] at hne
    | true =>
      have hnode : diffF (n0 + 1) c x y = .dict (.cons "U" x .nil) := by
        simp [diffF, he, hU]
      rw [hnode, patch_U_node] at hr
      injection hr with h2
      subst h2
      refine ⟨es, ?_, ⟨x, hlook, hry, hwr⟩,
        fun k2 _ => rfl, rfl, fun h => h⟩
      rw [hnode]
      exact patchPairStep_U k x (.dict es)
  · have heF : eqV x y = false := by revert he; cases eqV x y <;> simp
    obtain ⟨es0, hnode⟩ := diffF_dict_shape (n0 + 1) c x y
    have hne2 : isEmptyNode (.dict es0) = false := by rw [← hnode]; exact hne
    have hDN := diffF_changed_DN hN heF hnode hne2
    rw [hnode] at hr
    refine ⟨setPairs k r es, ?_, ⟨r, alookup_setPairs_self k r es, hry, hwr⟩,
      fun k2 hk2 => alookup_setPairs_ne r hk2 es,
      keysV_setPairs_mem r (alookup_isSome_iff.1 (by simp [hlook])),
      fun h => setPairs_values (P := fun v => wfV v = true) hwr h⟩
    rw [hnode]
    exact patchPairStep_DN hDN hlook hr

/-! ### Phase lemmas: patching the emissions of one walk gap -/

theorem pairsGo_patch {n : Nat} {c : Cfg} (hN : c.N = true) (hn1 : 1 ≤ n) :
    ∀ (l1 l2 : List Value) (idx : Nat) (force : Bool) (bsp rest1 : List Value) (cur sc : Int),
    l1.length = l2.length →
    (∀ x ∈ l1, wfV x = true) →
    (∀ x ∈ l1, ∀ y ∈ l2, isEmptyNode (diffF n c x y) = true → eqV x y = true) →
    (∀ x ∈ l1, ∀ y ∈ l2, ∃ r, patch x (diffF n c x y) = .ok r ∧ eqV r y = true ∧ wfV r = true) →
    (force = false → cur = (bsp.length : Int)) →
    ((idx : Int) + sc = (bsp.length : Int)) →
    ∃ bsp2 curOut,
      patchListGo patch (pairsGo (diffF n c) l1 l2 idx force).1
          (.list (LV (bsp ++ (l1 ++ rest1)))) cur sc =
        .ok (.list (LV (bsp ++ (bsp2 ++ rest1))), curOut, sc) ∧
      bsp2.length = l1.length ∧
      List.Forall₂ (fun r y => eqV r y = true) bsp2 l2 ∧
      (∀ r ∈ bsp2, wfV r = true) ∧
      ((pairsGo (diffF n c) l1 l2 idx force).2 = false →
        curOut = (bsp.length : Int) + (l1.length : Int))
  | [], l2, idx, force, bsp, rest1, cur, sc => by
    intro hlen _ _ _ hcur _
    refine ⟨[], cur, by simp [pairsGo, patchListGo], rfl, ?_, by simp, ?_⟩
    · cases l2 with
      | nil => exact List.Forall₂.nil
      | cons y l2 => simp at hlen
    · intro hforce
      have hf : force = false := hforce
      rw [hcur hf]
      simp
  | x :: l1, l2, idx, force, bsp, rest1, cur, sc => by
    intro hlen hwl1 Hemp HRTel hcur hsc
    cases l2 with
    | nil => simp at hlen
    | cons y l2 =>
      simp only [List.length_cons] at hlen
      have hlen2 : l1.length = l2.length := by omega
      have hwx : wfV x = true := hwl1 x (by simp)
      have hw1 : ∀ x2 ∈ l1, wfV x2 = true := fun x2 hx2 => hwl1 x2 (by simp [hx2])
      have Hemp2 : ∀ x2 ∈ l1, ∀ y2 ∈ l2, isEmptyNode (diffF n c x2 y2) = true →
          eqV x2 y2 = true :=
        fun x2 hx2 y2 hy2 => Hemp x2 (by simp [hx2]) y2 (by simp [hy2])
      have HRTel2 : ∀ x2 ∈ l1, ∀ y2 ∈ l2, ∃ r, patch x2 (diffF n c x2 y2) = .ok r ∧
          eqV r y2 = true ∧ wfV r = true :=
        fun x2 hx2 y2 hy2 => HRTel x2 (by simp [hx2]) y2 (by simp [hy2])
      cases hemp : isEmptyNode (diffF n c x y) with
      | true =>
        have he : eqV x y = true := Hemp x (by simp) y (by simp) hemp
        have hpg : pairsGo (diffF n c) (x :: l1) (y :: l2) idx force =
            pairsGo (diffF n c) l1 l2 (idx + 1) true := by
          simp only [pairsGo, hemp, ifTrueE, ifFalseE, if_true, if_false, Bool.false_eq_true, eq_self_iff_true]
        rw [hpg]
        obtain ⟨bsp2, curOut, hrun, hlen3, hfa, hwf, hcur2⟩ :=
          pairsGo_patch hN hn1 l1 l2 (idx + 1) true (bsp ++ [x]) rest1 cur sc hlen2 hw1
            Hemp2 HRTel2 (by intro h; cases h) (by push_cast; simp; omega)
        refine ⟨x :: bsp2, curOut, ?_, by simp [hlen3], List.Forall₂.cons he hfa, ?_, ?_⟩
        · rw [show bsp ++ ((x :: l1) ++ rest1) = (bsp ++ [x]) ++ (l1 ++ rest1) by simp,
            show bsp ++ ((x :: bsp2) ++ rest1) = (bsp ++ [x]) ++ (bsp2 ++ rest1) by simp]
          exact hrun
        · intro r2 hr2
          rcases List.mem_cons.1 hr2 with h | h
          · subst h; exact hwx
          · exact hwf r2 h
        · intro hforce
          rw [hcur2 hforce]
          push_cast
          simp
          omega
      | false =>
        have HRTxy := HRTel x (by simp) y (by simp)
        cases hforce : force with
        | false =>
          have hc : cur = (bsp.length : Int) := hcur hforce
          have hpg : pairsGo (diffF n c) (x :: l1) (y :: l2) idx false =
              ((diffF n c x y) :: (pairsGo (diffF n c) l1 l2 (idx + 1) false).1,
               (pairsGo (diffF n c) l1 l2 (idx + 1) false).2) := by
            simp only [pairsGo, hemp, ifTrueE, ifFalseE, if_true, if_false, Bool.false_eq_true, eq_self_iff_true]
          rw [hpg]
          obtain ⟨r0, hstep, hr0y, hwr0⟩ :=
            patchStep_pairNode hN hn1 hemp HRTxy bsp (l1 ++ rest1) sc
          obtain ⟨bsp2, curOut, hrun, hlen3, hfa, hwf, hcur2⟩ :=
            pairsGo_patch hN hn1 l1 l2 (idx + 1) false (bsp ++ [r0]) rest1
              ((bsp.length : Int) + 1) sc hlen2 hw1 Hemp2 HRTel2
              (fun _ => by push_cast; simp) (by push_cast; simp; omega)
          refine ⟨r0 :: bsp2, curOut, ?_, by simp [hlen3], List.Forall₂.cons hr0y hfa, ?_, ?_⟩
          · rw [show bsp ++ ((x :: l1) ++ rest1) = bsp ++ x :: (l1 ++ rest1) by simp, hc]
            simp only [patchListGo]
            rw [hstep, okBind]
            rw [show bsp ++ r0 :: (l1 ++ rest1) = (bsp ++ [r0]) ++ (l1 ++ rest1) by simp,
              show bsp ++ ((r0 :: bsp2) ++ rest1) = (bsp ++ [r0]) ++ (bsp2 ++ rest1) by simp]
            exact hrun
          · intro r2 hr2
            rcases List.mem_cons.1 hr2 with h | h
            · subst h; exact hwr0
            · exact hwf r2 h
          · intro hforce2
            rw [hcur2 hforce2]
            push_cast
            simp
            omega
        | true =>
          have hpg : pairsGo (diffF n c) (x :: l1) (y :: l2) idx true =
              ((valSetKey (diffF n c x y) "I" (.int idx)) ::
                (pairsGo (diffF n c) l1 l2 (idx + 1) false).1,
               (pairsGo (diffF n c) l1 l2 (idx + 1) false).2) := by
            simp only [pairsGo, hemp, ifTrueE, ifFalseE, if_true, if_false, Bool.false_eq_true, eq_self_iff_true]
          rw [hpg]
          obtain ⟨r0, hstep, hr0y, hwr0⟩ :=
            patchStep_pairNode_I hN hn1 hemp HRTxy bsp (l1 ++ rest1) idx cur sc hsc
          obtain ⟨bsp2, curOut, hrun, hlen3, hfa, hwf, hcur2⟩ :=
            pairsGo_patch hN hn1 l1 l2 (idx + 1) false (bsp ++ [r0]) rest1
              ((bsp.length : Int) + 1) sc hlen2 hw1 Hemp2 HRTel2
              (fun _ => by push_cast; simp) (by push_cast; simp; omega)
          refine ⟨r0 :: bsp2, curOut, ?_, by simp [hlen3], List.Forall₂.cons hr0y hfa, ?_, ?_⟩
          · rw [show bsp ++ ((x :: l1) ++ rest1) = bsp ++ x :: (l1 ++ rest1) by simp]
            simp only [patchListGo]
            rw [hstep, okBind]
            rw [show bsp ++ r0 :: (l1 ++ rest1) = (bsp ++ [r0]) ++ (l1 ++ rest1) by simp,
              show bsp ++ ((r0 :: bsp2) ++ rest1) = (bsp ++ [r0]) ++ (bsp2 ++ rest1) by simp]
            exact hrun
          · intro r2 hr2
            rcases List.mem_cons.1 hr2 with h | h
            · subst h; exact hwr0
            · exact hwf r2 h
          · intro hforce2
            rw [hcur2 hforce2]
            push_cast
            simp
            omega

theorem remGo_patch {c : Cfg} (hR : c.R = true) :
    ∀ (l : List Value) (idx : Nat) (force : Bool) (bsp rest1 : List Value) (cur sc : Int),
    (force = false → cur = (bsp.length : Int)) →
    ((idx : Int) + sc = (bsp.length : Int)) →
    ∃ curOut,
      patchListGo patch (remGo c l idx force).1 (.list (LV (bsp ++ (l ++ rest1)))) cur sc =
        .ok (.list (LV (bsp ++ rest1)), curOut, sc - (l.length : Int)) ∧
      ((remGo c l idx force).2 = false → curOut = (bsp.length : Int)) ∧
      (remGo c l idx force).2 = (force && l.isEmpty)
  | [], idx, force, bsp, rest1, cur, sc => by
    intro hcur _
    refine ⟨cur, by simp [remGo, patchListGo], ?_, by simp [remGo]⟩
    intro hforce
    exact hcur hforce
  | x :: l, idx, force, bsp, rest1, cur, sc => by
    intro hcur hsc
    cases hforce : force with
    | false =>
      have hc : cur = (bsp.length : Int) := hcur hforce
      have hpg : remGo c (x :: l) idx false =
          ((Value.dict (.cons "R" (if c.trimR then .null else x) .nil)) ::
            (remGo c l (idx + 1) false).1, (remGo c l (idx + 1) false).2) := by
        simp only [remGo, hR, ifTrueE, ifFalseE, if_true, if_false, Bool.false_eq_true, eq_self_iff_true]
      rw [hpg]
      obtain ⟨curOut, hrun, hcur2, hf2⟩ :=
        remGo_patch hR l (idx + 1) false bsp rest1 ((bsp.length : Int)) (sc - 1)
          (fun _ => rfl) (by push_cast at hsc ⊢; omega)
      refine ⟨curOut, ?_, ?_, by simp [hf2]⟩
      · rw [show bsp ++ ((x :: l) ++ rest1) = bsp ++ x :: (l ++ rest1) by simp, hc]
        simp only [patchListGo]
        rw [patchStep_R_list _ x bsp (l ++ rest1) sc, okBind]
        rw [show (sc - (((x :: l).length : Nat) : Int)) = (sc - 1) - ((l.length : Nat) : Int) by
          push_cast [List.length_cons]; omega]
        exact hrun
      · intro hforce2
        exact hcur2 hforce2
    | true =>
      have hpg : remGo c (x :: l) idx true =
          ((valSetKey (Value.dict (.cons "R" (if c.trimR then .null else x) .nil))
              "I" (.int idx)) ::
            (remGo c l (idx + 1) false).1, (remGo c l (idx + 1) false).2) := by
        simp only [remGo, hR, ifTrueE, ifFalseE, if_true, if_false, Bool.false_eq_true, eq_self_iff_true]
      rw [hpg]
      obtain ⟨curOut, hrun, hcur2, hf2⟩ :=
        remGo_patch hR l (idx + 1) false bsp rest1 ((bsp.length : Int)) (sc - 1)
          (fun _ => rfl) (by push_cast at hsc ⊢; omega)
      refine ⟨curOut, ?_, ?_, by simp [hf2]⟩
      · rw [show bsp ++ ((x :: l) ++ rest1) = bsp ++ x :: (l ++ rest1) by simp]
        simp only [patchListGo, valSetKey]
        rw [patchStep_I_resync (by simp [alookup]) idx _ cur sc,
          show (idx : Int) + sc = ((bsp.length : Nat) : Int) from hsc,
          patchStep_R_list _ x bsp (l ++ rest1) sc, okBind]
        rw [show (sc - (((x :: l).length : Nat) : Int)) = (sc - 1) - ((l.length : Nat) : Int) by
          push_cast [List.length_cons]; omega]
        exact hrun
      · intro hforce2
        exact hcur2 hforce2

theorem addGo_patch {c : Cfg} (hA : c.A = true) :
    ∀ (l2 : List Value) (iFin : Nat) (force : Bool) (bsp rest1 : List Value) (cur sc : Int),
    (force = false → cur = (bsp.length : Int)) →
    ((iFin : Int) + sc = (bsp.length : Int)) →
    ∃ curOut,
      patchListGo patch (addGo c iFin l2 force).1 (.list (LV (bsp ++ rest1))) cur sc =
        .ok (.list (LV (bsp ++ (l2 ++ rest1))), curOut, sc + (l2.length : Int)) ∧
      ((addGo c iFin l2 force).2 = false →
        curOut = (bsp.length : Int) + (l2.length : Int)) ∧
      (addGo c iFin l2 force).2 = (force && l2.isEmpty)
  | [], iFin, force, bsp, rest1, cur, sc => by
    intro hcur _
    refine ⟨cur, by simp [addGo, patchListGo], ?_, by simp [addGo]⟩
    intro hforce
    rw [hcur hforce]
    simp
  | y :: l2, iFin, force, bsp, rest1, cur, sc => by
    intro hcur hsc
    cases hforce : force with
    | false =>
      have hc : cur = (bsp.length : Int) := hcur hforce
      have hpg : addGo c iFin (y :: l2) false =
          ((Value.dict (.cons "A" y .nil)) ::
            (addGo c iFin l2 false).1, (addGo c iFin l2 false).2) := by
        simp only [addGo, hA, ifTrueE, ifFalseE, if_true, if_false, Bool.false_eq_true, eq_self_iff_true]
      rw [hpg]
      obtain ⟨curOut, hrun, hcur2, hf2⟩ :=
        addGo_patch hA l2 iFin false (bsp ++ [y]) rest1 ((bsp.length : Int) + 1) (sc + 1)
          (fun _ => by push_cast; simp) (by push_cast at hsc ⊢; simp; omega)
      refine ⟨curOut, ?_, ?_, by simp [hf2]⟩
      · rw [hc]
        simp only [patchListGo]
        rw [patchStep_A_list y bsp rest1 sc, okBind]
        rw [show bsp ++ y :: rest1 = (bsp ++ [y]) ++ rest1 by simp,
          show bsp ++ ((y :: l2) ++ rest1) = (bsp ++ [y]) ++ (l2 ++ rest1) by simp,
          show (sc + (((y :: l2).length : Nat) : Int)) = (sc + 1) + ((l2.length : Nat) : Int) by
            push_cast [List.length_cons]; omega]
        exact hrun
      · intro hforce2
        rw [hcur2 hforce2]
        push_cast
        simp
        omega
    | true =>
      have hpg : addGo c iFin (y :: l2) true =
          ((valSetKey (Value.dict (.cons "A" y .nil)) "I" (.int iFin)) ::
            (addGo c iFin l2 false).1, (addGo c iFin l2 false).2) := by
        simp only [addGo, hA, ifTrueE, ifFalseE, if_true, if_false, Bool.false_eq_true, eq_self_iff_true]
      rw [hpg]
      obtain ⟨curOut, hrun, hcur2, hf2⟩ :=
        addGo_patch hA l2 iFin false (bsp ++ [y]) rest1 ((bsp.length : Int) + 1) (sc + 1)
          (fun _ => by push_cast; simp) (by push_cast at hsc ⊢; simp; omega)
      refine ⟨curOut, ?_, ?_, by simp [hf2]⟩
      · simp only [patchListGo, valSetKey]
        rw [patchStep_I_resync (by simp [alookup]) iFin _ cur sc,
          show (iFin : Int) + sc = ((bsp.length : Nat) : Int) from hsc,
          patchStep_A_list y bsp rest1 sc, okBind]
        rw [show bsp ++ y :: rest1 = (bsp ++ [y]) ++ rest1 by simp,
          show bsp ++ ((y :: l2) ++ rest1) = (bsp ++ [y]) ++ (l2 ++ rest1) by simp,
          show (sc + (((y :: l2).length : Nat) : Int)) = (sc + 1) + ((l2.length : Nat) : Int) by
            push_cast [List.length_cons]; omega]
        exact hrun
      · intro hforce2
        rw [hcur2 hforce2]
        push_cast
        simp
        omega

/-! ### The block walk patches back to the second operand -/

theorem walkGo_patch {n : Nat} {c : Cfg} (hN : c.N = true) (hA : c.A = true)
    (hR : c.R = true) (hn1 : 1 ≤ n) {xs ys : List Value}
    (hwxs : ∀ x ∈ xs, wfV x = true) (hwys : ∀ y ∈ ys, wfV y = true)
    (Hemp : ∀ x ∈ xs, ∀ y ∈ ys, isEmptyNode (diffF n c x y) = true → eqV x y = true)
    (HRTel : ∀ x ∈ xs, ∀ y ∈ ys,
      ∃ r, patch x (diffF n c x y) = .ok r ∧ eqV r y = true ∧ wfV r = true) :
    ∀ (bs : List Blk) (i j : Nat) (force : Bool) (bsp : List Value) (cur : Int),
    BlocksOk xs.length ys.length i j bs →
    bsp.length = j →
    List.Forall₂ (fun r y => eqV r y = true) bsp (ys.take j) →
    (∀ r ∈ bsp, wfV r = true) →
    (force = false → cur = (j : Int)) →
    ∃ bsp2 curOut scOut,
      patchListGo patch (walkGo (diffF n c) c xs ys bs i j force)
          (.list (LV (bsp ++ xs.drop i))) cur ((j : Int) - (i : Int)) =
        .ok (.list (LV bsp2), curOut, scOut) ∧
      bsp2.length = ys.length ∧
      List.Forall₂ (fun r y => eqV r y = true) bsp2 ys ∧
      (∀ r ∈ bsp2, wfV r = true)
  | [], i, j, force, bsp, cur => by
    rintro ⟨hi, hj⟩ hbsp hfa hwf _
    refine ⟨bsp, cur, (j : Int) - (i : Int), ?_, ?_, ?_, hwf⟩
    · rw [hi]
      simp [walkGo, patchListGo, List.drop_length]
    · rw [hbsp]
      exact hj
    · rw [hj] at hfa
      rw [List.take_length] at hfa
      exact hfa
  | (ai, bj, k) :: bs, i, j, force, bsp, cur => by
    rintro ⟨hiai, hjbj, hak, hbk, hrest⟩ hbsp hfa hwf hcur
    simp only [walkGo]
    generalize hcnt : min (ai - i) (bj - j) = cnt
    have hc1 : cnt ≤ ai - i := by omega
    have hc2 : cnt ≤ bj - j := by omega
    have hica : i + cnt ≤ ai := by omega
    have hjcb : j + cnt ≤ bj := by omega
    have hila : ai ≤ xs.length := by omega
    have hjlb : bj ≤ ys.length := by omega
    have hsplit1 : xs.drop i = (xs.drop i).take cnt ++ xs.drop (i + cnt) := by
      have hdd : (xs.drop i).drop cnt = xs.drop (i + cnt) := by
        rw [List.drop_drop, Nat.add_comm]
      rw [← hdd, List.take_append_drop]
    have hsplit2 : xs.drop (i + cnt) =
        (xs.drop (i + cnt)).take (ai - (i + cnt)) ++ xs.drop ai := by
      have hdd : (xs.drop (i + cnt)).drop (ai - (i + cnt)) = xs.drop ai := by
        rw [List.drop_drop]
        congr 1
        omega
      rw [← hdd, List.take_append_drop]
    have hlen_l1p : ((xs.drop i).take cnt).length = cnt := by
      rw [List.length_take, List.length_drop]
      omega
    have hlen_l2p : ((ys.drop j).take cnt).length = cnt := by
      rw [List.length_take, List.length_drop]
      omega
    have hlen_lrem : ((xs.drop (i + cnt)).take (ai - (i + cnt))).length = ai - (i + cnt) := by
      rw [List.length_take, List.length_drop]
      omega
    have hlen_ladd : ((ys.drop (j + cnt)).take (bj - (j + cnt))).length = bj - (j + cnt) := by
      rw [List.length_take, List.length_drop]
      omega
    have hsubx : ∀ x2 ∈ (xs.drop i).take cnt, x2 ∈ xs :=
      fun x2 hx2 => List.drop_subset i xs (List.take_subset cnt (xs.drop i) hx2)
    have hsuby : ∀ y2 ∈ (ys.drop j).take cnt, y2 ∈ ys :=
      fun y2 hy2 => List.drop_subset j ys (List.take_subset cnt (ys.drop j) hy2)
    have hsubyadd : ∀ y2 ∈ (ys.drop (j + cnt)).take (bj - (j + cnt)), y2 ∈ ys :=
      fun y2 hy2 => List.drop_subset _ ys (List.take_subset _ _ hy2)
    obtain ⟨bsp2p, curOut1, hrun1, hlen3, hfa2, hwf2, hcond1⟩ :=
      pairsGo_patch hN hn1 ((xs.drop i).take cnt) ((ys.drop j).take cnt) i force bsp
        (xs.drop (i + cnt)) cur ((j : Int) - (i : Int))
        (by rw [hlen_l1p, hlen_l2p])
        (fun x2 hx2 => hwxs x2 (hsubx x2 hx2))
        (fun x2 hx2 y2 hy2 => Hemp x2 (hsubx x2 hx2) y2 (hsuby y2 hy2))
        (fun x2 hx2 y2 hy2 => HRTel x2 (hsubx x2 hx2) y2 (hsuby y2 hy2))
        (fun hf => by rw [hcur hf, hbsp])
        (by rw [hbsp]; omega)
    obtain ⟨curOut2, hrun2, hcond2, hf2⟩ :=
      remGo_patch hR ((xs.drop (i + cnt)).take (ai - (i + cnt))) (i + cnt)
        (pairsGo (diffF n c) ((xs.drop i).take cnt) ((ys.drop j).take cnt) i force).2
        (bsp ++ bsp2p) (xs.drop ai) curOut1 ((j : Int) - (i : Int))
        (fun hf => by
          rw [hcond1 hf]
          simp only [List.length_append, hlen3, hlen_l1p]
          push_cast
          omega)
        (by
          simp only [List.length_append]
          push_cast
          rw [hlen3, hlen_l1p, hbsp]
          push_cast
          omega)
    obtain ⟨curOut3, hrun3, hcond3, hf3⟩ :=
      addGo_patch hA ((ys.drop (j + cnt)).take (bj - (j + cnt))) ai
        (remGo c ((xs.drop (i + cnt)).take (ai - (i + cnt))) (i + cnt)
          (pairsGo (diffF n c) ((xs.drop i).take cnt) ((ys.drop j).take cnt) i force).2).2
        (bsp ++ bsp2p) (xs.drop ai) curOut2
        (((j : Int) - (i : Int)) - (((xs.drop (i + cnt)).take (ai - (i + cnt))).length : Int))
        (fun hf => hcond2 hf)
        (by
          rw [hlen_lrem]
          simp only [List.length_append]
          push_cast [Nat.cast_sub hica]
          rw [hlen3, hlen_l1p, hbsp]
          push_cast
          omega)
    have hfaY1 : List.Forall₂ (fun r y => eqV r y = true) (bsp ++ bsp2p) (ys.take (j + cnt)) := by
      rw [List.take_add]
      exact List.rel_append hfa hfa2
    have hfaY2 : List.Forall₂ (fun r y => eqV r y = true)
        ((bsp ++ bsp2p) ++ (ys.drop (j + cnt)).take (bj - (j + cnt))) (ys.take bj) := by
      have hsplitY : ys.take bj =
          ys.take (j + cnt) ++ (ys.drop (j + cnt)).take (bj - (j + cnt)) := by
        conv_lhs => rw [show bj = (j + cnt) + (bj - (j + cnt)) by omega]
        rw [List.take_add]
      rw [hsplitY]
      refine List.rel_append hfaY1 ?_
      apply List.forall₂_same.2
      intro y2 hy2
      exact eqV_refl (hwys y2 (hsubyadd y2 hy2))
    have hlenY2 : ((bsp ++ bsp2p) ++ (ys.drop (j + cnt)).take (bj - (j + cnt))).length = bj := by
      simp only [List.length_append]
      rw [hlen3, hlen_l1p, hlen_ladd, hbsp]
      omega
    have hwfY2 : ∀ r ∈ (bsp ++ bsp2p) ++ (ys.drop (j + cnt)).take (bj - (j + cnt)),
        wfV r = true := by
      intro r2 hr2
      rcases List.mem_append.1 hr2 with h | h
      · rcases List.mem_append.1 h with h2 | h2
        · exact hwf r2 h2
        · exact hwf2 r2 h2
      · exact hwys r2 (hsubyadd r2 h)
    obtain ⟨bsp2, curOut, scOut, hrunRec, hlenF, hfaF, hwfF⟩ :=
      walkGo_patch hN hA hR hn1 hwxs hwys Hemp HRTel bs ai bj
        (addGo c ai ((ys.drop (j + cnt)).take (bj - (j + cnt)))
          (remGo c ((xs.drop (i + cnt)).take (ai - (i + cnt))) (i + cnt)
            (pairsGo (diffF n c) ((xs.drop i).take cnt) ((ys.drop j).take cnt) i force).2).2).2
        ((bsp ++ bsp2p) ++ (ys.drop (j + cnt)).take (bj - (j + cnt))) curOut3
        hrest hlenY2 hfaY2 hwfY2
        (fun hf => by
          rw [hcond3 hf]
          rw [hlen_ladd]
          simp only [List.length_append]
          push_cast [Nat.cast_sub hjcb]
          rw [hlen3, hlen_l1p, hbsp]
          push_cast
          omega)
    refine ⟨bsp2, curOut, scOut, ?_, hlenF, hfaF, hwfF⟩
    rw [show (pairsGo (diffF n c) ((xs.drop i).take cnt) ((ys.drop j).take cnt) i force).1 ++
        (remGo c ((xs.drop (i + cnt)).take (ai - (i + cnt))) (i + cnt)
          (pairsGo (diffF n c) ((xs.drop i).take cnt) ((ys.drop j).take cnt) i force).2).1 ++
        (addGo c ai ((ys.drop (j + cnt)).take (bj - (j + cnt)))
          (remGo c ((xs.drop (i + cnt)).take (ai - (i + cnt))) (i + cnt)
            (pairsGo (diffF n c) ((xs.drop i).take cnt) ((ys.drop j).take cnt) i force).2).2).1 ++
        walkGo (diffF n c) c xs ys bs ai bj
          (addGo c ai ((ys.drop (j + cnt)).take (bj - (j + cnt)))
            (remGo c ((xs.drop (i + cnt)).take (ai - (i + cnt))) (i + cnt)
              (pairsGo (diffF n c) ((xs.drop i).take cnt) ((ys.drop j).take cnt) i force).2).2).2 =
        (pairsGo (diffF n c) ((xs.drop i).take cnt) ((ys.drop j).take cnt) i force).1 ++
        ((remGo c ((xs.drop (i + cnt)).take (ai - (i + cnt))) (i + cnt)
          (pairsGo (diffF n c) ((xs.drop i).take cnt) ((ys.drop j).take cnt) i force).2).1 ++
        ((addGo c ai ((ys.drop (j + cnt)).take (bj - (j + cnt)))
          (remGo c ((xs.drop (i + cnt)).take (ai - (i + cnt))) (i + cnt)
            (pairsGo (diffF n c) ((xs.drop i).take cnt) ((ys.drop j).take cnt) i force).2).2).1 ++
        walkGo (diffF n c) c xs ys bs ai bj
          (addGo c ai ((ys.drop (j + cnt)).take (bj - (j + cnt)))
            (remGo c ((xs.drop (i + cnt)).take (ai - (i + cnt))) (i + cnt)
              (pairsGo (diffF n c) ((xs.drop i).take cnt) ((ys.drop j).take cnt) i force).2).2).2))
      by simp [List.append_assoc]]
    rw [patchListGo_append]
    rw [show bsp ++ xs.drop i = bsp ++ ((xs.drop i).take cnt ++ xs.drop (i + cnt)) by
      rw [← hsplit1]]
    rw [hrun1]
    simp only [okBind]
    rw [patchListGo_append]
    rw [show bsp ++ (bsp2p ++ xs.drop (i + cnt)) =
        (bsp ++ bsp2p) ++ ((xs.drop (i + cnt)).take (ai - (i + cnt)) ++ xs.drop ai) by
      rw [← hsplit2]; simp [List.append_assoc]]
    rw [hrun2]
    simp only [okBind]
    rw [patchListGo_append]
    rw [hrun3]
    simp only [okBind]
    rw [show (bsp ++ bsp2p) ++ ((ys.drop (j + cnt)).take (bj - (j + cnt)) ++ xs.drop ai) =
        ((bsp ++ bsp2p) ++ (ys.drop (j + cnt)).take (bj - (j + cnt))) ++ xs.drop ai by
      simp [List.append_assoc]]
    rw [show ((j : Int) - (i : Int)) -
          (((xs.drop (i + cnt)).take (ai - (i + cnt))).length : Int) +
          (((ys.drop (j + cnt)).take (bj - (j + cnt))).length : Int) =
        ((bj : Int) - (ai : Int)) by
      rw [hlen_lrem, hlen_ladd]
      push_cast [Nat.cast_sub hica, Nat.cast_sub hjcb]
      omega]
    exact hrunRec

/-! ### The dict key loop patches back to the second operand -/

theorem dictGo_patch_go {n : Nat} {c : Cfg} (hN : c.N = true) (hA : c.A = true)
    (hR : c.R = true) (hn1 : 1 ≤ n) {xs0 ys0 : VPairs}
    (HRT : ∀ k av bv, alookup k xs0 = some av → alookup k ys0 = some bv →
      ∃ r, patch av (diffF n c av bv) = .ok r ∧ eqV r bv = true ∧ wfV r = true)
    (Hemp : ∀ k av bv, alookup k xs0 = some av → alookup k ys0 = some bv →
      isEmptyNode (diffF n c av bv) = true → eqV av bv = true)
    (hwxs0 : ∀ q ∈ xs0.toList, wfV q.2 = true)
    (hwys0 : ∀ q ∈ ys0.toList, wfV q.2 = true) :
    ∀ (ks : List String), ks.Nodup → ∀ (es : VPairs),
    (∀ k2 ∈ ks, alookup k2 es = alookup k2 xs0) →
    keysNodup (keysV es) = true →
    (∀ q ∈ es.toList, wfV q.2 = true) →
    ∃ es2, patchPairsGo patch (dictGo (diffF n c) c xs0 ys0 ks).toList (.dict es) =
        .ok (.dict es2) ∧
      keysNodup (keysV es2) = true ∧
      (∀ q ∈ es2.toList, wfV q.2 = true) ∧
      (∀ k2, k2 ∉ ks → alookup k2 es2 = alookup k2 es) ∧
      (∀ k2 ∈ ks,
        (match alookup k2 xs0, alookup k2 ys0 with
         | some _, some bv => ∃ w, alookup k2 es2 = some w ∧ eqV w bv = true ∧ wfV w = true
         | some _, none => alookup k2 es2 = none
         | none, some bv => ∃ w, alookup k2 es2 = some w ∧ eqV w bv = true ∧ wfV w = true
         | none, none => alookup k2 es2 = none))
  | [], _, es => by
    intro _ hnodup hwes
    exact ⟨es, by simp [dictGo, VPairs.toList, patchPairsGo], hnodup, hwes,
      fun _ _ => rfl, by simp⟩
  | k :: ks, hnd, es => by
    intro Hcur hnodup hwes
    have hknotks : k ∉ ks := (List.nodup_cons.1 hnd).1
    have hndks : ks.Nodup := (List.nodup_cons.1 hnd).2
    have hcurk : alookup k es = alookup k xs0 := Hcur k (by simp)
    have Hcur2 : ∀ k2 ∈ ks, alookup k2 es = alookup k2 xs0 :=
      fun k2 hk2 => Hcur k2 (by simp [hk2])
    rcases hx : alookup k xs0 with _ | av <;> rcases hy : alookup k ys0 with _ | bv
    · -- key in neither: no entry
      have hpg : dictGo (diffF n c) c xs0 ys0 (k :: ks) = dictGo (diffF n c) c xs0 ys0 ks := by
        simp only [dictGo, hx, hy]
      rw [hpg]
      obtain ⟨es2, hrun, hnd2, hw2, hne2, hpost⟩ :=
        dictGo_patch_go hN hA hR hn1 HRT Hemp hwxs0 hwys0 ks hndks es Hcur2 hnodup hwes
      refine ⟨es2, hrun, hnd2, hw2, fun k2 hk2 => hne2 k2 (fun h => hk2 (by simp [h])), ?_⟩
      intro k2 hk2
      rcases List.mem_cons.1 hk2 with h | h
      · subst h
        simp only [hx, hy]
        rw [hne2 k2 hknotks, hcurk, hx]
      · exact hpost k2 h
    · -- added key
      have hpg : dictGo (diffF n c) c xs0 ys0 (k :: ks) =
          .cons k (.dict (.cons "A" bv .nil)) (dictGo (diffF n c) c xs0 ys0 ks) := by
        simp only [dictGo, hx, hy, hA, ifTrueE, if_true]
      rw [hpg]
      have hwbv : wfV bv = true := hwys0 (k, bv) (alookup_mem hy)
      obtain ⟨es2, hrun, hnd2, hw2, hne2, hpost⟩ :=
        dictGo_patch_go hN hA hR hn1 HRT Hemp hwxs0 hwys0 ks hndks (setPairs k bv es)
          (fun k2 hk2 => by
            rw [alookup_setPairs_ne bv (fun h => hknotks (by rw [← h]; exact hk2)) es]
            exact Hcur2 k2 hk2)
          (keysNodup_setPairs bv hnodup)
          (setPairs_values (P := fun v => wfV v = true) hwbv hwes)
      refine ⟨es2, ?_, hnd2, hw2, ?_, ?_⟩
      · simp only [VPairs.toList, patchPairsGo]
        rw [patchPairStep_A k bv es, okBind]
        exact hrun
      · intro k2 hk2
        rw [hne2 k2 (fun h => hk2 (by simp [h])),
          alookup_setPairs_ne bv (fun h => hk2 (by simp [h])) es]
      · intro k2 hk2
        rcases List.mem_cons.1 hk2 with h | h
        · subst h
          simp only [hx, hy]
          exact ⟨bv, by rw [hne2 k2 hknotks, alookup_setPairs_self], eqV_refl hwbv, hwbv⟩
        · exact hpost k2 h
    · -- removed key
      have hpg : dictGo (diffF n c) c xs0 ys0 (k :: ks) =
          .cons k (.dict (.cons "R" (if c.trimR then .null else av) .nil))
            (dictGo (diffF n c) c xs0 ys0 ks) := by
        simp only [dictGo, hx, hy, hR, ifTrueE, if_true]
      rw [hpg]
      obtain ⟨es2, hrun, hnd2, hw2, hne2, hpost⟩ :=
        dictGo_patch_go hN hA hR hn1 HRT Hemp hwxs0 hwys0 ks hndks (delPairs k es)
          (fun k2 hk2 => by
            rw [alookup_delPairs_ne (fun h => hknotks (by rw [← h]; exact hk2)) es]
            exact Hcur2 k2 hk2)
          (keysNodup_delPairs k hnodup)
          (delPairs_values (P := fun v => wfV v = true) hwes)
      refine ⟨es2, ?_, hnd2, hw2, ?_, ?_⟩
      · simp only [VPairs.toList, patchPairsGo]
        rw [patchPairStep_R k _ (by rw [hcurk, hx]; rfl), okBind]
        exact hrun
      · intro k2 hk2
        rw [hne2 k2 (fun h => hk2 (by simp [h])),
          alookup_delPairs_ne (fun h => hk2 (by simp [h])) es]
      · intro k2 hk2
        rcases List.mem_cons.1 hk2 with h | h
        · subst h
          simp only [hx, hy]
          rw [hne2 k2 hknotks]
          exact alookup_delPairs_self hnodup
        · exact hpost k2 h
    · -- common key
      have hwav : wfV av = true := hwxs0 (k, av) (alookup_mem hx)
      by_cases he : eqV av bv = true
      · cases hU : c.U with
        | true =>
          have hpg : dictGo (diffF n c) c xs0 ys0 (k :: ks) =
              .cons k (.dict (.cons "U" av .nil)) (dictGo (diffF n c) c xs0 ys0 ks) := by
            simp only [dictGo, hx, hy, he, hU, ifTrueE, if_true]
          rw [hpg]
          obtain ⟨es2, hrun, hnd2, hw2, hne2, hpost⟩ :=
            dictGo_patch_go hN hA hR hn1 HRT Hemp hwxs0 hwys0 ks hndks es Hcur2 hnodup hwes
          refine ⟨es2, ?_, hnd2, hw2, fun k2 hk2 => hne2 k2 (fun h => hk2 (by simp [h])), ?_⟩
          · simp only [VPairs.toList, patchPairsGo]
            rw [patchPairStep_U k av (.dict es), okBind]
            exact hrun
          · intro k2 hk2
            rcases List.mem_cons.1 hk2 with h | h
            · subst h
              simp only [hx, hy]
              exact ⟨av, by rw [hne2 k2 hknotks, hcurk, hx], he, hwav⟩
            · exact hpost k2 h
        | false =>
          have hpg : dictGo (diffF n c) c xs0 ys0 (k :: ks) =
              dictGo (diffF n c) c xs0 ys0 ks := by
            simp only [dictGo, hx, hy, he, hU, ifTrueE, if_true, ifFalseE, if_false,
              Bool.false_eq_true, eq_self_iff_true]
          rw [hpg]
          obtain ⟨es2, hrun, hnd2, hw2, hne2, hpost⟩ :=
            dictGo_patch_go hN hA hR hn1 HRT Hemp hwxs0 hwys0 ks hndks es Hcur2 hnodup hwes
          refine ⟨es2, hrun, hnd2, hw2,
            fun k2 hk2 => hne2 k2 (fun h => hk2 (by simp [h])), ?_⟩
          intro k2 hk2
          rcases List.mem_cons.1 hk2 with h | h
          · subst h
            simp only [hx, hy]
            exact ⟨av, by rw [hne2 k2 hknotks, hcurk, hx], he, hwav⟩
          · exact hpost k2 h
      · have heF : eqV av bv = false := by
          revert he; cases eqV av bv <;> simp
        have hemp : isEmptyNode (diffF n c av bv) = false := by
          cases hie : isEmptyNode (diffF n c av bv) with
          | true => exact absurd (Hemp k av bv hx hy hie) (by rw [heF]; simp)
          | false => rfl
        have hpg : dictGo (diffF n c) c xs0 ys0 (k :: ks) =
            .cons k (diffF n c av bv) (dictGo (diffF n c) c xs0 ys0 ks) := by
          simp only [dictGo, hx, hy, heF, hemp, ifFalseE, if_false, Bool.false_eq_true,
            eq_self_iff_true]
        rw [hpg]
        obtain ⟨es1, hstep, ⟨r, hlr, hry, hwr⟩, hne1, hkeys1, hw1⟩ :=
          patchPairStep_child hN hn1 hemp (HRT k av bv hx hy) (hcurk.trans hx)
        obtain ⟨es2, hrun, hnd2, hw2, hne2, hpost⟩ :=
          dictGo_patch_go hN hA hR hn1 HRT Hemp hwxs0 hwys0 ks hndks es1
            (fun k2 hk2 => by
              rw [hne1 k2 (fun h => hknotks (by rw [← h]; exact hk2))]
              exact Hcur2 k2 hk2)
            (by rw [hkeys1]; exact hnodup)
            (hw1 hwes)
        refine ⟨es2, ?_, hnd2, hw2, ?_, ?_⟩
        · simp only [VPairs.toList, patchPairsGo]
          rw [hstep, okBind]
          exact hrun
        · intro k2 hk2
          rw [hne2 k2 (fun h => hk2 (by simp [h])),
            hne1 k2 (fun h => hk2 (by simp [h]))]
        · intro k2 hk2
          rcases List.mem_cons.1 hk2 with h | h
          · subst h
            simp only [hx, hy]
            exact ⟨r, by rw [hne2 k2 hknotks]; exact hlr, hry, hwr⟩
          · exact hpost k2 h

/-! ### The forward round-trip -/

/-- Patching with a node whose only relevant top key is `N` replaces the
target by the new value. -/
theorem patch_N_node {es : VPairs} (hD : alookup "D" es = none) {b : Value}
    (hNl : alookup "N" es = some b) (t : Value) :
    patch t (.dict es) = .ok b := by
  show patchF (vsize (Value.dict es)) t (.dict es) = .ok b
  obtain ⟨m, hm⟩ : ∃ m, vsize (Value.dict es) = m + 1 :=
    ⟨vsize (Value.dict es) - 1, by have := vsize_pos (Value.dict es); omega⟩
  rw [hm]
  simp only [patchF, pyContains, pyIndexStr, hD, hNl, Option.isSome_none, Option.isSome_some,
    okBind, pureBind, pureExcept, ifFalseE, ifTrueE, if_true, if_false]

/-- Forward round-trip at any sufficient fuel: with `A`, `N`, `R` enabled
(`O`, `U`, `trimR` arbitrary), patching the first operand with the diff
produces a value deep-equal to the second operand. -/
theorem diff_patch_rt : ∀ (n : Nat) (c : Cfg), c.A = true → c.N = true → c.R = true →
    ∀ (a b : Value), wfV a = true → wfV b = true → vsize a + vsize b ≤ n →
    ∃ r, patch a (diffF n c a b) = .ok r ∧ eqV r b = true ∧ wfV r = true := by
  intro n
  induction n with
  | zero =>
    intro c _ _ _ a b _ _ hsz
    have := vsize_pos a; have := vsize_pos b; omega
  | succ n ih =>
    intro c hA hN hR a b hwa hwb hsz
    by_cases he : eqV a b = true
    · cases hU : c.U with
      | true =>
        have hnode : diffF (n + 1) c a b = .dict (.cons "U" a .nil) := by
          simp [diffF, he, hU]
        exact ⟨a, by rw [hnode]; exact patch_U_node a a, he, hwa⟩
      | false =>
        have hnode : diffF (n + 1) c a b = .dict .nil := by
          simp [diffF, he, hU]
        refine ⟨a, ?_, he, hwa⟩
        rw [hnode]
        rfl
    · have heF : eqV a b = false := by revert he; cases eqV a b <;> simp
      have hdef : ∀ (a2 b2 : Value), wfV b2 = true →
          diffF (n + 1) c a2 b2 = get_default_diff c a2 b2 →
          ∃ r, patch a2 (diffF (n + 1) c a2 b2) = .ok r ∧ eqV r b2 = true ∧ wfV r = true := by
        intro a2 b2 hwb2 hnode
        refine ⟨b2, ?_, eqV_refl hwb2, hwb2⟩
        rw [hnode]
        unfold get_default_diff
        rw [hN]
        cases hO : c.O with
        | true =>
          apply @patch_N_node (LP ([("N", b2)] ++ [("O", a2)])) <;> simp [LP, alookup]
        | false =>
          apply @patch_N_node (LP ([("N", b2)] ++ [])) <;> simp [LP, alookup]
      cases a <;> cases b <;>
        first
        | (refine hdef _ _ hwb ?_
           simp [diffF, heF]
           done)
        | skip
      · rename_i xsl ysl
        have hnode : diffF (n + 1) c (.list xsl) (.list ysl) =
            diff_lists_with (diffF n c) c xsl.toList ysl.toList := by
          simp [diffF, heF]
        have hwxs : ∀ x ∈ xsl.toList, wfV x = true := by
          have h2 := hwa
          rw [wfV, wfL_toList] at h2
          exact fun x hx => List.all_eq_true.1 h2 x hx
        have hwys : ∀ y ∈ ysl.toList, wfV y = true := by
          have h2 := hwb
          rw [wfV, wfL_toList] at h2
          exact fun y hy => List.all_eq_true.1 h2 y hy
        have hszel : ∀ x ∈ xsl.toList, ∀ y ∈ ysl.toList, vsize x + vsize y ≤ n := by
          intro x hx y hy
          have h1 := vsize_lt_of_mem hx
          have h2 := vsize_lt_of_mem hy
          rw [vsize_list_eq, vsize_list_eq] at hsz
          omega
        have Hemp : ∀ x ∈ xsl.toList, ∀ y ∈ ysl.toList,
            isEmptyNode (diffF n c x y) = true → eqV x y = true :=
          fun x hx y hy hie => diffF_empty_imp_eqV n c hA hN hR x y (hwxs x hx) (hwys y hy)
            (hszel x hx y hy) hie
        have HRTel : ∀ x ∈ xsl.toList, ∀ y ∈ ysl.toList,
            ∃ r, patch x (diffF n c x y) = .ok r ∧ eqV r y = true ∧ wfV r = true :=
          fun x hx y hy => ih c hA hN hR x y (hwxs x hx) (hwys y hy) (hszel x hx y hy)
        have hn1 : 1 ≤ n := by
          have := vsize_pos (Value.list xsl); have := vsize_pos (Value.list ysl); omega
        cases hout : walkGo (diffF n c) c xsl.toList ysl.toList
            (get_matching_blocks (xsl.toList.map encode) (ysl.toList.map encode)) 0 0 false with
        | nil =>
          exfalso
          have hie : isEmptyNode (diffF (n + 1) c (.list xsl) (.list ysl)) = true := by
            rw [hnode]
            simp [diff_lists_with, hout, isEmptyNode]
          have := diffF_empty_imp_eqV (n + 1) c hA hN hR _ _ hwa hwb hsz hie
          rw [heF] at this
          cases this
        | cons v0 rest0 =>
          have hblocks : BlocksOk xsl.toList.length ysl.toList.length 0 0
              (get_matching_blocks (xsl.toList.map encode) (ysl.toList.map encode)) := by
            have h2 := get_blocks_ok (xsl.toList.map encode) (ysl.toList.map encode)
            rw [List.length_map, List.length_map] at h2
            exact h2
          obtain ⟨bsp2, curOut, scOut, hrun, hlenF, hfaF, hwfF⟩ :=
            walkGo_patch hN hA hR hn1 hwxs hwys Hemp HRTel
              (get_matching_blocks (xsl.toList.map encode) (ysl.toList.map encode))
              0 0 false [] 0 hblocks rfl (by simp) (by simp) (fun _ => rfl)
          rw [hout] at hrun
          have hnode2 : diff_lists_with (diffF n c) c xsl.toList ysl.toList =
              .dict (.cons "D" (.list (LV (v0 :: rest0))) .nil) := by
            simp [diff_lists_with, hout]
          refine ⟨.list (LV bsp2), ?_, ?_, ?_⟩
          · rw [hnode, hnode2]
            show patchF (vsize (Value.dict (.cons "D" (.list (LV (v0 :: rest0))) .nil)))
              (.list xsl) _ = .ok (.list (LV bsp2))
            have hv : vsize (Value.dict (.cons "D" (.list (LV (v0 :: rest0))) .nil)) =
                (vsizeL (LV (v0 :: rest0)) + 3) + 1 := by
              simp [vsize, vsizeP]
              omega
            rw [hv]
            generalize hm2 : vsizeL (LV (v0 :: rest0)) + 3 = m
            have hlookD : alookup "D" (VPairs.cons "D" (.list (LV (v0 :: rest0))) .nil) =
                some (.list (LV (v0 :: rest0))) := by simp [alookup]
            simp only [patchF, pyContains, pyIndexStr, hlookD, Option.isSome_some, okBind,
              pureBind, pureExcept, ifFalseE, ifTrueE, if_true, if_false]
            rw [toList_LV]
            have hcongr : patchListGo (patchF m) (v0 :: rest0)
                (.list xsl) 0 0 = patchListGo patch (v0 :: rest0) (.list xsl) 0 0 := by
              apply patchListGo_congr
              intro sub hsub tv
              have h2 : vsize sub < vsizeL (LV (v0 :: rest0)) := by
                apply vsize_lt_of_mem
                rw [toList_LV]
                exact hsub
              exact patchF_eq_patch (by omega)
            rw [hcongr]
            have hstart : (Value.list xsl) = .list (LV ([] ++ xsl.toList.drop 0)) := by
              simp [LV_toList]
            rw [hstart]
            have h0 : ((0 : Nat) : Int) - ((0 : Nat) : Int) = (0 : Int) := by simp
            rw [h0] at hrun
            rw [hrun]
            rfl
          · rw [eqV_list_eq, toList_LV, listEqGo_iff]
            exact hfaF
          · rw [wfV, wfL_toList]
            apply List.all_eq_true.2
            intro x hx
            rw [toList_LV] at hx
            exact hwfF x hx
      · rename_i xs ys
        have hnode : diffF (n + 1) c (.dict xs) (.dict ys) =
            diff_dicts_with (diffF n c) c xs ys := by
          simp [diffF, heF]
        have hwa2 := hwa
        have hwb2 := hwb
        rw [wfV, Bool.and_eq_true] at hwa2 hwb2
        have hnda := hwa2.1
        have hndb := hwb2.1
        have hwxs0 : ∀ q ∈ xs.toList, wfV q.2 = true := by
          have h2 := hwa2.2
          rw [wfP_toList] at h2
          exact fun q hq => List.all_eq_true.1 h2 q hq
        have hwys0 : ∀ q ∈ ys.toList, wfV q.2 = true := by
          have h2 := hwb2.2
          rw [wfP_toList] at h2
          exact fun q hq => List.all_eq_true.1 h2 q hq
        have hszel : ∀ k av bv, alookup k xs = some av → alookup k ys = some bv →
            vsize av + vsize bv ≤ n := by
          intro k av bv hav hbv
          have h1 := vsize_lt_of_alookup hav
          have h2 := vsize_lt_of_alookup hbv
          rw [vsize_dict_eq, vsize_dict_eq] at hsz
          omega
        have HRT : ∀ k av bv, alookup k xs = some av → alookup k ys = some bv →
            ∃ r, patch av (diffF n c av bv) = .ok r ∧ eqV r bv = true ∧ wfV r = true :=
          fun k av bv hav hbv => ih c hA hN hR av bv (hwxs0 (k, av) (alookup_mem hav))
            (hwys0 (k, bv) (alookup_mem hbv)) (hszel k av bv hav hbv)
        have Hemp : ∀ k av bv, alookup k xs = some av → alookup k ys = some bv →
            isEmptyNode (diffF n c av bv) = true → eqV av bv = true :=
          fun k av bv hav hbv hie => diffF_empty_imp_eqV n c hA hN hR av bv
            (hwxs0 (k, av) (alookup_mem hav)) (hwys0 (k, bv) (alookup_mem hbv))
            (hszel k av bv hav hbv) hie
        have hn1 : 1 ≤ n := by
          have := vsize_pos (Value.dict xs); have := vsize_pos (Value.dict ys); omega
        cases hgo : dictGo (diffF n c) c xs ys (unionKeys (keysV xs) (keysV ys)) with
        | nil =>
          exfalso
          have hie : isEmptyNode (diffF (n + 1) c (.dict xs) (.dict ys)) = true := by
            rw [hnode]
            simp [diff_dicts_with, hgo, isEmptyNode]
          have := diffF_empty_imp_eqV (n + 1) c hA hN hR _ _ hwa hwb hsz hie
          rw [heF] at this
          cases this
        | cons k0 v0 rest0 =>
          obtain ⟨es2, hrun, hnd2, hw2, hne2, hpost⟩ :=
            dictGo_patch_go hN hA hR hn1 HRT Hemp hwxs0 hwys0
              (unionKeys (keysV xs) (keysV ys)) (unionKeys_nodup _ _) xs
              (fun _ _ => rfl) hnda hwxs0
          rw [hgo] at hrun
          have hnode2 : diff_dicts_with (diffF n c) c xs ys =
              .dict (.cons "D" (.dict (.cons k0 v0 rest0)) .nil) := by
            simp [diff_dicts_with, hgo]
          refine ⟨.dict es2, ?_, ?_, ?_⟩
          · rw [hnode, hnode2]
            show patchF (vsize (Value.dict (.cons "D" (.dict (.cons k0 v0 rest0)) .nil)))
              (.dict xs) _ = .ok (.dict es2)
            have hv : vsize (Value.dict (.cons "D" (.dict (.cons k0 v0 rest0)) .nil)) =
                (vsizeP (VPairs.cons k0 v0 rest0) + 3) + 1 := by
              simp [vsize, vsizeP]
              omega
            rw [hv]
            generalize hm2 : vsizeP (VPairs.cons k0 v0 rest0) + 3 = m
            have hlookD : alookup "D" (VPairs.cons "D" (.dict (.cons k0 v0 rest0)) .nil) =
                some (.dict (.cons k0 v0 rest0)) := by simp [alookup]
            simp only [patchF, pyContains, pyIndexStr, hlookD, Option.isSome_some, okBind,
              pureBind, pureExcept, ifFalseE, ifTrueE, if_true, if_false]
            have hcongr : patchPairsGo (patchF m)
                (VPairs.cons k0 v0 rest0).toList (.dict xs) =
                patchPairsGo patch (VPairs.cons k0 v0 rest0).toList (.dict xs) := by
              apply patchPairsGo_congr
              intro q hq tv
              obtain ⟨qk, qv⟩ := q
              have h2 : vsize qv < vsizeP (VPairs.cons k0 v0 rest0) := vsize_lt_of_pair_mem hq
              exact patchF_eq_patch (show vsize qv ≤ m by omega)
            rw [hcongr]
            exact hrun
          · rw [eqV_dict_eq]
            have hdir1 : dictLeGo eqV es2 ys = true := by
              rw [dictLeGo_iff]
              intro k w hmem
              have hlk : alookup k es2 = some w := alookup_of_nodup hnd2 hmem
              by_cases hks : k ∈ unionKeys (keysV xs) (keysV ys)
              · have hp := hpost k hks
                rcases hxk : alookup k xs with _ | av <;>
                  rcases hyk : alookup k ys with _ | bv <;>
                  simp only [hxk, hyk] at hp
                · rw [hp] at hlk; cases hlk
                · obtain ⟨w2, hw2l, hwe, _⟩ := hp
                  rw [hw2l] at hlk
                  injection hlk with h3
                  subst h3
                  exact ⟨bv, rfl, hwe⟩
                · rw [hp] at hlk; cases hlk
                · obtain ⟨w2, hw2l, hwe, _⟩ := hp
                  rw [hw2l] at hlk
                  injection hlk with h3
                  subst h3
                  exact ⟨bv, rfl, hwe⟩
              · have hxk : alookup k xs = none := by
                  rw [alookup_none_iff]
                  intro hmem2
                  exact hks (mem_unionKeys.2 (Or.inl hmem2))
                have h4 := hne2 k hks
                rw [h4, hxk] at hlk
                cases hlk
            have hdir2 : dictLeGo eqV ys es2 = true := by
              rw [dictLeGo_iff]
              intro k bv hmem
              have hyk : alookup k ys = some bv := alookup_of_nodup hndb hmem
              have hks : k ∈ unionKeys (keysV xs) (keysV ys) :=
                mem_unionKeys.2 (Or.inr (alookup_isSome_iff.1 (by simp [hyk])))
              have hp := hpost k hks
              rcases hxk : alookup k xs with _ | av <;> simp only [hxk, hyk] at hp
              · obtain ⟨w, hw, hwe, _⟩ := hp
                exact ⟨w, hw, by rw [eqV_symm]; exact hwe⟩
              · obtain ⟨w, hw, hwe, _⟩ := hp
                exact ⟨w, hw, by rw [eqV_symm]; exact hwe⟩
            rw [hdir1, hdir2]
            rfl
          · rw [wfV, Bool.and_eq_true]
            refine ⟨hnd2, ?_⟩
            rw [wfP_toList]
            exact List.all_eq_true.2 hw2

/-! ### Claims C1 and C6 -/

/-- C1: forward round-trip — for every pair of well-formed values and every
options setting with the added, new and removed toggles all true (old,
unchanged and trim-removed arbitrary), applying the produced diff to the
first operand succeeds and reconstructs a value deep-equal (`==`) to the
second operand. -/
theorem claim_c1 (c : Cfg) (hA : c.A = true) (hN : c.N = true) (hR : c.R = true)
    (a b : Value) (hwa : wfV a = true) (hwb : wfV b = true) :
    ∃ r, patch a (diff c a b) = .ok r ∧ eqV r b = true := by
  obtain ⟨r, h1, h2, _⟩ := diff_patch_rt (vsize a + vsize b) c hA hN hR a b hwa hwb (le_refl _)
  exact ⟨r, h1, h2⟩

/-- Witness for C1 at `a = [1, 2]`, `b = [2, 3]` with default options. -/
theorem claim_c1_witness :
    ∃ r, patch (.list (LV [.int 1, .int 2]))
      (diff {} (.list (LV [.int 1, .int 2])) (.list (LV [.int 2, .int 3]))) = .ok r ∧
      eqV r (.list (LV [.int 2, .int 3])) = true :=
  claim_c1 {} rfl rfl rfl _ _ (by decide) (by decide)

/-- C6: trim independence — with the added, new and removed toggles true
and `trimR` enabled (removed payloads replaced by `None`), forward patching
is unaffected: the patch applier never reads the `R` payload, and the
round-trip still reconstructs the second operand. -/
theorem claim_c6 (c : Cfg) (hA : c.A = true) (hN : c.N = true) (hR : c.R = true)
    (htrim : c.trimR = true) (a b : Value) (hwa : wfV a = true) (hwb : wfV b = true) :
    ∃ r, patch a (diff c a b) = .ok r ∧ eqV r b = true := by
  obtain ⟨r, h1, h2, _⟩ := diff_patch_rt (vsize a + vsize b) c hA hN hR a b hwa hwb (le_refl _)
  exact ⟨r, h1, h2⟩

/-- Witness for C6 at `a = {'k': 5}`, `b = {}` with `trimR` on (the diff
then holds `{'D': {'k': {'R': None}}}` and patching still deletes the key). -/
theorem claim_c6_witness :
    ∃ r, patch (.dict (.cons "k" (.int 5) .nil))
      (diff { trimR := true } (.dict (.cons "k" (.int 5) .nil)) (.dict .nil)) = .ok r ∧
      eqV r (.dict .nil) = true :=
  claim_c6 { trimR := true } rfl rfl rfl rfl _ _ (by decide) (by decide)

/-! ### Provenance of the `NotImplementedError` during patching -/

theorem pyContains_not_invalid (v : Value) (k : String) :
    pyContains v k ≠ .error .invalidDiff := by
  cases v <;> simp [pyContains]

theorem pyIndexStr_not_invalid (v : Value) (k : String) :
    pyIndexStr v k ≠ .error .invalidDiff := by
  intro h
  unfold pyIndexStr at h
  split at h
  · split at h <;> simp at h
  · simp at h

theorem pySetKeyE_not_invalid (t : Value) (k : String) (x : Value) :
    pySetKeyE t k x ≠ .error .invalidDiff := by
  intro h
  unfold pySetKeyE at h
  split at h <;> simp at h

theorem pyDelKeyE_not_invalid (t : Value) (k : String) :
    pyDelKeyE t k ≠ .error .invalidDiff := by
  intro h
  unfold pyDelKeyE at h
  split at h
  · split at h <;> simp at h
  · simp at h

theorem pyGetIntE_not_invalid (t : Value) (i : Int) :
    pyGetIntE t i ≠ .error .invalidDiff := by
  intro h
  unfold pyGetIntE at h
  split at h
  · dsimp only at h
    split at h <;> simp at h
  · simp at h
  · simp at h

theorem pySetIntE_not_invalid (t : Value) (i : Int) (x : Value) :
    pySetIntE t i x ≠ .error .invalidDiff := by
  intro h
  unfold pySetIntE at h
  split at h
  · dsimp only at h
    split at h <;> simp at h
  · simp at h
  · simp at h

theorem pyDelIntE_not_invalid (t : Value) (i : Int) :
    pyDelIntE t i ≠ .error .invalidDiff := by
  intro h
  unfold pyDelIntE at h
  split at h
  · dsimp only at h
    split at h <;> simp at h
  · simp at h
  · simp at h

theorem pyInsIntE_not_invalid (t : Value) (i : Int) (x : Value) :
    pyInsIntE t i x ≠ .error .invalidDiff := by
  intro h
  unfold pyInsIntE at h
  split at h <;> simp at h

theorem asIntE_not_invalid (v : Value) : asIntE v ≠ .error .invalidDiff := by
  intro h
  unfold asIntE at h
  split at h <;> simp at h

/-- The dict-branch step only raises `invalidDiff` from its recursive call. -/
theorem patchPairStep_invalid {p : Value → Value → Except PErr Value} {k : String}
    {sub t : Value} (h : patchPairStep p k sub t = .error .invalidDiff) :
    ∃ tv, p tv sub = .error .invalidDiff := by
  unfold patchPairStep at h
  cases hd : pyContains sub "D" with
  | error e =>
    simp only [hd, errBind] at h
    injection h with h2
    rw [h2] at hd
    exact absurd hd (pyContains_not_invalid sub "D")
  | ok hdv =>
    simp only [hd, okBind] at h
    have hDN : ∀ (h2 : (do
          let tv ← pyGetKeyE t k
          let r ← p tv sub
          pySetKeyE t k r) = Except.error PErr.invalidDiff),
        ∃ tv, p tv sub = .error .invalidDiff := by
      intro h2
      cases hg : pyGetKeyE t k with
      | error e =>
        simp only [hg, errBind] at h2
        injection h2 with h3
        rw [h3] at hg
        exact absurd hg (pyIndexStr_not_invalid t k)
      | ok tv =>
        simp only [hg, okBind] at h2
        cases hp2 : p tv sub with
        | error e =>
          simp only [hp2, errBind] at h2
          injection h2 with h3
          rw [h3] at hp2
          exact ⟨tv, hp2⟩
        | ok r =>
          simp only [hp2, okBind] at h2
          exact absurd h2 (pySetKeyE_not_invalid t k r)
    cases hdv with
    | true =>
      simp only [ifTrueE, pureBind] at h
      exact hDN h
    | false =>
      simp only [ifFalseE] at h
      cases hn : pyContains sub "N" with
      | error e =>
        simp only [hn, errBind] at h
        injection h with h2
        rw [h2] at hn
        exact absurd hn (pyContains_not_invalid sub "N")
      | ok hnv =>
        simp only [hn, okBind] at h
        cases hnv with
        | true =>
          simp only [ifTrueE] at h
          exact hDN h
        | false =>
          simp only [ifFalseE] at h
          cases ha : pyContains sub "A" with
          | error e =>
            simp only [ha, errBind] at h
            injection h with h2
            rw [h2] at ha
            exact absurd ha (pyContains_not_invalid sub "A")
          | ok hav =>
            simp only [ha, okBind] at h
            cases hav with
            | true =>
              simp only [ifTrueE] at h
              cases hia : pyIndexStr sub "A" with
              | error e =>
                simp only [hia, errBind] at h
                injection h with h2
                rw [h2] at hia
                exact absurd hia (pyIndexStr_not_invalid sub "A")
              | ok av =>
                simp only [hia, okBind] at h
                exact absurd h (pySetKeyE_not_invalid t k av)
            | false =>
              simp only [ifFalseE] at h
              cases hr : pyContains sub "R" with
              | error e =>
                simp only [hr, errBind] at h
                injection h with h2
                rw [h2] at hr
                exact absurd hr (pyContains_not_invalid sub "R")
              | ok hrv =>
                simp only [hr, okBind] at h
                cases hrv with
                | true =>
                  simp only [ifTrueE] at h
                  exact absurd h (pyDelKeyE_not_invalid t k)
                | false =>
                  simp only [ifFalseE, pureExcept] at h
                  cases h

/-- The list-branch step only raises `invalidDiff` from its recursive call. -/
theorem patchStep_invalid {p : Value → Value → Except PErr Value} {sub t : Value}
    {i j : Int} (h : patchStep p sub t i j = .error .invalidDiff) :
    ∃ tv, p tv sub = .error .invalidDiff := by
  unfold patchStep at h
  cases hi : pyContains sub "I" with
  | error e =>
    simp only [hi, errBind] at h
    injection h with h2
    rw [h2] at hi
    exact absurd hi (pyContains_not_invalid sub "I")
  | ok hiv =>
    simp only [hi, okBind] at h
    have hbody : ∀ (i2 : Int) (h2 : (do
          let hd ← pyContains sub "D"
          let hdn ← if hd then pure true else pyContains sub "N"
          if hdn then do
            let tv ← pyGetIntE t i2
            let r ← p tv sub
            let t2 ← pySetIntE t i2 r
            pure (t2, i2 + 1, j)
          else do
            let ha ← pyContains sub "A"
            if ha then do
              let av ← pyIndexStr sub "A"
              let t2 ← pyInsIntE t i2 av
              pure (t2, i2 + 1, j + 1)
            else do
              let hr ← pyContains sub "R"
              if hr then do
                let t2 ← pyDelIntE t i2
                pure (t2, i2, j - 1)
              else pure (t, i2 + 1, j)) =
          (Except.error PErr.invalidDiff : Except PErr (Value × Int × Int))),
        ∃ tv, p tv sub = .error .invalidDiff := by
      intro i2 h2
      cases hd : pyContains sub "D" with
      | error e =>
        simp only [hd, errBind] at h2
        injection h2 with h3
        rw [h3] at hd
        exact absurd hd (pyContains_not_invalid sub "D")
      | ok hdv =>
        simp only [hd, okBind] at h2
        have hDN : ∀ (h3 : (do
              let tv ← pyGetIntE t i2
              let r ← p tv sub
              let t2 ← pySetIntE t i2 r
              pure (t2, i2 + 1, j)) =
              (Except.error PErr.invalidDiff : Except PErr (Value × Int × Int))),
            ∃ tv, p tv sub = .error .invalidDiff := by
          intro h3
          cases hg : pyGetIntE t i2 with
          | error e =>
            simp only [hg, errBind] at h3
            injection h3 with h4
            rw [h4] at hg
            exact absurd hg (pyGetIntE_not_invalid t i2)
          | ok tv =>
            simp only [hg, okBind] at h3
            cases hp2 : p tv sub with
            | error e =>
              simp only [hp2, errBind] at h3
              injection h3 with h4
              rw [h4] at hp2
              exact ⟨tv, hp2⟩
            | ok r =>
              simp only [hp2, okBind] at h3
              cases hs : pySetIntE t i2 r with
              | error e =>
                simp only [hs, errBind] at h3
                injection h3 with h4
                rw [h4] at hs
                exact absurd hs (pySetIntE_not_invalid t i2 r)
              | ok t2 =>
                simp only [hs, okBind, pureExcept] at h3
                cases h3
        cases hdv with
        | true =>
          simp only [ifTrueE, pureBind] at h2
          exact hDN h2
        | false =>
          simp only [ifFalseE] at h2
          cases hn : pyContains sub "N" with
          | error e =>
            simp only [hn, errBind] at h2
            injection h2 with h3
            rw [h3] at hn
            exact absurd hn (pyContains_not_invalid sub "N")
          | ok hnv =>
            simp only [hn, okBind] at h2
            cases hnv with
            | true =>
              simp only [ifTrueE] at h2
              exact hDN h2
            | false =>
              simp only [ifFalseE] at h2
              cases ha : pyContains sub "A" with
              | error e =>
                simp only [ha, errBind] at h2
                injection h2 with h3
                rw [h3] at ha
                exact absurd ha (pyContains_not_invalid sub "A")
              | ok hav =>
                simp only [ha, okBind] at h2
                cases hav with
                | true =>
                  simp only [ifTrueE] at h2
                  cases hia : pyIndexStr sub "A" with
                  | error e =>
                    simp only [hia, errBind] at h2
                    injection h2 with h3
                    rw [h3] at hia
                    exact absurd hia (pyIndexStr_not_invalid sub "A")
                  | ok av =>
                    simp only [hia, okBind] at h2
                    cases hins : pyInsIntE t i2 av with
                    | error e =>
                      simp only [hins, errBind] at h2
                      injection h2 with h3
                      rw [h3] at hins
                      exact absurd hins (pyInsIntE_not_invalid t i2 av)
                    | ok t2 =>
                      simp only [hins, okBind, pureExcept] at h2
                      cases h2
                | false =>
                  simp only [ifFalseE] at h2
                  cases hr : pyContains sub "R" with
                  | error e =>
                    simp only [hr, errBind] at h2
                    injection h2 with h3
                    rw [h3] at hr
                    exact absurd hr (pyContains_not_invalid sub "R")
                  | ok hrv =>
                    simp only [hr, okBind] at h2
                    cases hrv with
                    | true =>
                      simp only [ifTrueE] at h2
                      cases hdel : pyDelIntE t i2 with
                      | error e =>
                        simp only [hdel, errBind] at h2
                        injection h2 with h3
                        rw [h3] at hdel
                        exact absurd hdel (pyDelIntE_not_invalid t i2)
                      | ok t2 =>
                        simp only [hdel, okBind, pureExcept] at h2
                        cases h2
                    | false =>
                      simp only [ifFalseE, pureExcept] at h2
                      cases h2
    cases hiv with
    | true =>
      simp only [ifTrueE] at h
      cases hix : pyIndexStr sub "I" with
      | error e =>
        simp only [hix, errBind] at h
        injection h with h2
        rw [h2] at hix
        exact absurd hix (pyIndexStr_not_invalid sub "I")
      | ok iv =>
        simp only [hix, okBind] at h
        cases hasi : asIntE iv with
        | error e =>
          simp only [hasi, errBind] at h
          injection h with h2
          rw [h2] at hasi
          exact absurd hasi (asIntE_not_invalid iv)
        | ok n2 =>
          simp only [hasi, okBind, pureBind] at h
          exact hbody (n2 + j) h
    | false =>
      simp only [ifFalseE, pureBind] at h
      exact hbody i h

theorem patchPairsGo_invalid {p : Value → Value → Except PErr Value} :
    ∀ (entries : List (String × Value)) (t : Value),
    patchPairsGo p entries t = .error .invalidDiff →
    ∃ q ∈ entries, ∃ tv, p tv q.2 = .error .invalidDiff
  | [], t, h => by simp [patchPairsGo] at h
  | (k, sub) :: rest, t, h => by
    simp only [patchPairsGo] at h
    cases hs : patchPairStep p k sub t with
    | error e =>
      simp only [hs, errBind] at h
      injection h with h2
      rw [h2] at hs
      exact ⟨(k, sub), by simp, patchPairStep_invalid hs⟩
    | ok t2 =>
      simp only [hs, okBind] at h
      obtain ⟨q, hq, tv, hptv⟩ := patchPairsGo_invalid rest t2 h
      exact ⟨q, by simp [hq], tv, hptv⟩

theorem patchListGo_invalid {p : Value → Value → Except PErr Value} :
    ∀ (children : List Value) (t : Value) (i j : Int),
    patchListGo p children t i j = .error .invalidDiff →
    ∃ sub ∈ children, ∃ tv, p tv sub = .error .invalidDiff
  | [], t, i, j, h => by simp [patchListGo] at h
  | sub :: rest, t, i, j, h => by
    simp only [patchListGo] at h
    cases hs : patchStep p sub t i j with
    | error e =>
      simp only [hs, errBind] at h
      injection h with h2
      rw [h2] at hs
      exact ⟨sub, by simp, patchStep_invalid hs⟩
    | ok s =>
      simp only [hs, okBind] at h
      obtain ⟨sub2, hq, tv, hptv⟩ := patchListGo_invalid rest s.1 s.2.1 s.2.2 h
      exact ⟨sub2, by simp [hq], tv, hptv⟩

/-- A node whose own `D` payload is malformed always raises the
`NotImplementedError`, whatever the target. -/
theorem patch_badD_invalid {v : Value} (h : nodeBadD v = true) (t : Value) :
    patch t v = .error .invalidDiff := by
  show patchF (vsize v) t v = _
  obtain ⟨m, hm⟩ : ∃ m, vsize v = m + 1 :=
    ⟨vsize v - 1, by have := vsize_pos v; omega⟩
  rw [hm]
  cases v with
  | dict es =>
    simp only [nodeBadD] at h
    cases hD : alookup "D" es with
    | none => rw [hD] at h; cases h
    | some pay =>
      rw [hD] at h
      have hD2 : pyContains (Value.dict es) "D" = .ok true := by
        simp [pyContains, hD]
      have hpay : pyIndexStr (Value.dict es) "D" = .ok pay := by
        simp [pyIndexStr, hD]
      simp only [patchF, hD2, hpay, okBind, ifTrueE]
      cases pay <;> first | rfl | cases h
  | null => cases h
  | bool b => cases h
  | int i => cases h
  | str s => cases h
  | list els => cases h

/-- A node without a `D` key never raises the `NotImplementedError`, at
any fuel. -/
theorem patchF_noD_not_invalid {v : Value} (h : hasKeyB v "D" = false) :
    ∀ (f : Nat) (t : Value), patchF f t v ≠ .error .invalidDiff
  | 0, t => by simp [patchF]
  | f + 1, t => by
    intro h2
    cases v with
    | dict es =>
      simp only [hasKeyB] at h
      have hD : alookup "D" es = none := by
        cases hl : alookup "D" es
        · rfl
        · rw [hl] at h; cases h
      have hD2 : pyContains (Value.dict es) "D" = .ok false := by
        simp [pyContains, hD]
      simp only [patchF, hD2, okBind, ifFalseE] at h2
      cases hN : alookup "N" es with
      | none =>
        have hN2 : pyContains (Value.dict es) "N" = .ok false := by
          simp [pyContains, hN]
        simp only [hN2, okBind, ifFalseE, pureExcept] at h2
        cases h2
      | some nv =>
        have hN2 : pyContains (Value.dict es) "N" = .ok true := by
          simp [pyContains, hN]
        have hNv : pyIndexStr (Value.dict es) "N" = .ok nv := by
          simp [pyIndexStr, hN]
        simp only [hN2, okBind, ifTrueE, hNv] at h2
        cases h2
    | null => simp [patchF, pyContains, errBind] at h2
    | bool b => simp [patchF, pyContains, errBind] at h2
    | int i => simp [patchF, pyContains, errBind] at h2
    | str s =>
      simp only [patchF, pyContains, okBind] at h2
      cases hsub : hasSub "D".toList s.toList with
      | true =>
        rw [hsub] at h2
        simp only [ifTrueE] at h2
        simp [pyIndexStr, errBind] at h2
      | false =>
        rw [hsub] at h2
        simp only [ifFalseE, okBind] at h2
        cases hsub2 : hasSub "N".toList s.toList with
        | true =>
          rw [hsub2] at h2
          simp only [ifTrueE] at h2
          simp [pyIndexStr, errBind] at h2
        | false =>
          rw [hsub2] at h2
          simp only [ifFalseE, pureExcept] at h2
          cases h2
    | list els =>
      simp only [patchF, pyContains, okBind] at h2
      cases hany : els.toList.any fun e =>
          match e with
          | Value.str s => s == "D"
          | _ => false with
      | true =>
        rw [hany] at h2
        simp only [ifTrueE] at h2
        simp [pyIndexStr, errBind] at h2
      | false =>
        rw [hany] at h2
        simp only [ifFalseE, okBind] at h2
        cases hany2 : els.toList.any fun e =>
            match e with
            | Value.str s => s == "N"
            | _ => false with
        | true =>
          rw [hany2] at h2
          simp only [ifTrueE] at h2
          simp [pyIndexStr, errBind] at h2
        | false =>
          rw [hany2] at h2
          simp only [ifFalseE, pureExcept] at h2
          cases h2

/-- A node without a `D` key never raises the `NotImplementedError`. -/
theorem patch_noD_not_invalid {v : Value} (h : hasKeyB v "D" = false) (t : Value) :
    patch t v ≠ .error .invalidDiff :=
  patchF_noD_not_invalid h (vsize v) t

/-- On well-formed diff nodes, an `invalidDiff` error always traces back to
a reachable node whose own `D` payload is malformed. -/
theorem patchF_invalid_badDeep : ∀ (f : Nat) (t v : Value), wfV v = true →
    patchF f t v = .error .invalidDiff → BadDeep v := by
  intro f
  induction f with
  | zero =>
    intro t v _ h
    simp [patchF] at h
  | succ f ih =>
    intro t v hwv h
    cases v with
    | null => exact absurd h (patchF_noD_not_invalid (v := .null) rfl (f + 1) t)
    | bool b => exact absurd h (patchF_noD_not_invalid (v := .bool b) rfl (f + 1) t)
    | int i => exact absurd h (patchF_noD_not_invalid (v := .int i) rfl (f + 1) t)
    | str s => exact absurd h (patchF_noD_not_invalid (v := .str s) rfl (f + 1) t)
    | list els => exact absurd h (patchF_noD_not_invalid (v := .list els) rfl (f + 1) t)
    | dict es =>
      cases hD : alookup "D" es with
      | none =>
        exact absurd h (patchF_noD_not_invalid (by simp [hasKeyB, hD]) (f + 1) t)
      | some pay =>
        have hD2 : pyContains (Value.dict es) "D" = .ok true := by
          simp [pyContains, hD]
        have hpay : pyIndexStr (Value.dict es) "D" = .ok pay := by
          simp [pyIndexStr, hD]
        simp only [patchF, hD2, hpay, okBind, ifTrueE] at h
        have hwpay : wfV pay = true := by
          rw [wfV, Bool.and_eq_true, wfP_toList] at hwv
          exact List.all_eq_true.1 hwv.2 ("D", pay) (alookup_mem hD)
        cases pay with
        | dict des =>
          obtain ⟨⟨k2, sub⟩, hq, tv, hptv⟩ := patchPairsGo_invalid des.toList t h
          have hwdes := hwpay
          rw [wfV, Bool.and_eq_true] at hwdes
          have hlook : alookup k2 des = some sub := alookup_of_nodup hwdes.1 hq
          have hwsub : wfV sub = true := by
            have h3 := hwdes.2
            rw [wfP_toList] at h3
            exact List.all_eq_true.1 h3 (k2, sub) hq
          exact BadDeep.dictStep es des k2 sub hD hlook (ih tv sub hwsub hptv)
        | list els =>
          cases hl : patchListGo (patchF f) els.toList t 0 0 with
          | error e =>
            simp only [hl, errBind] at h
            injection h with h2
            rw [h2] at hl
            obtain ⟨sub, hq, tv, hptv⟩ := patchListGo_invalid els.toList t 0 0 hl
            have h3 := hwpay
            rw [wfV, wfL_toList] at h3
            have hwsub : wfV sub = true := List.all_eq_true.1 h3 sub hq
            exact BadDeep.listStep es els sub hD hq (ih tv sub hwsub hptv)
          | ok r =>
            simp only [hl, okBind, pureExcept] at h
            cases h
        | null => exact BadDeep.here _ (by simp [nodeBadD, hD])
        | bool b => exact BadDeep.here _ (by simp [nodeBadD, hD])
        | int i => exact BadDeep.here _ (by simp [nodeBadD, hD])
        | str s2 => exact BadDeep.here _ (by simp [nodeBadD, hD])

/-! ### Claim C7 -/

/-- C7 counterexample: the error is not raised "exactly when" the node
itself carries a malformed `D` payload — it also propagates from nested
subdiffs. Here the outer node has a well-shaped (dict) `D` payload, yet
`patch` fails with the `NotImplementedError` because the nested subdiff
for key `k` carries `D: 5`. -/
theorem claim_c7_counterexample :
    patch (.dict (.cons "k" (.int 1) .nil))
        (.dict (.cons "D" (.dict (.cons "k" (.dict (.cons "D" (.int 5) .nil)) .nil)) .nil)) =
      .error .invalidDiff ∧
    nodeBadD (.dict (.cons "D"
        (.dict (.cons "k" (.dict (.cons "D" (.int 5) .nil)) .nil)) .nil)) = false :=
  ⟨rfl, rfl⟩

/-- C7 (amended): (1) a node whose own `D` payload is neither dict- nor
list-shaped always raises the `NotImplementedError`, whatever the target;
(2) a node without a `D` key never raises it; (3) on well-formed nodes the
error, when raised, always traces back to some node reachable through `D`
payloads whose own payload is malformed — so the error can also surface on
a node whose own `D` payload is well-shaped. -/
theorem claim_c7 :
    (∀ (t v : Value), nodeBadD v = true → patch t v = .error .invalidDiff) ∧
    (∀ (t v : Value), hasKeyB v "D" = false → patch t v ≠ .error .invalidDiff) ∧
    (∀ (t v : Value), wfV v = true → patch t v = .error .invalidDiff → BadDeep v) :=
  ⟨fun t v h => patch_badD_invalid h t,
   fun t v h => patch_noD_not_invalid h t,
   fun t v hw h => patchF_invalid_badDeep (vsize v) t v hw h⟩

/-- Witness for C7: part (1) applied at a malformed node `{'D': 5}`. -/
theorem claim_c7_witness :
    patch (.int 0) (.dict (.cons "D" (.int 5) .nil)) = .error .invalidDiff :=
  claim_c7.1 (.int 0) (.dict (.cons "D" (.int 5) .nil)) (by decide)

end Nd
